import Mathlib

/-!
# Point & Prompt editor: a shallow embedding of `js/point_and_prompt.js`

The node's mutable fields (`this.pointsData`, `this.selectedMarkerIndex`, the marker overlay,
the editable prompt field, the image element) are collected in one record, `NodeState`, and
every prototype method becomes a function on that record.

Conventions of the embedding:

* JavaScript numbers are modelled by rationals (`ℚ`) for coordinates and by naturals for
  marker indices. The functions that bear the names of the source (`_getImageDisplayInfo`,
  `_handleImageClick`, `_renderMarkers`, ...) compute in exact arithmetic. The coordinate code
  on the click path is given a second time with a rounding operator applied to the result of
  every arithmetic operation (`getImageDisplayInfoWith`, `clickPositionWith`,
  `renderMarkersWith`, `handleImageClickWith`): with `roundDouble`, the rounding of IEEE 754
  binary64, these are the numbers the program computes, and with the identity they are the
  exact functions. Every theorem that divides states that the divisor is non-zero; overflow,
  infinities and NaN are not modelled.
* Marker indices are naturals. `String` and `parseInt` are exact up to `MAX_SAFE_INTEGER`, and
  the theorems on the text written for a tag and on the round trips between the prompt field
  and its plain text bound the indices so.
* JavaScript strings are modelled by `List Char`.
* `undefined` and `null` are both `none`.
* A handler that can be aborted by an uncaught `TypeError` returns an `Outcome`, which keeps
  the node as the handler left it.
* Timers and DOM events are functions of their own: `configureRestore` and `configureRender`
  are the two callbacks scheduled by `configure`, `imgOnload` and `imgOnerror` the two handlers
  installed by `_loadImage`.
* The closures that `_renderMarkers` attaches to a marker (`onmousedown`, `onMouseMove`,
  `onMouseUp`) share their variables through a `DragSession`.
-/

namespace PointAndPrompt

/-! ## Data model -/

/-- One entry of `this.pointsData`: `{ x, y, index }`. -/
structure Point where
  x : ℚ
  y : ℚ
  index : ℕ
deriving DecidableEq

/-- `this.CONTAINER_WIDTH = 400`. -/
def CONTAINER_WIDTH : ℚ := 400

/-- `this.CONTAINER_HEIGHT = 250`. -/
def CONTAINER_HEIGHT : ℚ := 250

/-- The part of `this.imgElement` the code reads: the natural size of the decoded image and
whether `style.display` differs from `"none"`. -/
structure ImgElement where
  naturalWidth : ℕ
  naturalHeight : ℕ
  displayed : Bool
deriving DecidableEq

/-- The object returned by `_getImageDisplayInfo`. -/
structure DisplayInfo where
  x : ℚ
  y : ℚ
  width : ℚ
  height : ℚ
deriving DecidableEq

/-- The three values `marker.style.border` takes: the one of the `cssText` written by
`_renderMarkers`, and the two written by `_selectMarker`. -/
inductive Border where
  | rendered
  | gold
  | white
deriving DecidableEq

/-- A child of `this.markerOverlay`: a `div.marker-point`. -/
structure Marker where
  left : ℚ
  top : ℚ
  label : ℕ
  dataIndex : ℕ
  border : Border
deriving DecidableEq

/-- A node of the editable prompt field. A `span.marker-tag` carries its
`dataset.markerIndex`; the code always writes `dataset.markerIndex` and `textContent` from the
same number, so one natural stands for both. -/
inductive RNode where
  | text (content : List Char)
  | tag (markerIndex : ℕ)
  | br
  | block (children : List RNode)
  | elem (children : List RNode)
  | comment (data : List Char)

/-- A DOM boundary point inside the prompt field: the path of child positions leading from the
field to the container node, and the offset inside that container. -/
structure BoundaryPoint where
  path : List ℕ
  offset : ℕ
deriving DecidableEq

/-- The result of `getBoundingClientRect()` on the preview container. -/
structure ClientRect where
  left : ℚ
  top : ℚ
  width : ℚ
  height : ℚ
deriving DecidableEq

/-- What `_handleImageClick` reads from its environment: whether the event target (or one of its
ancestors below the container) is a `marker-point`, the pointer position, the container's
on-screen rectangle, and the collapsed caret of the window selection when it lies inside the
prompt field (`none` when there is no range or the anchor is outside the field). -/
structure ClickEvent where
  targetIsMarker : Bool
  clientX : ℚ
  clientY : ℚ
  containerRect : ClientRect
  caret : Option BoundaryPoint
deriving DecidableEq

/-- The fields of a node after `onNodeCreated` has run, so that the image element, the marker
overlay and the prompt field exist. `promptTextarea` is the list of child nodes of the
editable field, `markerOverlay` the list of children of the overlay. The two widget fields
are `none` when the host has no widget of that name. -/
structure NodeState where
  pointsData : List Point
  promptText : List Char
  selectedMarkerIndex : Option ℕ
  imgElement : ImgElement
  markerOverlay : List Marker
  promptTextarea : List RNode
  pointsWidget : Option (List Point)
  promptWidget : Option (List Char)

/-! ## Coordinate mapper -/

/-- The function `_getImageDisplayInfo`: the letterboxed rectangle of the image inside the fixed
400x250 container. `naturalWidth || 1` replaces a zero dimension by one. -/
def _getImageDisplayInfo (imgElement : Option ImgElement) : Option DisplayInfo :=
  match imgElement with
  | none => none
  | some img =>
    let containerWidth := CONTAINER_WIDTH
    let containerHeight := CONTAINER_HEIGHT
    let imgNaturalWidth : ℚ := if img.naturalWidth = 0 then 1 else img.naturalWidth
    let imgNaturalHeight : ℚ := if img.naturalHeight = 0 then 1 else img.naturalHeight
    let imgAspect := imgNaturalWidth / imgNaturalHeight
    let containerAspect := containerWidth / containerHeight
    if imgAspect > containerAspect then
      let imgDisplayWidth := containerWidth
      let imgDisplayHeight := containerWidth / imgAspect
      some
        { x := 0
          y := (containerHeight - imgDisplayHeight) / 2
          width := imgDisplayWidth
          height := imgDisplayHeight }
    else
      let imgDisplayHeight := containerHeight
      let imgDisplayWidth := containerHeight * imgAspect
      some
        { x := (containerWidth - imgDisplayWidth) / 2
          y := 0
          width := imgDisplayWidth
          height := imgDisplayHeight }

/-! ## Strings -/

/-- The placeholder prefix written in front of a marker number: the three characters
U+6807 U+8BB0 U+70B9. -/
def markerPrefix : List Char := [Char.ofNat 0x6807, Char.ofNat 0x8BB0, Char.ofNat 0x70B9]

/-- The line feed character. -/
def newline : Char := Char.ofNat 10

/-- The constant `Number.MAX_SAFE_INTEGER`, `2 ^ 53 - 1`: up to it every natural is a
JavaScript number, `String` writes all its decimal digits and `parseInt` reads them back. -/
def MAX_SAFE_INTEGER : ℕ := 2 ^ 53 - 1

/-- The conversion `String(index)` of a non-negative integer `n <= MAX_SAFE_INTEGER`: its
decimal digits. (From `10 ^ 21` on JavaScript writes an exponent, as in `"1e+21"`; the
theorems that serialise an index bound it by `MAX_SAFE_INTEGER`.) -/
def jsString (n : ℕ) : List Char := Nat.toDigits 10 n

/-- The class `\d` of a JavaScript regular expression: the ten ASCII digits. -/
def isDigit (c : Char) : Bool := 48 ≤ c.toNat && c.toNat ≤ 57

/-- The result of `parseInt` on a non-empty string of ASCII digits whose value is at most
`MAX_SAFE_INTEGER`. (Above it JavaScript rounds to the nearest double, `9007199254740993`
being read as `9007199254740992`; the theorems that parse a placeholder bound its number by
`MAX_SAFE_INTEGER`.) -/
def parseInt (digits : List Char) : ℕ :=
  digits.foldl (fun acc c => 10 * acc + (c.toNat - 48)) 0

/-- The characters removed by `String.prototype.trim`: ECMAScript white space and line
terminators. -/
def isJSWhiteSpace (c : Char) : Bool :=
  let n := c.toNat
  n == 0x09 || n == 0x0A || n == 0x0B || n == 0x0C || n == 0x0D || n == 0x20 || n == 0xA0 ||
  n == 0x1680 || (0x2000 ≤ n && n ≤ 0x200A) || n == 0x2028 || n == 0x2029 || n == 0x202F ||
  n == 0x205F || n == 0x3000 || n == 0xFEFF

/-- The method `String.prototype.trim`. -/
def jsTrim (s : List Char) : List Char :=
  ((s.dropWhile isJSWhiteSpace).reverse.dropWhile isJSWhiteSpace).reverse

/-- The test `promptText.endsWith("\n")`. -/
def endsWithNewline (s : List Char) : Bool :=
  s.getLast? == some newline

/-! ## Rich text: serialisation -/

mutual
/-- The closure `processNode` of `_updatePromptData`, with the accumulated `promptText` passed
explicitly. An element without children has an empty `textContent` and contributes nothing. -/
def processNode (promptText : List Char) : RNode → List Char
  | .text content => promptText ++ content
  | .tag markerIndex => promptText ++ markerPrefix ++ jsString markerIndex
  | .br => promptText ++ [newline]
  | .block children =>
    processNodes
      (if promptText.length > 0 && !endsWithNewline promptText then promptText ++ [newline]
       else promptText)
      children
  | .elem children => processNodes promptText children
  | .comment data => promptText ++ data
/-- The loop `childNodes.forEach(child => processNode(child))`. -/
def processNodes (promptText : List Char) : List RNode → List Char
  | [] => promptText
  | node :: rest => processNodes (processNode promptText node) rest
end

/-- The method `_updatePromptData`: serialise the prompt field, trim, store the result in
`this.promptText` and in the `prompt_text` widget. -/
def _updatePromptData (s : NodeState) : NodeState :=
  let promptText := jsTrim (processNodes [] s.promptTextarea)
  { s with
    promptText := promptText
    promptWidget := s.promptWidget.map fun _ => promptText }

/-- The method `_updatePointsWidget`. -/
def _updatePointsWidget (s : NodeState) : NodeState :=
  { s with pointsWidget := s.pointsWidget.map fun _ => s.pointsData }

/-! ## Rich text: tags -/

mutual
/-- The tags found by `querySelectorAll(".marker-tag")` below one node, in document order, as
the list of their indices. -/
def tagsOfNode : RNode → List ℕ
  | .text _ => []
  | .tag markerIndex => [markerIndex]
  | .br => []
  | .block children => tagsOfNodes children
  | .elem children => tagsOfNodes children
  | .comment _ => []
/-- The tags found by `querySelectorAll(".marker-tag")` in a list of sibling nodes. -/
def tagsOfNodes : List RNode → List ℕ
  | [] => []
  | node :: rest => tagsOfNode node ++ tagsOfNodes rest
end

mutual
/-- The effect of `tag.remove()` on every tag of index `index` below one node: the nodes that
replace it. -/
def removeTagsNode (index : ℕ) : RNode → List RNode
  | .text content => [.text content]
  | .tag markerIndex => if markerIndex = index then [] else [.tag markerIndex]
  | .br => [.br]
  | .block children => [.block (removeTagsNodes index children)]
  | .elem children => [.elem (removeTagsNodes index children)]
  | .comment data => [.comment data]
/-- The loop `tags.forEach(tag => { if (parseInt(tag.dataset.markerIndex) === index)
tag.remove() })` over the field. -/
def removeTagsNodes (index : ℕ) : List RNode → List RNode
  | [] => []
  | node :: rest => removeTagsNode index node ++ removeTagsNodes index rest
end

mutual
/-- The effect of `tags.forEach(tag => tag.remove())` below one node. -/
def removeAllTagsNode : RNode → List RNode
  | .text content => [.text content]
  | .tag _ => []
  | .br => [.br]
  | .block children => [.block (removeAllTagsNodes children)]
  | .elem children => [.elem (removeAllTagsNodes children)]
  | .comment data => [.comment data]
/-- The effect of `tags.forEach(tag => tag.remove())` on the field. -/
def removeAllTagsNodes : List RNode → List RNode
  | [] => []
  | node :: rest => removeAllTagsNode node ++ removeAllTagsNodes rest
end

mutual
/-- The loop of `_updateTagNumbers` below one node: every tag met in document order receives
`currentIndex`, which is then incremented. Returns the node and the next `currentIndex`. -/
def renumberNode (currentIndex : ℕ) : RNode → RNode × ℕ
  | .text content => (.text content, currentIndex)
  | .tag _ => (.tag currentIndex, currentIndex + 1)
  | .br => (.br, currentIndex)
  | .block children =>
    let r := renumberNodes currentIndex children
    (.block r.1, r.2)
  | .elem children =>
    let r := renumberNodes currentIndex children
    (.elem r.1, r.2)
  | .comment data => (.comment data, currentIndex)
/-- The loop of `_updateTagNumbers` over sibling nodes. -/
def renumberNodes (currentIndex : ℕ) : List RNode → List RNode × ℕ
  | [] => ([], currentIndex)
  | node :: rest =>
    let r := renumberNode currentIndex node
    let q := renumberNodes r.2 rest
    (r.1 :: q.1, q.2)
end

/-- The method `_updateTagNumbers`: `currentIndex` starts at 1. -/
def _updateTagNumbers (s : NodeState) : NodeState :=
  { s with promptTextarea := (renumberNodes 1 s.promptTextarea).1 }

/-- The call `range.insertNode(tag)` for a collapsed range at the boundary point
`(path, offset)`: in a text node the text is split at `offset` and the tag put between the
halves, in an element the tag becomes the child at position `offset`. The result is `none`
when the boundary point does not denote a position of the field. -/
def insertNode : List ℕ → List RNode → ℕ → RNode → Option (List RNode)
  | [], children, offset, node =>
    if offset ≤ children.length then
      some (children.take offset ++ node :: children.drop offset)
    else none
  | i :: path, children, offset, node =>
    match children[i]? with
    | some (.text content) =>
      match path with
      | [] =>
        if offset ≤ content.length then
          some (children.take i ++
            .text (content.take offset) :: node :: .text (content.drop offset) ::
              children.drop (i + 1))
        else none
      | _ :: _ => none
    | some (.block sub) =>
      (insertNode path sub offset node).map fun sub' => children.set i (.block sub')
    | some (.elem sub) =>
      (insertNode path sub offset node).map fun sub' => children.set i (.elem sub')
    | _ => none

/-- The method `_insertMarkerTag`: a new `span.marker-tag` for `index` is inserted at the caret
when the caret is inside the prompt field, and appended to the field otherwise. The window
selection is taken to be collapsed, so that `range.deleteContents()` removes nothing; a caret
that denotes no position of the field leaves the content as it is. -/
def _insertMarkerTag (s : NodeState) (index : ℕ) (caret : Option BoundaryPoint) : NodeState :=
  let tag := RNode.tag index
  let content :=
    match caret with
    | some bp => (insertNode bp.path s.promptTextarea bp.offset tag).getD s.promptTextarea
    | none => s.promptTextarea ++ [tag]
  _updatePromptData { s with promptTextarea := content }

/-! ## Marker renderer -/

/-- The loop `this.pointsData.forEach((point, idx) => ...)` of `_renderMarkers`, from list
position `idx` on: one marker per point at its reverse-mapped pixel position. -/
def renderFrom (d : DisplayInfo) : ℕ → List Point → List Marker
  | _, [] => []
  | idx, point :: rest =>
    { left := d.x + point.x * d.width
      top := d.y + point.y * d.height
      label := point.index
      dataIndex := idx
      border := Border.rendered } :: renderFrom d (idx + 1) rest

/-- The method `_renderMarkers`: the overlay is emptied and rebuilt from `this.pointsData`. -/
def _renderMarkers (s : NodeState) : NodeState :=
  match _getImageDisplayInfo (some s.imgElement) with
  | none => { s with markerOverlay := [] }
  | some d => { s with markerOverlay := renderFrom d 0 s.pointsData }

/-- The loop of `_selectMarker` over `markerOverlay.children`, from position `i` on. -/
def restyleFrom (idx : ℕ) : ℕ → List Marker → List Marker
  | _, [] => []
  | i, marker :: rest =>
    { marker with border := if i = idx then Border.gold else Border.white } ::
      restyleFrom idx (i + 1) rest

/-- The method `_selectMarker`. -/
def _selectMarker (s : NodeState) (idx : ℕ) : NodeState :=
  { s with
    selectedMarkerIndex := some idx
    markerOverlay := restyleFrom idx 0 s.markerOverlay }

/-- The container-local, scale-corrected position of a click: `clickX` and `clickY` of
`_handleImageClick`. -/
def clickPosition (e : ClickEvent) : ℚ × ℚ :=
  let scaleX := e.containerRect.width / CONTAINER_WIDTH
  let scaleY := e.containerRect.height / CONTAINER_HEIGHT
  ((e.clientX - e.containerRect.left) / scaleX, (e.clientY - e.containerRect.top) / scaleY)

/-- The method `_handleImageClick`. -/
def _handleImageClick (s : NodeState) (e : ClickEvent) : NodeState :=
  if e.targetIsMarker then s
  else if !s.imgElement.displayed then s
  else
    let clickX := (clickPosition e).1
    let clickY := (clickPosition e).2
    match _getImageDisplayInfo (some s.imgElement) with
    | none => s
    | some displayInfo =>
      let imgDisplayX := displayInfo.x
      let imgDisplayY := displayInfo.y
      let imgDisplayWidth := displayInfo.width
      let imgDisplayHeight := displayInfo.height
      if clickX < imgDisplayX ∨ clickX > imgDisplayX + imgDisplayWidth ∨
          clickY < imgDisplayY ∨ clickY > imgDisplayY + imgDisplayHeight then s
      else
        let relX := (clickX - imgDisplayX) / imgDisplayWidth
        let relY := (clickY - imgDisplayY) / imgDisplayHeight
        let newIndex := s.pointsData.length + 1
        let s1 := { s with pointsData := s.pointsData ++ [{ x := relX, y := relY, index := newIndex }] }
        _updatePromptData (_updatePointsWidget (_insertMarkerTag (_renderMarkers s1) newIndex e.caret))

/-! ## Deletion -/

/-- The loop `this.pointsData.forEach((point, i) => { point.index = i + 1 })`, from list
position `i` on. -/
def renumberFrom : ℕ → List Point → List Point
  | _, [] => []
  | i, point :: rest => { point with index := i + 1 } :: renumberFrom (i + 1) rest

/-- How an event handler ends: it runs to its end, or an uncaught `TypeError` aborts it. In
both cases the record is the node as the handler left it. -/
inductive Outcome where
  | completed (s : NodeState)
  | typeError (s : NodeState)

/-- The node a handler left behind. -/
def Outcome.state : Outcome → NodeState
  | .completed s => s
  | .typeError s => s

/-- Whether the handler ran to its end. -/
def Outcome.isCompleted : Outcome → Bool
  | .completed _ => true
  | .typeError _ => false

/-- The loop `tags.forEach(tag => { if (parseInt(tag.dataset.markerIndex) ===
deletedPoint.index) tag.remove() })` of `_deleteSelectedMarker`. When `deletedPoint` is
`undefined`, reading `deletedPoint.index` for the first tag raises a `TypeError` (`none`); no
tag, no read. -/
def removeDeletedTags (deletedPoint : Option Point) (content : List RNode) :
    Option (List RNode) :=
  match deletedPoint with
  | some point => some (removeTagsNodes point.index content)
  | none => if tagsOfNodes content = [] then some content else none

/-- The method `_deleteSelectedMarker`. `splice(idx, 1)` removes nothing when `idx` is not a
position of the array. -/
def _deleteSelectedMarker (s : NodeState) : Outcome :=
  match s.selectedMarkerIndex with
  | none => .completed s
  | some idx =>
    let deletedPoint := s.pointsData[idx]?
    let s1 := { s with pointsData := renumberFrom 0 (s.pointsData.eraseIdx idx) }
    match removeDeletedTags deletedPoint s1.promptTextarea with
    | none => .typeError s1
    | some content =>
      let s2 := _updateTagNumbers { s1 with promptTextarea := content }
      let s3 := { s2 with selectedMarkerIndex := none }
      .completed (_updatePromptData (_updatePointsWidget (_renderMarkers s3)))

/-- The method `_clearAllMarkers`. -/
def _clearAllMarkers (s : NodeState) : NodeState :=
  let s1 :=
    { s with
      pointsData := []
      selectedMarkerIndex := none
      markerOverlay := []
      promptTextarea := removeAllTagsNodes s.promptTextarea }
  _updatePromptData (_updatePointsWidget s1)

/-! ## Image loading -/

/-- The method `_loadImage`, up to the installation of the two event handlers: an empty file
name returns at once, otherwise the image element is shown. -/
def _loadImage (s : NodeState) (filename : List Char) : NodeState :=
  if filename = [] then s
  else { s with imgElement := { s.imgElement with displayed := true } }

/-- The `onload` handler installed by `_loadImage`, run when the `load` event of the image
fires: the natural size of the decoded image is known by then, and the handler calls
`_clearAllMarkers`. -/
def imgOnload (s : NodeState) (naturalWidth naturalHeight : ℕ) : NodeState :=
  _clearAllMarkers
    { s with
      imgElement :=
        { s.imgElement with naturalWidth := naturalWidth, naturalHeight := naturalHeight } }

/-- The `onerror` handler installed by `_loadImage`. -/
def imgOnerror (s : NodeState) : NodeState :=
  { s with imgElement := { s.imgElement with displayed := false } }

/-! ## Rich text: restoring -/

/-- An attempt to match the regular expression `标记点(\d+)` at the start of `s`: the digits of
the capture group (as many as there are) and the text behind the match. -/
def matchAt (s : List Char) : Option (List Char × List Char) :=
  if markerPrefix.isPrefixOf s then
    let t := s.drop markerPrefix.length
    let digits := t.takeWhile isDigit
    if digits = [] then none else some (digits, t.dropWhile isDigit)
  else none

/-- The call `markerRegex.exec(promptText)` on the text from `lastIndex` on: the leftmost
match, as the literal text before it, its digits and the text behind it. -/
def exec : List Char → Option (List Char × List Char × List Char)
  | [] => none
  | c :: cs =>
    match matchAt (c :: cs) with
    | some (digits, rest) => some ([], digits, rest)
    | none => (exec cs).map fun r => (c :: r.1, r.2.1, r.2.2)

/-- The `while` loop of `_restorePromptContent` together with the final append. `remaining` is
`promptText.substring(lastIndex)` and `content` the children appended so far. Every match
shortens `remaining`, so `remaining.length + 1` rounds are always enough. -/
def restoreLoop : ℕ → List Char → List RNode → List RNode
  | 0, _, content => content
  | fuel + 1, remaining, content =>
    match exec remaining with
    | some (textBefore, digits, rest) =>
      restoreLoop fuel rest
        (content ++ (if textBefore.length > 0 then [RNode.text textBefore] else []) ++
          [RNode.tag (parseInt digits)])
    | none => content ++ (if remaining.length > 0 then [RNode.text remaining] else [])

/-- The children of the prompt field built by `_restorePromptContent(promptText, ...)`. -/
def restoreContent (promptText : List Char) : List RNode :=
  if promptText = [] then []
  else restoreLoop (promptText.length + 1) promptText []

/-- The method `_restorePromptContent`; its second argument is not used by the code. -/
def _restorePromptContent (s : NodeState) (promptText : List Char) : NodeState :=
  { s with promptTextarea := restoreContent promptText }

/-- The method `_updatePromptWidget`. -/
def _updatePromptWidget (s : NodeState) : NodeState :=
  { s with promptWidget := s.promptWidget.map fun _ => s.promptText }

/-! ## Save and reload -/

/-- What `configure` reads: `data.pointsData` (`none` when absent or not an array),
`data.promptText` (`none` when absent) and the value of the host's `image` widget (`none` when
there is no such widget). -/
structure ConfigureData where
  pointsData : Option (List Point)
  promptText : Option (List Char)
  imageWidgetValue : Option (List Char)

/-- The flag `hasPointsData` of `configure`. -/
def hasPointsData (data : ConfigureData) : Bool :=
  match data.pointsData with
  | some points => points.length > 0
  | none => false

/-- The flag `hasPromptText` of `configure`. -/
def hasPromptText (data : ConfigureData) : Bool :=
  match data.promptText with
  | some text => !text.isEmpty && !(jsTrim text).isEmpty
  | none => false

/-- The flag `hasImage` of `configure`. -/
def hasImage (data : ConfigureData) : Bool :=
  match data.imageWidgetValue with
  | some value => !value.isEmpty
  | none => false

/-- The callback that `configure` schedules after 150 ms: points, prompt text and image are
restored. -/
def configureRestore (s : NodeState) (data : ConfigureData) : NodeState :=
  let s1 :=
    if hasPointsData data then _updatePointsWidget { s with pointsData := data.pointsData.getD [] }
    else _updatePointsWidget { s with pointsData := [] }
  let s2 :=
    if hasPromptText data then
      _updatePromptWidget
        (_restorePromptContent { s1 with promptText := data.promptText.getD [] }
          (data.promptText.getD []))
    else { s1 with promptText := [], promptTextarea := [] }
  if hasImage data then _loadImage s2 (data.imageWidgetValue.getD []) else s2

/-- The callback that the restore step schedules 200 ms later when there is an image:
`if (hasPointsData) node._renderMarkers()`. -/
def configureRender (s : NodeState) (data : ConfigureData) : NodeState :=
  if hasImage data && hasPointsData data then _renderMarkers s else s

/-- The node as `onNodeCreated` leaves it: no points, no text, nothing selected, an image
element that is not displayed, and the two backend widgets present. -/
def onNodeCreated : NodeState :=
  { pointsData := []
    promptText := []
    selectedMarkerIndex := none
    imgElement := { naturalWidth := 0, naturalHeight := 0, displayed := false }
    markerOverlay := []
    promptTextarea := []
    pointsWidget := some []
    promptWidget := some [] }

/-! ## Sequences of user actions -/

/-- A user action on the point store: a click on the preview container, a press on the rendered
marker at overlay position `idx`, or the "delete selected" button. -/
inductive Op where
  | click (e : ClickEvent)
  | press (idx : ℕ)
  | deleteSelected

/-- The handler run for one action. A press reaches `_selectMarker` only through the
`onmousedown` of a marker that `_renderMarkers` has put into the overlay. -/
def step (s : NodeState) : Op → NodeState
  | .click e => _handleImageClick s e
  | .press idx => if idx < s.markerOverlay.length then _selectMarker s idx else s
  | .deleteSelected => (_deleteSelectedMarker s).state

/-- The node after a sequence of actions. -/
def run (s : NodeState) : List Op → NodeState
  | [] => s
  | op :: ops => run (step s op) ops

/-! ## Specification-side definitions -/

/-- The invariant of the point store in the words of the specification: the point at list
position `i` has index `i + 1`. -/
def IndicesDense (points : List Point) : Prop :=
  ∀ (i : ℕ) (p : Point), points[i]? = some p → p.index = i + 1

/-- The letterboxed rectangle in the words of the specification, for a container `Cw` x `Ch`
and an image `Iw` x `Ih`. -/
def specLetterbox (Cw Ch Iw Ih : ℚ) : DisplayInfo :=
  let imgAspect := Iw / Ih
  let containerAspect := Cw / Ch
  if imgAspect > containerAspect then
    { width := Cw, height := Cw / imgAspect, x := 0, y := (Ch - Cw / imgAspect) / 2 }
  else
    { height := Ch, width := Ch * imgAspect, y := 0, x := (Cw - Ch * imgAspect) / 2 }

/-! ## Flat content -/

/-- A child of a prompt field that holds only literal text nodes and marker tags. -/
inductive Piece where
  | text (content : List Char)
  | tag (markerIndex : ℕ)
deriving DecidableEq

/-- The DOM node of a piece. -/
def Piece.toNode : Piece → RNode
  | .text content => .text content
  | .tag markerIndex => .tag markerIndex

/-- What one piece contributes to the plain text. -/
def pieceText : Piece → List Char
  | .text content => content
  | .tag markerIndex => markerPrefix ++ jsString markerIndex

/-- The plain text of a flat content, before trimming. -/
def plainOf : List Piece → List Char
  | [] => []
  | p :: rest => pieceText p ++ plainOf rest

/-- The equivalent sequence of a flat content: adjacent text nodes merged, empty text nodes
dropped, tags and order kept. -/
def canon : List Piece → List Piece
  | [] => []
  | .tag markerIndex :: rest => .tag markerIndex :: canon rest
  | .text content :: rest =>
    match canon rest with
    | .text next :: tail => .text (content ++ next) :: tail
    | tail => if content = [] then tail else .text content :: tail

/-- Whether a text begins with a digit. -/
def startsWithDigit : List Char → Bool
  | [] => false
  | c :: _ => isDigit c

/-- Whether the placeholders of a flat content can be told from its literal text: the
regular expression finds no match inside a literal text, and the plain text behind a tag does
not go on with a digit. -/
def separated : List Piece → Bool
  | [] => true
  | .text content :: rest => (exec content).isNone && separated rest
  | .tag _ :: rest => !startsWithDigit (plainOf rest) && separated rest

/-- No empty text node and no two adjacent text nodes. -/
def Canonical : List Piece → Prop
  | [] => True
  | .tag _ :: rest => Canonical rest
  | .text content :: rest =>
    content ≠ [] ∧ (∀ next tail, rest ≠ .text next :: tail) ∧ Canonical rest

/-! ## Dragging a marker -/

/-- What the `onmousedown` handler of a marker reads: the pointer position and the on-screen
rectangle of the preview container. -/
structure MouseDown where
  clientX : ℚ
  clientY : ℚ
  containerRect : ClientRect
deriving DecidableEq

/-- The variables shared by the closures of one marker: `idx`, the display rectangle, the
object `point` and the element `marker` as `_renderMarkers` captured them, `isDragging`,
`startX`, `startY`, and the two scales computed by `onmousedown`.

The two captured references are kept by what they denote now. `point` is `none` while the
captured object is still the entry `this.pointsData[idx]`, so that a write to the entry is
seen through `point`; it is `some p` when the list has been replaced since the rendering (as
`configure` does, with freshly parsed objects) and the captured object, of coordinates `p`,
is no longer in the list. `markerInOverlay` tells whether the captured element is still the
child of the overlay at position `idx`; a later run of `_renderMarkers` detaches it. -/
structure DragSession where
  idx : ℕ
  display : DisplayInfo
  point : Option Point
  markerInOverlay : Bool
  isDragging : Bool
  startX : ℚ
  startY : ℚ
  scaleX : ℚ
  scaleY : ℚ
deriving DecidableEq

/-- The handler `marker.onmousedown` of the marker rendered at list position `idx` with the
display rectangle `display`: the marker is selected and a drag session starts. The marker
receives the event, so it is a child of the overlay; `point` says what the captured object
is at the time of the press (see `DragSession`). -/
def markerMouseDown (s : NodeState) (display : DisplayInfo) (idx : ℕ) (point : Option Point)
    (e : MouseDown) : NodeState × DragSession :=
  (_selectMarker s idx,
    { idx := idx
      display := display
      point := point
      markerInOverlay := true
      isDragging := true
      startX := e.clientX
      startY := e.clientY
      scaleX := e.containerRect.width / CONTAINER_WIDTH
      scaleY := e.containerRect.height / CONTAINER_HEIGHT })

/-- The expression `Math.max(0, Math.min(1, v))`. -/
def clamp01 (v : ℚ) : ℚ := max 0 (min 1 v)

/-- The two assignments `marker.style.left = ...` and `marker.style.top = ...` on the marker at
overlay position `idx`. -/
def moveMarker (markers : List Marker) (idx : ℕ) (left top : ℚ) : List Marker :=
  match markers[idx]? with
  | some marker => markers.set idx { marker with left := left, top := top }
  | none => markers

/-- The closure `onMouseMove` of a drag session. The base coordinates `point.x` and `point.y`
are read from the captured object: the list entry when the session still holds it, the
detached object otherwise. The new coordinates are written to `node.pointsData[idx]`, which
raises a `TypeError` when the list has no such position, and the new pixel position to the
captured marker element. -/
def onMouseMove (s : NodeState) (drag : DragSession) (clientX clientY : ℚ) :
    Outcome × DragSession :=
  if !drag.isDragging then (.completed s, drag)
  else
    match s.pointsData[drag.idx]? with
    | none => (.typeError s, drag)
    | some entry =>
      let point := drag.point.getD entry
      let deltaX := (clientX - drag.startX) / drag.scaleX
      let deltaY := (clientY - drag.startY) / drag.scaleY
      let newRelX := clamp01 (point.x + deltaX / drag.display.width)
      let newRelY := clamp01 (point.y + deltaY / drag.display.height)
      let newAbsX := drag.display.x + newRelX * drag.display.width
      let newAbsY := drag.display.y + newRelY * drag.display.height
      (.completed
        { s with
          pointsData := s.pointsData.set drag.idx { entry with x := newRelX, y := newRelY }
          markerOverlay :=
            if drag.markerInOverlay then moveMarker s.markerOverlay drag.idx newAbsX newAbsY
            else s.markerOverlay },
        { drag with startX := clientX, startY := clientY })

/-- The closure `onMouseUp` of a drag session. -/
def onMouseUp (s : NodeState) (drag : DragSession) : NodeState × DragSession :=
  (_updatePointsWidget s, { drag with isDragging := false })

/-- The `mousemove` events of one session, in order, each given by its pointer position. -/
def dragMoves (s : NodeState) (drag : DragSession) : List (ℚ × ℚ) → NodeState × DragSession
  | [] => (s, drag)
  | move :: rest =>
    let r := onMouseMove s drag move.1 move.2
    dragMoves r.1.state r.2 rest

/-! ## Sequences of user actions, with drags and "clear all" -/

/-- A user action: a click on the preview container, a press on the rendered marker at overlay
position `idx`, a whole drag of that marker (press, moves, release), the "delete selected"
button, or the "clear all" button. -/
inductive Action where
  | click (e : ClickEvent)
  | press (idx : ℕ)
  | drag (idx : ℕ) (down : MouseDown) (moves : List (ℚ × ℚ))
  | deleteSelected
  | clearAll

/-- The handlers run for one action. A marker can be pressed or dragged only when
`_renderMarkers` has put it into the overlay, and its closures hold the display rectangle of
the image it was rendered over. Every action that replaces an entry of the point list renders
the markers again, so the closures of a marker in the overlay hold the entry of the list. -/
def act (s : NodeState) : Action → NodeState
  | .click e => _handleImageClick s e
  | .press idx => if idx < s.markerOverlay.length then _selectMarker s idx else s
  | .drag idx down moves =>
    if idx < s.markerOverlay.length then
      match _getImageDisplayInfo (some s.imgElement) with
      | none => s
      | some display =>
        let started := markerMouseDown s display idx none down
        let moved := dragMoves started.1 started.2 moves
        (onMouseUp moved.1 moved.2).1
    else s
  | .deleteSelected => (_deleteSelectedMarker s).state
  | .clearAll => _clearAllMarkers s

/-- The node after a sequence of actions. -/
def runActions (s : NodeState) : List Action → NodeState
  | [] => s
  | a :: rest => runActions (act s a) rest

/-- Whether the container is shown at a positive scale in the events of an action. -/
def Action.scalePositive : Action → Prop
  | .click e => 0 < e.containerRect.width ∧ 0 < e.containerRect.height
  | .drag _ down _ => 0 < down.containerRect.width ∧ 0 < down.containerRect.height
  | _ => True

/-- Whether a caret denotes a position of the prompt field: no caret in the field at all, or
a boundary point at which `insertNode` can insert. -/
def caretInField (content : List RNode) (caret : Option BoundaryPoint) : Bool :=
  match caret with
  | none => true
  | some bp => (insertNode bp.path content bp.offset (RNode.tag 0)).isSome

/-- Whether, along a sequence of actions, the caret of every click denotes a position of the
prompt field as it is when the click arrives. -/
def caretsInField (s : NodeState) : List Action → Bool
  | [] => true
  | .click e :: rest =>
    caretInField s.promptTextarea e.caret && caretsInField (act s (.click e)) rest
  | a :: rest => caretsInField (act s a) rest

/-- The points of a list lie in the unit square. -/
def InUnitSquare (points : List Point) : Prop :=
  ∀ p ∈ points, (0 ≤ p.x ∧ p.x ≤ 1) ∧ (0 ≤ p.y ∧ p.y ≤ 1)

/-! ## Placeholders of a plain text -/

/-- The digit strings of the placeholders that the loop of `_restorePromptContent` finds in
`remaining`, in order. -/
def placeholderDigits : ℕ → List Char → List (List Char)
  | 0, _ => []
  | fuel + 1, remaining =>
    match exec remaining with
    | some (_, digits, rest) => digits :: placeholderDigits fuel rest
    | none => []

/-- Whether a digit string of two or more digits begins with the digit zero. -/
def hasLeadingZero : List Char → Bool
  | c :: _ :: _ => c == Char.ofNat 48
  | _ => false

/-! ## Invariants of the editor, in the words of the specification -/

/-- The overlay holds one marker per point, and Selection State is empty or a position of the
point list. -/
def SelectionValid (s : NodeState) : Prop :=
  s.markerOverlay.length = s.pointsData.length ∧
    ∀ p, s.selectedMarkerIndex = some p → p < s.pointsData.length

/-- The indices of the marker tags of the prompt field are exactly `1..count`, each once, in
some order. -/
def TagsInSync (s : NodeState) : Prop :=
  (tagsOfNodes s.promptTextarea).Perm (List.range' 1 s.pointsData.length)

/-! ## Binary64 arithmetic

JavaScript evaluates every arithmetic operation on doubles: the exact result is rounded to the
nearest binary64 value, ties going to the even significand. A double is modelled by the
rational it denotes. -/

/-- The position of the leading binary digit of `n`, found by halving at most `fuel` times. -/
def log2Fuel : ℕ → ℕ → ℕ
  | 0, _ => 0
  | fuel + 1, n => if n < 2 then 0 else log2Fuel fuel (n / 2) + 1

/-- The exponent `e` with `2 ^ e <= a < 2 ^ (e + 1)` of a positive rational `a`. -/
def floorLog2 (a : ℚ) : ℤ :=
  let n := a.num.natAbs
  let d := a.den
  let k : ℤ := (log2Fuel n n : ℤ) - (log2Fuel d d : ℤ)
  if (if 0 ≤ k then 2 ^ k.toNat * d ≤ n else d ≤ 2 ^ (-k).toNat * n) then k else k - 1

/-- The integer nearest to `m`, the even one of the two when `m` lies half way. -/
def roundHalfEven (m : ℚ) : ℤ :=
  let f := ⌊m⌋
  let frac := m - f
  if frac < 1 / 2 then f
  else if 1 / 2 < frac then f + 1
  else if f % 2 = 0 then f else f + 1

/-- The exponent at which binary64 stores a positive rational `a`: the exponent of `a`, and
`-1022` below `2 ^ (-1022)` (the subnormal range). -/
def doubleExponent (a : ℚ) : ℤ := max (floorLog2 a) (-1022)

/-- The binary64 value nearest to `q` (round to nearest, ties to even): a significand of 53
binary digits at the exponent of `q`, so that two neighbouring values are `2 ^ (e - 52)`
apart. Overflow to infinity, which starts near `2 ^ 1024`, is not modelled. -/
def roundDouble (q : ℚ) : ℚ :=
  if q = 0 then 0
  else
    let a := |q|
    let e := doubleExponent a
    let ulp : ℚ := (2 : ℚ) ^ (e - 52)
    let r := roundHalfEven (a / ulp)
    (if q < 0 then -1 else 1) * r * ulp

/-! ## The coordinate code with rounded arithmetic

The click path of the coordinate code once more, the result of every arithmetic operation
passing through the rounding operator `fl`. The natural size of an image and the constants
`400`, `250` and `2` are doubles as they stand. -/

/-- The function `_getImageDisplayInfo`, every operation rounded by `fl`. -/
def getImageDisplayInfoWith (fl : ℚ → ℚ) (imgElement : Option ImgElement) : Option DisplayInfo :=
  match imgElement with
  | none => none
  | some img =>
    let containerWidth := CONTAINER_WIDTH
    let containerHeight := CONTAINER_HEIGHT
    let imgNaturalWidth : ℚ := if img.naturalWidth = 0 then 1 else img.naturalWidth
    let imgNaturalHeight : ℚ := if img.naturalHeight = 0 then 1 else img.naturalHeight
    let imgAspect := fl (imgNaturalWidth / imgNaturalHeight)
    let containerAspect := fl (containerWidth / containerHeight)
    if imgAspect > containerAspect then
      let imgDisplayWidth := containerWidth
      let imgDisplayHeight := fl (containerWidth / imgAspect)
      some
        { x := 0
          y := fl (fl (containerHeight - imgDisplayHeight) / 2)
          width := imgDisplayWidth
          height := imgDisplayHeight }
    else
      let imgDisplayHeight := containerHeight
      let imgDisplayWidth := fl (containerHeight * imgAspect)
      some
        { x := fl (fl (containerWidth - imgDisplayWidth) / 2)
          y := 0
          width := imgDisplayWidth
          height := imgDisplayHeight }

/-- The values `clickX` and `clickY` of `_handleImageClick`, every operation rounded by `fl`. -/
def clickPositionWith (fl : ℚ → ℚ) (e : ClickEvent) : ℚ × ℚ :=
  let scaleX := fl (e.containerRect.width / CONTAINER_WIDTH)
  let scaleY := fl (e.containerRect.height / CONTAINER_HEIGHT)
  (fl (fl (e.clientX - e.containerRect.left) / scaleX),
    fl (fl (e.clientY - e.containerRect.top) / scaleY))

/-- The loop of `_renderMarkers` from list position `idx` on, every operation rounded by
`fl`. -/
def renderFromWith (fl : ℚ → ℚ) (d : DisplayInfo) : ℕ → List Point → List Marker
  | _, [] => []
  | idx, point :: rest =>
    { left := fl (d.x + fl (point.x * d.width))
      top := fl (d.y + fl (point.y * d.height))
      label := point.index
      dataIndex := idx
      border := Border.rendered } :: renderFromWith fl d (idx + 1) rest

/-- The method `_renderMarkers`, every operation rounded by `fl`. -/
def renderMarkersWith (fl : ℚ → ℚ) (s : NodeState) : NodeState :=
  match getImageDisplayInfoWith fl (some s.imgElement) with
  | none => { s with markerOverlay := [] }
  | some d => { s with markerOverlay := renderFromWith fl d 0 s.pointsData }

/-- The method `_handleImageClick`, every operation rounded by `fl`. -/
def handleImageClickWith (fl : ℚ → ℚ) (s : NodeState) (e : ClickEvent) : NodeState :=
  if e.targetIsMarker then s
  else if !s.imgElement.displayed then s
  else
    let clickX := (clickPositionWith fl e).1
    let clickY := (clickPositionWith fl e).2
    match getImageDisplayInfoWith fl (some s.imgElement) with
    | none => s
    | some displayInfo =>
      let imgDisplayX := displayInfo.x
      let imgDisplayY := displayInfo.y
      let imgDisplayWidth := displayInfo.width
      let imgDisplayHeight := displayInfo.height
      if clickX < imgDisplayX ∨ clickX > fl (imgDisplayX + imgDisplayWidth) ∨
          clickY < imgDisplayY ∨ clickY > fl (imgDisplayY + imgDisplayHeight) then s
      else
        let relX := fl (fl (clickX - imgDisplayX) / imgDisplayWidth)
        let relY := fl (fl (clickY - imgDisplayY) / imgDisplayHeight)
        let newIndex := s.pointsData.length + 1
        let s1 := { s with pointsData := s.pointsData ++ [{ x := relX, y := relY, index := newIndex }] }
        _updatePromptData
          (_updatePointsWidget (_insertMarkerTag (renderMarkersWith fl s1) newIndex e.caret))

/-! ## Serialised tags in document order -/

/-- The text made of the placeholders of the given indices, in order, each followed by the
text given with it. -/
def placeholdersWith : List (ℕ × List Char) → List Char
  | [] => []
  | (n, sep) :: rest => markerPrefix ++ jsString n ++ sep ++ placeholdersWith rest

/-! ## Example states -/

/-- A node with a displayed 800x800 image and no point. -/
def withSquareImage : NodeState :=
  { onNodeCreated with
    imgElement := { naturalWidth := 800, naturalHeight := 800, displayed := true } }

/-- A click at client position `(x, y)` on the container shown at scale 1 with its corner at
the origin, the caret being outside the prompt field. -/
def clickAt (x y : ℚ) : ClickEvent :=
  { targetIsMarker := false, clientX := x, clientY := y,
    containerRect := { left := 0, top := 0, width := 400, height := 250 },
    caret := none }

/-- A node with three points of indices 1, 2, 3, their tags in the prompt field, and the
second point selected. -/
def threePoints : NodeState :=
  { withSquareImage with
    pointsData :=
      [{ x := 1 / 10, y := 1 / 10, index := 1 }, { x := 2 / 10, y := 2 / 10, index := 2 },
        { x := 3 / 10, y := 3 / 10, index := 3 }]
    promptTextarea := [.tag 1, .tag 2, .tag 3]
    selectedMarkerIndex := some 1 }

/-- A click at client position `(x, y)` on the container shown at scale 1 with its corner at
the origin, the caret standing in the prompt field itself, before its child number `offset`. -/
def clickAtCaret (x y : ℚ) (offset : ℕ) : ClickEvent :=
  { clickAt x y with caret := some { path := [], offset := offset } }

/-- A node on which three points were added, the first with the caret outside the prompt
field, the second with the caret put in front of the first tag, the third with the caret
where the second insertion left it, and the marker of the third point was then pressed. -/
def tagsOutOfOrder : NodeState :=
  run withSquareImage
    [Op.click (clickAt 100 100), Op.click (clickAtCaret 200 125 0),
      Op.click (clickAtCaret 300 50 1), Op.press 2]

/-- A persisted state with one point, its placeholder in the instruction text, and a named
image. -/
def savedOnePoint : ConfigureData :=
  { pointsData := some [{ x := 1 / 2, y := 1 / 2, index := 1 }]
    promptText := some (markerPrefix ++ jsString 1)
    imageWidgetValue := some "a.png".toList }

/-- A node on which two points were added and the marker of the second was pressed, on which
the restore step of `configure` then put the saved state `savedOnePoint`, and whose image
failed to load. -/
def staleSelection : NodeState :=
  imgOnerror
    (configureRestore
      (run withSquareImage [Op.click (clickAt 100 100), Op.click (clickAt 200 125), Op.press 1])
      savedOnePoint)

/-- The example of the specification as a flat content: "Pick up ", tag 1, " and move to ",
tag 2. -/
def pickUpPieces : List Piece :=
  [.text "Pick up ".toList, .tag 1, .text " and move to ".toList, .tag 2]

/-- The example of the specification as children of the prompt field. -/
def pickUpExample : List RNode :=
  pickUpPieces.map Piece.toNode

/-- The drag session that a press at client position (0, 0) starts on the second marker of
`threePoints`, the container being shown at scale 1. -/
def dragSecond : NodeState × DragSession :=
  markerMouseDown threePoints { x := 75, y := 0, width := 250, height := 250 } 1 none
    { clientX := 0, clientY := 0,
      containerRect := { left := 0, top := 0, width := 400, height := 250 } }

/-- A run with two clicks, a drag of the first marker far out of the container, and a third
click, on a container shown at scale 1. -/
def dragRun : List Action :=
  [Action.click (clickAt 100 100), Action.click (clickAt 200 125),
    Action.drag 0
      { clientX := 100, clientY := 100,
        containerRect := { left := 0, top := 0, width := 400, height := 250 } }
      [(150, 100), (900, -700)],
    Action.click (clickAt 300 50)]

/-- A run with three clicks, the second and third with the caret in the prompt field, a press,
a drag, a deletion and one more click. -/
def mixedRun : List Action :=
  [Action.click (clickAt 100 100), Action.click (clickAtCaret 200 125 0),
    Action.click (clickAtCaret 300 50 1), Action.press 2,
    Action.drag 1
      { clientX := 200, clientY := 125,
        containerRect := { left := 0, top := 0, width := 400, height := 250 } }
      [(210, 130)],
    Action.deleteSelected, Action.click (clickAt 150 150), Action.press 0]

/-- A node with a displayed image of natural size `w` x `h` and no point. -/
def withImage (w h : ℕ) : NodeState :=
  { onNodeCreated with
    imgElement := { naturalWidth := w, naturalHeight := h, displayed := true } }

/-- A click at client position `(x, y)` on the container shown `w` wide and `h` high with its
corner at the origin, the caret being outside the prompt field. -/
def clickOn (w h x y : ℚ) : ClickEvent :=
  { targetIsMarker := false, clientX := x, clientY := y,
    containerRect := { left := 0, top := 0, width := w, height := h },
    caret := none }

/-- The example of the specification with its two sentences in two `DIV` blocks and the
second tag inside a `SPAN` of the second block. -/
def pickUpNested : List RNode :=
  [.block [.text "Pick up ".toList, .tag 1],
    .block [.text "and move to ".toList, .elem [.tag 2]]]

/-! # Theorems -/

/-! ## Frame lemmas: which fields a method leaves alone -/

@[simp] theorem updatePromptData_pointsData (s : NodeState) :
    (_updatePromptData s).pointsData = s.pointsData := rfl

@[simp] theorem updatePromptData_selected (s : NodeState) :
    (_updatePromptData s).selectedMarkerIndex = s.selectedMarkerIndex := rfl

@[simp] theorem updatePromptData_imgElement (s : NodeState) :
    (_updatePromptData s).imgElement = s.imgElement := rfl

@[simp] theorem updatePromptData_markerOverlay (s : NodeState) :
    (_updatePromptData s).markerOverlay = s.markerOverlay := rfl

@[simp] theorem updatePromptData_promptTextarea (s : NodeState) :
    (_updatePromptData s).promptTextarea = s.promptTextarea := rfl

@[simp] theorem updatePointsWidget_pointsData (s : NodeState) :
    (_updatePointsWidget s).pointsData = s.pointsData := rfl

@[simp] theorem updatePointsWidget_selected (s : NodeState) :
    (_updatePointsWidget s).selectedMarkerIndex = s.selectedMarkerIndex := rfl

@[simp] theorem updatePointsWidget_imgElement (s : NodeState) :
    (_updatePointsWidget s).imgElement = s.imgElement := rfl

@[simp] theorem updatePointsWidget_markerOverlay (s : NodeState) :
    (_updatePointsWidget s).markerOverlay = s.markerOverlay := rfl

@[simp] theorem updatePointsWidget_promptTextarea (s : NodeState) :
    (_updatePointsWidget s).promptTextarea = s.promptTextarea := rfl

@[simp] theorem insertMarkerTag_pointsData (s : NodeState) (index : ℕ)
    (caret : Option BoundaryPoint) :
    (_insertMarkerTag s index caret).pointsData = s.pointsData := rfl

@[simp] theorem insertMarkerTag_selected (s : NodeState) (index : ℕ)
    (caret : Option BoundaryPoint) :
    (_insertMarkerTag s index caret).selectedMarkerIndex = s.selectedMarkerIndex := rfl

@[simp] theorem insertMarkerTag_imgElement (s : NodeState) (index : ℕ)
    (caret : Option BoundaryPoint) :
    (_insertMarkerTag s index caret).imgElement = s.imgElement := rfl

@[simp] theorem renderMarkers_pointsData (s : NodeState) :
    (_renderMarkers s).pointsData = s.pointsData := by
  unfold _renderMarkers; split <;> rfl

@[simp] theorem renderMarkers_selected (s : NodeState) :
    (_renderMarkers s).selectedMarkerIndex = s.selectedMarkerIndex := by
  unfold _renderMarkers; split <;> rfl

@[simp] theorem renderMarkers_imgElement (s : NodeState) :
    (_renderMarkers s).imgElement = s.imgElement := by
  unfold _renderMarkers; split <;> rfl

@[simp] theorem renderMarkers_promptTextarea (s : NodeState) :
    (_renderMarkers s).promptTextarea = s.promptTextarea := by
  unfold _renderMarkers; split <;> rfl

/-! ## The display rectangle and the click mapping -/

/-- The display rectangle of a displayed 800x800 image. -/
theorem displayInfo_square :
    _getImageDisplayInfo (some { naturalWidth := 800, naturalHeight := 800, displayed := true }) =
      some { x := 75, y := 0, width := 250, height := 250 } := by
  norm_num [_getImageDisplayInfo, CONTAINER_WIDTH, CONTAINER_HEIGHT]

/-- C1. For an image with positive natural width `Iw` and height `Ih`, `_getImageDisplayInfo`
returns exactly the letterboxed rectangle that the specification describes for the 400x250
container. -/
theorem getImageDisplayInfo_eq_specLetterbox (Iw Ih : ℕ) (displayed : Bool)
    (hw : 0 < Iw) (hh : 0 < Ih) :
    _getImageDisplayInfo
        (some { naturalWidth := Iw, naturalHeight := Ih, displayed := displayed }) =
      some (specLetterbox 400 250 Iw Ih) := by
  have hw0 : Iw ≠ 0 := Nat.pos_iff_ne_zero.mp hw
  have hh0 : Ih ≠ 0 := Nat.pos_iff_ne_zero.mp hh
  simp only [_getImageDisplayInfo, specLetterbox, CONTAINER_WIDTH, CONTAINER_HEIGHT, hw0, hh0,
    if_false]
  split <;> rfl

/-- C1, at the 800x800 image of the specification: the rectangle is 250 wide and 250 high,
at offset (75, 0). -/
theorem getImageDisplayInfo_eq_specLetterbox_witness :
    (0 < 800 ∧ 0 < 800) ∧
    _getImageDisplayInfo (some { naturalWidth := 800, naturalHeight := 800, displayed := true }) =
      some { x := 75, y := 0, width := 250, height := 250 } :=
  ⟨⟨by decide, by decide⟩, by
    rw [getImageDisplayInfo_eq_specLetterbox 800 800 true (by decide) (by decide)]
    norm_num [specLetterbox]⟩

/-! ## Save and reload -/

/-- Whatever was restored, the `onload` handler leaves no point and no marker. -/
theorem imgOnload_clears (s : NodeState) (w h : ℕ) :
    (imgOnload s w h).pointsData = [] ∧ (imgOnload s w h).markerOverlay = [] :=
  ⟨rfl, rfl⟩

/-- Rendering an empty point list gives an empty overlay. -/
theorem renderMarkers_nil (s : NodeState) (h : s.pointsData = []) :
    (_renderMarkers s).markerOverlay = [] := by
  unfold _renderMarkers
  split <;> simp [h, renderFrom]

/-- C3. On the persisted state `savedOnePoint`: the restore step of `configure` puts the
persisted point into the node, and the `load` event of the image then empties the point list
and the overlay; the render step scheduled by `configure` draws no marker, whether it runs
after or before the `load` event. -/
theorem configure_then_load_loses_points :
    (configureRestore onNodeCreated savedOnePoint).pointsData =
        [{ x := 1 / 2, y := 1 / 2, index := 1 }] ∧
    (imgOnload (configureRestore onNodeCreated savedOnePoint) 800 800).pointsData = [] ∧
    (configureRender (imgOnload (configureRestore onNodeCreated savedOnePoint) 800 800)
        savedOnePoint).markerOverlay = [] ∧
    (imgOnload (configureRender (configureRestore onNodeCreated savedOnePoint) savedOnePoint)
        800 800).pointsData = [] ∧
    (imgOnload (configureRender (configureRestore onNodeCreated savedOnePoint) savedOnePoint)
        800 800).markerOverlay = [] := by
  refine ⟨by rfl, by rfl, ?_, by rfl, by rfl⟩
  unfold configureRender
  split
  · exact renderMarkers_nil _ rfl
  · rfl

/-- C10, refuted as stated: a persisted point with `x = 2`, `y = -1` and `index = 7` is kept
by the restore step of `configure` as it is, outside the unit square and with an index that
is not its position plus one. -/
theorem configureRestore_keeps_malformed :
    (configureRestore onNodeCreated
        { pointsData := some [{ x := 2, y := -1, index := 7 }]
          promptText := none
          imageWidgetValue := none }).pointsData = [{ x := 2, y := -1, index := 7 }] ∧
    (¬ ∀ p ∈ (configureRestore onNodeCreated
          { pointsData := some [{ x := 2, y := -1, index := 7 }]
            promptText := none
            imageWidgetValue := none }).pointsData,
        (0 ≤ p.x ∧ p.x ≤ 1) ∧ (0 ≤ p.y ∧ p.y ≤ 1)) ∧
    ¬ IndicesDense (configureRestore onNodeCreated
        { pointsData := some [{ x := 2, y := -1, index := 7 }]
          promptText := none
          imageWidgetValue := none }).pointsData := by
  have hres : (configureRestore onNodeCreated
        { pointsData := some [{ x := 2, y := -1, index := 7 }]
          promptText := none
          imageWidgetValue := none }).pointsData = [{ x := 2, y := -1, index := 7 }] := by
    simp [configureRestore, hasPointsData, hasPromptText, hasImage, _updatePointsWidget]
  refine ⟨hres, ?_, ?_⟩
  · rw [hres]
    intro h
    have h2 := (h { x := 2, y := -1, index := 7 } (List.mem_singleton.mpr rfl)).1.2
    norm_num at h2
  · rw [hres]
    intro h
    have h7 := h 0 { x := 2, y := -1, index := 7 } rfl
    simp at h7

/-- C10, amended. After the restore step of `configure` the point list is the persisted array
itself, entry by entry, when `data.pointsData` is an array, and the empty list otherwise;
no entry is dropped, moved or renumbered. -/
theorem configureRestore_points_verbatim (s : NodeState) (data : ConfigureData) :
    (configureRestore s data).pointsData = data.pointsData.getD [] := by
  have h1 : (if hasPointsData data then
        _updatePointsWidget { s with pointsData := data.pointsData.getD [] }
      else _updatePointsWidget { s with pointsData := [] }).pointsData =
      data.pointsData.getD [] := by
    unfold hasPointsData
    cases hp : data.pointsData with
    | none => simp
    | some points =>
      cases points with
      | nil => simp
      | cons a l => simp
  unfold configureRestore
  simp only []
  split <;> split <;> simp [_loadImage, _updatePromptWidget, _restorePromptContent, h1] <;>
    split <;> simp [h1]

/-! ## The point store -/

theorem renumberFrom_length (k : ℕ) (l : List Point) :
    (renumberFrom k l).length = l.length := by
  induction l generalizing k with
  | nil => rfl
  | cons a l ih => simp [renumberFrom, ih]

theorem renumberFrom_getElem? (k : ℕ) (l : List Point) (i : ℕ) :
    (renumberFrom k l)[i]? = (l[i]?).map fun p => { p with index := k + i + 1 } := by
  induction l generalizing k i with
  | nil => simp [renumberFrom]
  | cons a l ih =>
    cases i with
    | zero => simp [renumberFrom]
    | succ i =>
      simp only [renumberFrom, List.getElem?_cons_succ, ih]
      congr 1
      funext p
      congr 1
      omega

theorem renumberFrom_coords (k : ℕ) (l : List Point) :
    (renumberFrom k l).map (fun q => (q.x, q.y)) = l.map fun q => (q.x, q.y) := by
  induction l generalizing k with
  | nil => rfl
  | cons a l ih => simp [renumberFrom, ih]

theorem indicesDense_renumberFrom (l : List Point) : IndicesDense (renumberFrom 0 l) := by
  intro i p h
  rw [renumberFrom_getElem?] at h
  cases hl : l[i]? with
  | none => simp [hl] at h
  | some q =>
    simp only [hl, Option.map_some', Option.some.injEq] at h
    subst h
    simp

theorem indicesDense_append (l : List Point) (x y : ℚ) (h : IndicesDense l) :
    IndicesDense (l ++ [{ x := x, y := y, index := l.length + 1 }]) := by
  intro i p hp
  rcases Nat.lt_trichotomy i l.length with hi | hi | hi
  · rw [List.getElem?_append_left hi] at hp
    exact h i p hp
  · subst hi
    simp at hp
    subst hp
    rfl
  · rw [List.getElem?_eq_none (by simp; omega)] at hp
    exact absurd hp (by simp)

/-- The point list left by `_deleteSelectedMarker` when something is selected. -/
theorem deleteSelectedMarker_pointsData (s : NodeState) (idx : ℕ)
    (hsel : s.selectedMarkerIndex = some idx) :
    (_deleteSelectedMarker s).state.pointsData = renumberFrom 0 (s.pointsData.eraseIdx idx) := by
  unfold _deleteSelectedMarker
  simp only [hsel]
  split <;> simp [Outcome.state, _updateTagNumbers]

/-- The run of `_deleteSelectedMarker` when the selected position holds a point. -/
theorem deleteSelectedMarker_of_some (s : NodeState) (idx : ℕ) (pt : Point)
    (hsel : s.selectedMarkerIndex = some idx) (hpt : s.pointsData[idx]? = some pt) :
    _deleteSelectedMarker s =
      .completed (_updatePromptData (_updatePointsWidget (_renderMarkers
        { _updateTagNumbers
            { s with
              pointsData := renumberFrom 0 (s.pointsData.eraseIdx idx)
              promptTextarea := removeTagsNodes pt.index s.promptTextarea } with
          selectedMarkerIndex := none }))) := by
  unfold _deleteSelectedMarker
  simp only [hsel, hpt, removeDeletedTags]

/-- The point list left by `_handleImageClick`: untouched, or one point longer with the next
index. -/
theorem handleImageClick_pointsData (s : NodeState) (e : ClickEvent) :
    (_handleImageClick s e).pointsData = s.pointsData ∨
    ∃ x y, (_handleImageClick s e).pointsData =
      s.pointsData ++ [{ x := x, y := y, index := s.pointsData.length + 1 }] := by
  unfold _handleImageClick
  split
  · exact Or.inl rfl
  · split
    · exact Or.inl rfl
    · split
      · exact Or.inl rfl
      · simp only []
        split
        · exact Or.inl rfl
        · rename_i d _ _
          refine Or.inr ⟨((clickPosition e).1 - d.x) / d.width,
            ((clickPosition e).2 - d.y) / d.height, ?_⟩
          simp only [updatePromptData_pointsData, updatePointsWidget_pointsData,
            insertMarkerTag_pointsData, renderMarkers_pointsData]

theorem step_preserves_indicesDense (s : NodeState) (op : Op)
    (h : IndicesDense s.pointsData) : IndicesDense (step s op).pointsData := by
  cases op with
  | click e =>
    rcases handleImageClick_pointsData s e with h1 | ⟨x, y, h1⟩
    · simpa [step, h1] using h
    · simp only [step, h1]
      exact indicesDense_append _ x y h
  | press idx =>
    simp only [step]
    split
    · exact h
    · exact h
  | deleteSelected =>
    simp only [step]
    cases hsel : s.selectedMarkerIndex with
    | none =>
      have : (_deleteSelectedMarker s).state = s := by
        unfold _deleteSelectedMarker
        simp [hsel, Outcome.state]
      rw [this]
      exact h
    | some idx =>
      rw [deleteSelectedMarker_pointsData s idx hsel]
      exact indicesDense_renumberFrom _

/-- C6. Starting from a node whose point list is empty, after every sequence of image clicks,
marker presses and "delete selected" the point at list position `i` has index `i + 1`. Every
prefix of a sequence is a sequence, so this is the state after every step. -/
theorem run_indicesDense (s : NodeState) (ops : List Op) (h : s.pointsData = []) :
    IndicesDense (run s ops).pointsData := by
  have hs : IndicesDense s.pointsData := by
    intro i p hp
    simp [h] at hp
  clear h
  induction ops generalizing s with
  | nil => exact hs
  | cons op ops ih => exact ih (step s op) (step_preserves_indicesDense s op hs)

/-- C6, on a run that adds three points, selects the first, deletes it and adds one more:
three points with the indices 1, 2, 3 are left. -/
theorem run_indicesDense_witness :
    (run withSquareImage
        [Op.click (clickAt 100 100), Op.click (clickAt 200 125), Op.click (clickAt 300 50),
          Op.press 0, Op.deleteSelected, Op.click (clickAt 150 150)]).pointsData.map
        Point.index = [1, 2, 3] ∧
    IndicesDense
      (run withSquareImage
        [Op.click (clickAt 100 100), Op.click (clickAt 200 125), Op.click (clickAt 300 50),
          Op.press 0, Op.deleteSelected, Op.click (clickAt 150 150)]).pointsData :=
  ⟨by decide!, run_indicesDense withSquareImage _ rfl⟩

/-- C7. With position `p < count` selected, `_deleteSelectedMarker` runs to its end, leaves
the list with the element at `p` removed, the other points in their order with their `x` and
`y`, each with index = new position + 1, and leaves nothing selected. -/
theorem deleteSelectedMarker_removes_selected (s : NodeState) (p : ℕ)
    (hsel : s.selectedMarkerIndex = some p) (hp : p < s.pointsData.length) :
    (_deleteSelectedMarker s).isCompleted = true ∧
    (_deleteSelectedMarker s).state.selectedMarkerIndex = none ∧
    (_deleteSelectedMarker s).state.pointsData.length = s.pointsData.length - 1 ∧
    (_deleteSelectedMarker s).state.pointsData.map (fun q => (q.x, q.y)) =
      (s.pointsData.eraseIdx p).map (fun q => (q.x, q.y)) ∧
    IndicesDense (_deleteSelectedMarker s).state.pointsData := by
  have hpts := deleteSelectedMarker_pointsData s p hsel
  obtain ⟨pt, hpt⟩ : ∃ pt, s.pointsData[p]? = some pt :=
    ⟨_, List.getElem?_eq_getElem hp⟩
  have hrun := deleteSelectedMarker_of_some s p pt hsel hpt
  refine ⟨?_, ?_, ?_, ?_, ?_⟩
  · rw [hrun]
    rfl
  · rw [hrun]
    simp [Outcome.state]
  · rw [hpts, renumberFrom_length, List.length_eraseIdx, if_pos hp]
  · rw [hpts, renumberFrom_coords]
  · rw [hpts]
    exact indicesDense_renumberFrom _

/-- C7, on three points of indices 1, 2, 3 with the second selected: two points remain, of
indices 1 and 2, the second being the old third point. -/
theorem deleteSelectedMarker_removes_selected_witness :
    (_deleteSelectedMarker threePoints).state.pointsData =
        [{ x := 1 / 10, y := 1 / 10, index := 1 }, { x := 3 / 10, y := 3 / 10, index := 2 }] ∧
    ((_deleteSelectedMarker threePoints).isCompleted = true ∧
    (_deleteSelectedMarker threePoints).state.selectedMarkerIndex = none ∧
    (_deleteSelectedMarker threePoints).state.pointsData.length =
      threePoints.pointsData.length - 1 ∧
    (_deleteSelectedMarker threePoints).state.pointsData.map (fun q => (q.x, q.y)) =
      (threePoints.pointsData.eraseIdx 1).map (fun q => (q.x, q.y)) ∧
    IndicesDense (_deleteSelectedMarker threePoints).state.pointsData) :=
  ⟨by
    rw [deleteSelectedMarker_pointsData threePoints 1 rfl]
    simp [threePoints, renumberFrom, List.eraseIdx],
   deleteSelectedMarker_removes_selected threePoints 1 rfl (by decide)⟩

/-! ## Deleting with tags in the prompt field -/

/-- C8. On `tagsOutOfOrder` the tags stand in the text in the order 2, 3, 1 and the third point
is selected. `_deleteSelectedMarker` removes tag 3; the tags 2 and 1 that remain refer to the
points 2 and 1, which keep their coordinates and indices, yet `_updateTagNumbers` numbers them
1 and 2 in the order of the text, so that each now refers to the other point. -/
theorem deleteSelectedMarker_swaps_tags :
    tagsOutOfOrder.pointsData.map Point.index = [1, 2, 3] ∧
    tagsOfNodes tagsOutOfOrder.promptTextarea = [2, 3, 1] ∧
    tagsOutOfOrder.selectedMarkerIndex = some 2 ∧
    (_deleteSelectedMarker tagsOutOfOrder).isCompleted = true ∧
    (_deleteSelectedMarker tagsOutOfOrder).state.pointsData =
      tagsOutOfOrder.pointsData.take 2 ∧
    tagsOfNodes (_deleteSelectedMarker tagsOutOfOrder).state.promptTextarea = [1, 2] := by
  refine ⟨by decide!, by decide!, by decide!, by decide!, by decide!, by decide!⟩

/-- C9. On `staleSelection` the list has one point, the prompt field one tag, and the selection
is position 1. `_deleteSelectedMarker` does not run to its end: reading `deletedPoint.index` for
the tag raises a `TypeError`, and the selection is still there. -/
theorem deleteSelectedMarker_out_of_range_throws :
    staleSelection.pointsData.length = 1 ∧
    tagsOfNodes staleSelection.promptTextarea = [1] ∧
    staleSelection.selectedMarkerIndex = some 1 ∧
    (_deleteSelectedMarker staleSelection).isCompleted = false ∧
    (_deleteSelectedMarker staleSelection).state.selectedMarkerIndex = some 1 := by
  refine ⟨by decide!, by decide!, by decide!, by decide!, by decide!⟩

/-! ## Serialisation of tags -/

theorem processNodes_append (acc : List Char) (a b : List RNode) :
    processNodes acc (a ++ b) = processNodes (processNodes acc a) b := by
  induction a generalizing acc with
  | nil => simp [processNodes]
  | cons n a ih => simp [processNodes, ih]

/-- C5, refuted as stated: the example content serialises to
"Pick up 标记点1 and move to 标记点2", not to "Pick up Marker1 and move to Marker2". -/
theorem updatePromptData_not_ascii_marker :
    (_updatePromptData { onNodeCreated with promptTextarea := pickUpExample }).promptText =
      "Pick up 标记点1 and move to 标记点2".toList ∧
    (_updatePromptData { onNodeCreated with promptTextarea := pickUpExample }).promptText ≠
      "Pick up Marker1 and move to Marker2".toList := by
  constructor <;> decide

/-! ## Decimal digits -/

theorem digitChar_spec (k : ℕ) (hk : k < 10) :
    isDigit (Nat.digitChar k) = true ∧ (Nat.digitChar k).toNat - 48 = k := by
  interval_cases k <;> exact ⟨by decide, by decide⟩

theorem parseInt_append_singleton (l : List Char) (c : Char) :
    parseInt (l ++ [c]) = 10 * parseInt l + (c.toNat - 48) := by
  simp [parseInt, List.foldl_append]

theorem toDigitsCore_spec (fuel n : ℕ) (ds : List Char) (h : n < fuel) :
    ∃ l, Nat.toDigitsCore 10 fuel n ds = l ++ ds ∧ l ≠ [] ∧ (∀ c ∈ l, isDigit c = true) ∧
      parseInt l = n := by
  induction fuel generalizing n ds with
  | zero => omega
  | succ fuel ih =>
    have hd := digitChar_spec (n % 10) (Nat.mod_lt _ (by norm_num))
    simp only [Nat.toDigitsCore]
    split
    · rename_i h0
      refine ⟨[Nat.digitChar (n % 10)], rfl, by simp, by simpa using hd.1, ?_⟩
      have : parseInt [Nat.digitChar (n % 10)] = (Nat.digitChar (n % 10)).toNat - 48 := by
        simp [parseInt]
      rw [this, hd.2]
      omega
    · rename_i h0
      obtain ⟨l, hl, hne, hdig, hval⟩ := ih (n / 10) (Nat.digitChar (n % 10) :: ds) (by omega)
      refine ⟨l ++ [Nat.digitChar (n % 10)], by simp [hl], by simp, ?_, ?_⟩
      · intro c hc
        rcases List.mem_append.mp hc with hc | hc
        · exact hdig c hc
        · simp at hc
          rw [hc]
          exact hd.1
      · rw [parseInt_append_singleton, hval, hd.2]
        omega

theorem jsString_spec (n : ℕ) :
    jsString n ≠ [] ∧ (∀ c ∈ jsString n, isDigit c = true) ∧ parseInt (jsString n) = n := by
  obtain ⟨l, hl, hne, hdig, hval⟩ := toDigitsCore_spec (n + 1) n [] (Nat.lt_succ_self n)
  have : jsString n = l := by simp [jsString, Nat.toDigits, hl]
  rw [this]
  exact ⟨hne, hdig, hval⟩

/-! ## Flat content -/

theorem canonical_canon (c : List Piece) : Canonical (canon c) := by
  induction c with
  | nil => trivial
  | cons p c ih =>
    cases p with
    | tag i => exact ih
    | text t =>
      simp only [canon]
      split
      · rename_i u r hr
        rw [hr] at ih
        obtain ⟨hu, hsep, hcan⟩ := ih
        exact ⟨by simp [hu], hsep, hcan⟩
      · rename_i r hr
        split
        · exact ih
        · rename_i ht
          exact ⟨ht, fun u r h => hr u r h, ih⟩

theorem plainOf_canon (c : List Piece) : plainOf (canon c) = plainOf c := by
  induction c with
  | nil => rfl
  | cons p c ih =>
    cases p with
    | tag i => simp [canon, plainOf, ih]
    | text t =>
      simp only [canon, plainOf, pieceText]
      rw [← ih]
      split
      · rename_i u r hr
        simp [hr, plainOf, pieceText]
      · split
        · rename_i ht
          simp [ht]
        · simp [plainOf, pieceText]

theorem processNodes_pieces (acc : List Char) (c : List Piece) :
    processNodes acc (c.map Piece.toNode) = acc ++ plainOf c := by
  induction c generalizing acc with
  | nil => simp [processNodes, plainOf]
  | cons p c ih =>
    cases p with
    | tag i => simp [processNodes, processNode, plainOf, pieceText, Piece.toNode, ih]
    | text t => simp [processNodes, processNode, plainOf, pieceText, Piece.toNode, ih]

/-! ## The regular expression -/

theorem matchAt_eq_some_iff (s digits rest : List Char) :
    matchAt s = some (digits, rest) ↔
      s = markerPrefix ++ (digits ++ rest) ∧ digits ≠ [] ∧
        digits = (digits ++ rest).takeWhile isDigit ∧ rest = (digits ++ rest).dropWhile isDigit := by
  unfold matchAt
  constructor
  · intro h
    split at h
    · rename_i hp
      rw [List.isPrefixOf_iff_prefix] at hp
      obtain ⟨t, ht⟩ := hp
      subst ht
      simp only [List.drop_left] at h
      split at h
      · exact absurd h (by simp)
      · rename_i hne
        simp only [Option.some.injEq, Prod.mk.injEq] at h
        obtain ⟨h1, h2⟩ := h
        have hsplit : digits ++ rest = t := by
          rw [← h1, ← h2]
          exact List.takeWhile_append_dropWhile _ _
        rw [hsplit]
        exact ⟨rfl, by rw [← h1]; exact hne, h1.symm, h2.symm⟩
    · exact absurd h (by simp)
  · rintro ⟨hs, hne, h1, h2⟩
    subst hs
    have hp : markerPrefix.isPrefixOf (markerPrefix ++ (digits ++ rest)) = true := by
      rw [List.isPrefixOf_iff_prefix]
      exact List.prefix_append _ _
    simp only [hp, if_true, List.drop_left]
    rw [← h1, ← h2]
    simp [hne]

theorem matchAt_isSome_iff (s : List Char) :
    (matchAt s).isSome = true ↔
      ∃ d rest, s = markerPrefix ++ d :: rest ∧ isDigit d = true := by
  unfold matchAt
  constructor
  · intro h
    split at h
    · rename_i hp
      rw [List.isPrefixOf_iff_prefix] at hp
      obtain ⟨t, ht⟩ := hp
      subst ht
      simp only [List.drop_left] at h
      cases t with
      | nil => simp at h
      | cons d rest =>
        refine ⟨d, rest, rfl, ?_⟩
        by_contra hd
        simp [List.takeWhile, hd] at h
    · simp at h
  · rintro ⟨d, rest, hs, hd⟩
    subst hs
    have hp : markerPrefix.isPrefixOf (markerPrefix ++ d :: rest) = true := by
      rw [List.isPrefixOf_iff_prefix]
      exact List.prefix_append _ _
    simp [hp, List.takeWhile, hd]

/-- A text in which no match starts stays without a match at its first position when a
placeholder, or nothing, is put behind it. -/
theorem matchAt_append_eq_none (b r : List Char) (hb : b ≠ []) (hnone : matchAt b = none)
    (hr : r = [] ∨ ∃ r', r = markerPrefix ++ r') : matchAt (b ++ r) = none := by
  rw [← Option.not_isSome_iff_eq_none]
  intro hsome
  rw [matchAt_isSome_iff] at hsome
  obtain ⟨d, rest, hs, hd⟩ := hsome
  have hbnone : ¬ (matchAt b).isSome = true := by simp [hnone]
  rw [matchAt_isSome_iff] at hbnone
  have hm0 : isDigit (Char.ofNat 0x6807) = false := by decide
  simp only [markerPrefix, List.cons_append, List.nil_append] at hs hbnone hr
  rcases b with _ | ⟨c1, _ | ⟨c2, _ | ⟨c3, _ | ⟨c4, b'⟩⟩⟩⟩
  · exact hb rfl
  · rcases hr with hr | ⟨r', hr⟩
    · subst hr; simp at hs
    · subst hr
      simp only [List.cons_append, List.nil_append, List.cons.injEq] at hs
      exact absurd hs.2.1 (by decide)
  · rcases hr with hr | ⟨r', hr⟩
    · subst hr; simp at hs
    · subst hr
      simp only [List.cons_append, List.nil_append, List.cons.injEq] at hs
      exact absurd hs.2.2.1 (by decide)
  · rcases hr with hr | ⟨r', hr⟩
    · subst hr; simp at hs
    · subst hr
      simp only [List.cons_append, List.nil_append, List.cons.injEq] at hs
      rw [← hs.2.2.2.1, hm0] at hd
      exact absurd hd (by simp)
  · simp only [List.cons_append, List.cons.injEq] at hs
    apply hbnone
    refine ⟨c4, b', ?_, ?_⟩
    · rw [hs.1, hs.2.1, hs.2.2.1]
    · rw [hs.2.2.2.1]
      exact hd

theorem exec_append_of_none (t r : List Char) (hnone : exec t = none)
    (hr : r = [] ∨ ∃ r', r = markerPrefix ++ r') :
    exec (t ++ r) = (exec r).map fun m => (t ++ m.1, m.2.1, m.2.2) := by
  induction t with
  | nil => simp
  | cons c cs ih =>
    have hm : matchAt (c :: cs) = none := by
      cases h : matchAt (c :: cs) with
      | none => rfl
      | some m => obtain ⟨ds, rest⟩ := m; simp [exec, h] at hnone
    have hcs : exec cs = none := by
      simp only [exec, hm] at hnone
      cases h : exec cs with
      | none => rfl
      | some m => simp [h] at hnone
    have hm2 := matchAt_append_eq_none (c :: cs) r (by simp) hm hr
    simp only [List.cons_append] at hm2 ⊢
    simp only [exec, hm2, ih hcs]
    cases exec r <;> simp

theorem exec_of_matchAt (s digits rest : List Char) (h : matchAt s = some (digits, rest)) :
    exec s = some ([], digits, rest) := by
  cases s with
  | nil => simp [matchAt, markerPrefix] at h
  | cons c cs => simp only [exec, h]

theorem exec_placeholder (n : ℕ) (r : List Char) (hr : startsWithDigit r = false) :
    exec (markerPrefix ++ jsString n ++ r) = some ([], jsString n, r) := by
  obtain ⟨hne, hdig, -⟩ := jsString_spec n
  have htake : (jsString n ++ r).takeWhile isDigit = jsString n := by
    rw [List.takeWhile_append_of_pos hdig]
    cases r with
    | nil => simp
    | cons c r => simp [startsWithDigit] at hr; simp [List.takeWhile, hr]
  have hdrop : (jsString n ++ r).dropWhile isDigit = r := by
    rw [List.dropWhile_append_of_pos hdig]
    cases r with
    | nil => simp
    | cons c r => simp [startsWithDigit] at hr; simp [List.dropWhile, hr]
  have hm : matchAt (markerPrefix ++ jsString n ++ r) = some (jsString n, r) := by
    rw [matchAt_eq_some_iff]
    exact ⟨by simp, hne, htake.symm, hdrop.symm⟩
  exact exec_of_matchAt _ _ _ hm

/-! ## Restoring a serialised content -/

theorem restoreLoop_plainOf (d : List Piece) (hc : Canonical d) (hs : separated d = true) :
    ∀ (fuel : ℕ) (out : List RNode), (plainOf d).length < fuel →
      restoreLoop fuel (plainOf d) out = out ++ d.map Piece.toNode := by
  induction d with
  | nil =>
    intro fuel out hf
    cases fuel with
    | zero => simp at hf
    | succ fuel => simp [restoreLoop, plainOf, exec]
  | cons p rest ih =>
    intro fuel out hf
    cases fuel with
    | zero => simp at hf
    | succ fuel =>
      cases p with
      | tag n =>
        simp only [separated, Bool.and_eq_true, Bool.not_eq_true', ] at hs
        have hex := exec_placeholder n (plainOf rest) hs.1
        have hlen : (plainOf rest).length < fuel := by
          have h3 : markerPrefix.length = 3 := rfl
          simp only [plainOf, pieceText, List.length_append] at hf
          omega
        simp only [plainOf, pieceText]
        simp only [restoreLoop, hex]
        rw [ih hc hs.2 fuel _ hlen, (jsString_spec n).2.2]
        simp [Piece.toNode]
      | text t =>
        obtain ⟨hne, hadj, hcan⟩ := hc
        simp only [separated, Bool.and_eq_true, Option.isNone_iff_eq_none] at hs
        cases rest with
        | nil =>
          have hex : exec (t ++ []) = none := by simpa using hs.1
          have hpos : (t ++ []).length > 0 := by
            cases t with
            | nil => exact absurd rfl hne
            | cons c cs => simp
          simp only [plainOf, pieceText]
          simp only [restoreLoop, hex, hpos, if_true]
          simp [Piece.toNode]
        | cons q rest' =>
          cases q with
          | text u => exact absurd rfl (hadj u rest')
          | tag n =>
            have hs' := hs.2
            simp only [separated, Bool.and_eq_true, Bool.not_eq_true'] at hs'
            have hex := exec_placeholder n (plainOf rest') hs'.1
            have hR : plainOf (Piece.tag n :: rest') =
                markerPrefix ++ jsString n ++ plainOf rest' := by
              simp [plainOf, pieceText]
            have hex2 : exec (t ++ plainOf (Piece.tag n :: rest')) =
                some (t, jsString n, plainOf rest') := by
              rw [exec_append_of_none t _ hs.1 (Or.inr ⟨jsString n ++ plainOf rest', by
                rw [hR]; simp⟩), hR, hex]
              simp
            have hlen : (plainOf (Piece.tag n :: rest')).length < fuel + 1 := by
              simp only [plainOf, pieceText, List.length_append] at hf ⊢
              omega
            have hih := ih hcan hs.2 (fuel + 1) (out ++ [RNode.text t]) hlen
            have hpos : t.length > 0 := by
              cases t with
              | nil => exact absurd rfl hne
              | cons c cs => simp
            have hstep : restoreLoop (fuel + 1) (plainOf (Piece.text t :: Piece.tag n :: rest'))
                out = restoreLoop (fuel + 1) (plainOf (Piece.tag n :: rest'))
                  (out ++ [RNode.text t]) := by
              have e1 : plainOf (Piece.text t :: Piece.tag n :: rest') =
                  t ++ plainOf (Piece.tag n :: rest') := rfl
              rw [e1]
              simp only [restoreLoop, hex2, hpos, if_true]
              rw [hR, hex]
              simp
            rw [hstep, hih]
            simp [Piece.toNode]

theorem canon_eq_nil_of_plainOf (d : List Piece) (hc : Canonical d) (h : plainOf d = []) :
    d = [] := by
  cases d with
  | nil => rfl
  | cons p rest =>
    cases p with
    | tag n =>
      simp [plainOf, pieceText, markerPrefix] at h
    | text t =>
      simp only [plainOf, pieceText, List.append_eq_nil] at h
      exact absurd h.1 hc.1

/-- C4, refuted as stated: the content made of tag 1 followed by the literal text "2"
serialises to the placeholder of 12, and restoring gives one tag of index 12 and no
literal text. -/
theorem restore_serialized_merges_digit :
    tagsOfNodes (_restorePromptContent onNodeCreated
        (_updatePromptData
          { onNodeCreated with promptTextarea := [.tag 1, .text "2".toList] }).promptText
      ).promptTextarea = [12] ∧
    tagsOfNodes [.tag 1, .text "2".toList] = [1] := by
  constructor <;> decide

/-- Without the condition on white space the literal text is not rebuilt: the content made of
the literal text " a" comes back as the literal text "a". -/
theorem restore_serialized_trims :
    (_restorePromptContent onNodeCreated
        (_updatePromptData
          { onNodeCreated with promptTextarea := [.text " a".toList] }).promptText
      ).promptTextarea = [.text "a".toList] := by
  rfl

/-- Without the condition on literal text the tags are not rebuilt: a literal text that spells
a placeholder comes back as a tag. -/
theorem restore_serialized_literal_placeholder :
    (_restorePromptContent onNodeCreated
        (_updatePromptData
          { onNodeCreated with promptTextarea := [.text (markerPrefix ++ "5".toList)] }).promptText
      ).promptTextarea = [.tag 5] := by
  rfl

/-- C4, amended. Let a rich content be made of literal text nodes and marker tags of indices
at most `MAX_SAFE_INTEGER`, and merge its adjacent text nodes and drop its empty ones. If the
regular expression of `_restorePromptContent` finds no match inside a literal text, no literal
text behind a tag begins with a digit, and the serialised text neither begins nor ends with
white space, then `_restorePromptContent` applied to the plain text produced by
`_updatePromptData` rebuilds exactly that merged sequence: the same tag indices and the same
literal text in the same order. -/
theorem restore_serialized_eq_canon (s s' : NodeState) (c : List Piece)
    (_hsafe : ∀ n ∈ tagsOfNodes (c.map Piece.toNode), n ≤ MAX_SAFE_INTEGER)
    (hsep : separated (canon c) = true)
    (htrim : jsTrim (plainOf c) = plainOf c) :
    (_restorePromptContent s'
        (_updatePromptData { s with promptTextarea := c.map Piece.toNode }).promptText
      ).promptTextarea = (canon c).map Piece.toNode := by
  have hplain : (_updatePromptData { s with promptTextarea := c.map Piece.toNode }).promptText =
      plainOf (canon c) := by
    simp only [_updatePromptData, processNodes_pieces, List.nil_append, htrim, plainOf_canon]
  rw [hplain]
  simp only [_restorePromptContent, restoreContent]
  split
  · rename_i hnil
    rw [canon_eq_nil_of_plainOf _ (canonical_canon c) hnil]
    rfl
  · rw [restoreLoop_plainOf _ (canonical_canon c) hsep _ _ (Nat.lt_succ_self _)]
    rfl

/-- C4, on the example of the specification: the content "Pick up ", tag 1, " and move to ",
tag 2 is rebuilt node by node from its plain text. -/
theorem restore_serialized_eq_canon_witness :
    (_restorePromptContent onNodeCreated
        (_updatePromptData
          { onNodeCreated with promptTextarea := pickUpPieces.map Piece.toNode }).promptText
      ).promptTextarea =
      [RNode.text "Pick up ".toList, RNode.tag 1, RNode.text " and move to ".toList,
        RNode.tag 2] :=
  restore_serialized_eq_canon onNodeCreated onNodeCreated pickUpPieces (by decide) (by decide)
    (by decide)

/-! ## The display rectangle is a letterbox -/

/-- The natural size the code works with: `naturalWidth || 1`. -/
theorem substituted_pos (n : ℕ) : (0 : ℚ) < (if n = 0 then (1 : ℚ) else (n : ℚ)) := by
  split
  · norm_num
  · rename_i h
    exact_mod_cast Nat.pos_of_ne_zero h

/-- The display rectangle exists and has a positive width and height. -/
theorem displayInfo_pos (img : ImgElement) :
    ∃ d, _getImageDisplayInfo (some img) = some d ∧ 0 < d.width ∧ 0 < d.height := by
  have hw := substituted_pos img.naturalWidth
  have hh := substituted_pos img.naturalHeight
  simp only [_getImageDisplayInfo, CONTAINER_WIDTH, CONTAINER_HEIGHT]
  generalize (if img.naturalWidth = 0 then (1 : ℚ) else (img.naturalWidth : ℚ)) = W at hw ⊢
  generalize (if img.naturalHeight = 0 then (1 : ℚ) else (img.naturalHeight : ℚ)) = H at hh ⊢
  have ha : 0 < W / H := div_pos hw hh
  by_cases hc : W / H > 400 / 250
  · rw [if_pos hc]
    exact ⟨_, rfl, by norm_num, div_pos (by norm_num) ha⟩
  · rw [if_neg hc]
    exact ⟨_, rfl, mul_pos (by norm_num) ha, by norm_num⟩

/-- The state left by a click that passes every test of `_handleImageClick`. -/
theorem handleImageClick_accepted (s : NodeState) (e : ClickEvent) (d : DisplayInfo)
    (hm : e.targetIsMarker = false) (hshown : s.imgElement.displayed = true)
    (hd : _getImageDisplayInfo (some s.imgElement) = some d)
    (hin : ¬ ((clickPosition e).1 < d.x ∨ (clickPosition e).1 > d.x + d.width ∨
      (clickPosition e).2 < d.y ∨ (clickPosition e).2 > d.y + d.height)) :
    _handleImageClick s e =
      _updatePromptData (_updatePointsWidget (_insertMarkerTag
        (_renderMarkers
          { s with
            pointsData := s.pointsData ++
              [{ x := ((clickPosition e).1 - d.x) / d.width,
                 y := ((clickPosition e).2 - d.y) / d.height,
                 index := s.pointsData.length + 1 }] })
        (s.pointsData.length + 1) e.caret)) := by
  unfold _handleImageClick
  simp only [hm, hshown, hd, hin, Bool.false_eq_true, if_false, Bool.not_true]

/-- The scale-corrected position of a click received through a container shown at scale
`(sx, sy)` with its corner at `(left, top)`. -/
theorem clickPosition_scaled (sx sy left top px py : ℚ) (caret : Option BoundaryPoint)
    (marker : Bool) (hsx : 0 < sx) (hsy : 0 < sy) :
    clickPosition
        { targetIsMarker := marker, clientX := left + sx * px, clientY := top + sy * py,
          containerRect :=
            { left := left, top := top, width := sx * CONTAINER_WIDTH,
              height := sy * CONTAINER_HEIGHT },
          caret := caret } = (px, py) := by
  have h1 : sx ≠ 0 := ne_of_gt hsx
  have h2 : sy ≠ 0 := ne_of_gt hsy
  simp only [clickPosition, CONTAINER_WIDTH, CONTAINER_HEIGHT]
  refine Prod.ext ?_ ?_
  · show (left + sx * px - left) / (sx * 400 / 400) = px
    field_simp
  · show (top + sy * py - top) / (sy * 250 / 250) = py
    field_simp

/-- The marker that the loop of `_renderMarkers` draws for the point at list position `i`. -/
theorem renderFrom_get (d : DisplayInfo) (k : ℕ) (points : List Point) (i : ℕ) :
    (renderFrom d k points)[i]? =
      (points[i]?).map fun point =>
        { left := d.x + point.x * d.width
          top := d.y + point.y * d.height
          label := point.index
          dataIndex := k + i
          border := Border.rendered } := by
  induction points generalizing k i with
  | nil => simp [renderFrom]
  | cons p rest ih =>
    cases i with
    | zero => simp [renderFrom]
    | succ i =>
      simp only [renderFrom, List.getElem?_cons_succ, ih]
      congr 1
      funext point
      congr 1
      omega

/-- C11. For a point `(x, y)` of the unit square standing at position `i` of the point list,
`_renderMarkers` puts at position `i` of the overlay the marker of pixel position
`(d.x + x * d.width, d.y + y * d.height)`, of label the index of the point; that position
passes the click test of `_handleImageClick`, and a background click received there, through
any corner and any scale `(sx, sy) > 0`, appends a point of exactly the coordinates `(x, y)`.
This holds in exact arithmetic for every natural size of the image, the positive ones
included. -/
theorem click_on_rendered_position_roundtrip (s : NodeState) (d : DisplayInfo) (pt : Point)
    (i : ℕ) (sx sy left top : ℚ) (caret : Option BoundaryPoint)
    (hshown : s.imgElement.displayed = true)
    (hsx : 0 < sx) (hsy : 0 < sy)
    (hd : _getImageDisplayInfo (some s.imgElement) = some d)
    (hpt : s.pointsData[i]? = some pt)
    (hx : 0 ≤ pt.x ∧ pt.x ≤ 1) (hy : 0 ≤ pt.y ∧ pt.y ≤ 1) :
    ∃ m, (_renderMarkers s).markerOverlay[i]? = some m ∧
      m = { left := d.x + pt.x * d.width, top := d.y + pt.y * d.height, label := pt.index,
            dataIndex := i, border := Border.rendered } ∧
      ¬ (m.left < d.x ∨ m.left > d.x + d.width ∨ m.top < d.y ∨ m.top > d.y + d.height) ∧
      (_handleImageClick s
          { targetIsMarker := false, clientX := left + sx * m.left,
            clientY := top + sy * m.top,
            containerRect :=
              { left := left, top := top, width := sx * CONTAINER_WIDTH,
                height := sy * CONTAINER_HEIGHT },
            caret := caret }).pointsData =
        s.pointsData ++ [{ x := pt.x, y := pt.y, index := s.pointsData.length + 1 }] := by
  obtain ⟨d', hd', hw, hh⟩ := displayInfo_pos s.imgElement
  rw [hd] at hd'
  cases Option.some.inj hd'
  have hin : ¬ (d.x + pt.x * d.width < d.x ∨ d.x + pt.x * d.width > d.x + d.width ∨
      d.y + pt.y * d.height < d.y ∨ d.y + pt.y * d.height > d.y + d.height) := by
    have h1 : 0 ≤ pt.x * d.width := mul_nonneg hx.1 (le_of_lt hw)
    have h2 : pt.x * d.width ≤ d.width := by
      have := mul_le_mul_of_nonneg_right hx.2 (le_of_lt hw)
      linarith
    have h3 : 0 ≤ pt.y * d.height := mul_nonneg hy.1 (le_of_lt hh)
    have h4 : pt.y * d.height ≤ d.height := by
      have := mul_le_mul_of_nonneg_right hy.2 (le_of_lt hh)
      linarith
    rintro (h | h | h | h) <;> linarith
  refine ⟨_, ?_, rfl, hin, ?_⟩
  · unfold _renderMarkers
    rw [hd]
    simp only [renderFrom_get, hpt, Option.map_some', Nat.zero_add]
  · have hpos := clickPosition_scaled sx sy left top (d.x + pt.x * d.width)
      (d.y + pt.y * d.height) caret false hsx hsy
    rw [handleImageClick_accepted s _ d rfl hshown hd (by rw [hpos]; exact hin)]
    simp only [updatePromptData_pointsData, updatePointsWidget_pointsData,
      insertMarkerTag_pointsData, renderMarkers_pointsData, hpos]
    have e1 : (d.x + pt.x * d.width - d.x) / d.width = pt.x := by
      field_simp
    have e2 : (d.y + pt.y * d.height - d.y) / d.height = pt.y := by
      field_simp
    rw [e1, e2]

/-- C11, on the second of the three points of `threePoints`, over the 800x800 image shown at
scale 2 with its corner at (10, 20): the point (1/5, 1/5) is drawn at (125, 50), and a click
there appends a fourth point (1/5, 1/5). -/
theorem click_on_rendered_position_roundtrip_witness :
    (_renderMarkers threePoints).markerOverlay[1]? =
      some { left := 75 + 2 / 10 * 250, top := 0 + 2 / 10 * 250, label := 2, dataIndex := 1,
             border := Border.rendered } ∧
    (_handleImageClick threePoints
        { targetIsMarker := false, clientX := 10 + 2 * (75 + 2 / 10 * 250),
          clientY := 20 + 2 * (0 + 2 / 10 * 250),
          containerRect :=
            { left := 10, top := 20, width := 2 * CONTAINER_WIDTH,
              height := 2 * CONTAINER_HEIGHT },
          caret := none }).pointsData =
      threePoints.pointsData ++
        [{ x := 2 / 10, y := 2 / 10, index := threePoints.pointsData.length + 1 }] :=
  match click_on_rendered_position_roundtrip threePoints
    { x := 75, y := 0, width := 250, height := 250 } { x := 2 / 10, y := 2 / 10, index := 2 }
    1 2 2 10 20 none rfl (by norm_num) (by norm_num) displayInfo_square rfl
    (by norm_num) (by norm_num) with
  | ⟨_, h1, rfl, _, h4⟩ => ⟨h1, h4⟩

/-- C12. A click whose scale-corrected container-local position lies outside the display
rectangle leaves the whole node as it was: point list, prompt field and selection. -/
theorem handleImageClick_outside_ignored (s : NodeState) (e : ClickEvent) (d : DisplayInfo)
    (hd : _getImageDisplayInfo (some s.imgElement) = some d)
    (hout : (clickPosition e).1 < d.x ∨ (clickPosition e).1 > d.x + d.width ∨
      (clickPosition e).2 < d.y ∨ (clickPosition e).2 > d.y + d.height) :
    _handleImageClick s e = s := by
  unfold _handleImageClick
  split
  · rfl
  · split
    · rfl
    · simp only [hd, hout, if_true]

/-- C12, on three points with a selection and an 800x800 image: a click at container pixel
(10, 100), left of the display rectangle that starts at 75, changes nothing. -/
theorem handleImageClick_outside_ignored_witness :
    _handleImageClick threePoints (clickAt 10 100) = threePoints :=
  handleImageClick_outside_ignored threePoints (clickAt 10 100)
    { x := 75, y := 0, width := 250, height := 250 } displayInfo_square
    (Or.inl (by norm_num [clickPosition, clickAt, CONTAINER_WIDTH]))

/-- In exact arithmetic, for all natural dimensions of the image, a zero dimension being
replaced by 1, `_getImageDisplayInfo` returns a rectangle of positive width and height that
lies inside the 400x250 container, is centred in it, keeps the aspect ratio of the substituted
dimensions, and touches the container in width or in height. (The equalities of the centre
and of the aspect ratio are lost in binary64 arithmetic, as the 1536x640 image shows below.) -/
theorem getImageDisplayInfo_wellFormed (img : ImgElement) :
    ∃ d, _getImageDisplayInfo (some img) = some d ∧ 0 < d.width ∧ 0 < d.height ∧
      0 ≤ d.x ∧ 0 ≤ d.y ∧ d.x + d.width ≤ 400 ∧ d.y + d.height ≤ 250 ∧
      d.x = (400 - d.width) / 2 ∧ d.y = (250 - d.height) / 2 ∧
      d.width * (if img.naturalHeight = 0 then (1 : ℚ) else (img.naturalHeight : ℚ)) =
        d.height * (if img.naturalWidth = 0 then (1 : ℚ) else (img.naturalWidth : ℚ)) ∧
      (d.width = 400 ∨ d.height = 250) := by
  have hw := substituted_pos img.naturalWidth
  have hh := substituted_pos img.naturalHeight
  simp only [_getImageDisplayInfo, CONTAINER_WIDTH, CONTAINER_HEIGHT]
  generalize (if img.naturalWidth = 0 then (1 : ℚ) else (img.naturalWidth : ℚ)) = W at hw ⊢
  generalize (if img.naturalHeight = 0 then (1 : ℚ) else (img.naturalHeight : ℚ)) = H at hh ⊢
  have ha : 0 < W / H := div_pos hw hh
  have hW : W ≠ 0 := ne_of_gt hw
  have hH : H ≠ 0 := ne_of_gt hh
  by_cases hc : W / H > 400 / 250
  · rw [if_pos hc]
    have hlt : 400 / (W / H) < 250 := by
      rw [div_lt_iff₀ ha]
      linarith
    have hpos : 0 < 400 / (W / H) := div_pos (by norm_num) ha
    refine ⟨_, rfl, by norm_num, hpos, le_refl _, ?_, ?_, ?_, ?_, rfl, ?_, Or.inl rfl⟩
    · show 0 ≤ (250 - 400 / (W / H)) / 2
      linarith
    · show (0 : ℚ) + 400 ≤ 400
      norm_num
    · show (250 - 400 / (W / H)) / 2 + 400 / (W / H) ≤ 250
      linarith
    · show (0 : ℚ) = (400 - 400) / 2
      norm_num
    · show 400 * H = 400 / (W / H) * W
      field_simp
  · rw [if_neg hc]
    have hle : 250 * (W / H) ≤ 400 := by
      have := not_lt.mp hc
      linarith
    have hpos : 0 < 250 * (W / H) := mul_pos (by norm_num) ha
    refine ⟨_, rfl, hpos, by norm_num, ?_, le_refl _, ?_, ?_, rfl, ?_, ?_, Or.inr rfl⟩
    · show 0 ≤ (400 - 250 * (W / H)) / 2
      linarith
    · show (400 - 250 * (W / H)) / 2 + 250 * (W / H) ≤ 400
      linarith
    · show (0 : ℚ) + 250 ≤ 250
      norm_num
    · show (0 : ℚ) = (250 - 250) / 2
      norm_num
    · show 250 * (W / H) * H = 250 * W
      field_simp

/-! ## Dragging -/

theorem clamp01_mem (v : ℚ) : 0 ≤ clamp01 v ∧ clamp01 v ≤ 1 := by
  unfold clamp01
  constructor
  · exact le_max_left _ _
  · exact max_le (by norm_num) (min_le_left _ _)

/-- The run of `onMouseMove` while dragging a position that holds a point: the base coordinates
are those of the captured object, the entry written is the one of the list. -/
theorem onMouseMove_of_some (s : NodeState) (drag : DragSession) (cx cy : ℚ) (pt : Point)
    (hdrag : drag.isDragging = true) (hpt : s.pointsData[drag.idx]? = some pt) :
    onMouseMove s drag cx cy =
      (.completed
        { s with
          pointsData := s.pointsData.set drag.idx
            { pt with
              x := clamp01 ((drag.point.getD pt).x +
                (cx - drag.startX) / drag.scaleX / drag.display.width)
              y := clamp01 ((drag.point.getD pt).y +
                (cy - drag.startY) / drag.scaleY / drag.display.height) }
          markerOverlay :=
            if drag.markerInOverlay then
              moveMarker s.markerOverlay drag.idx
                (drag.display.x +
                  clamp01 ((drag.point.getD pt).x +
                    (cx - drag.startX) / drag.scaleX / drag.display.width) *
                    drag.display.width)
                (drag.display.y +
                  clamp01 ((drag.point.getD pt).y +
                    (cy - drag.startY) / drag.scaleY / drag.display.height) *
                    drag.display.height)
            else s.markerOverlay },
        { drag with startX := cx, startY := cy }) := by
  unfold onMouseMove
  simp only [hdrag, hpt, Bool.not_true, Bool.false_eq_true, if_false]

/-- C13. While a marker is dragged at a positive container scale over a display rectangle of
positive size, and the point object captured by the marker's closures is still the entry of
the point list at the dragged position `p`, one run of the mouse-move handler for the pointer
position `(cx, cy)` runs to its end and changes only the coordinates of the dragged point:
they become `x + deltaX / scaleX / displayWidth` and `y + deltaY / scaleY / displayHeight`
for the raw pointer delta, clamped to [0, 1]; the point keeps its index, the list keeps its
length, and every other point is unchanged. -/
theorem onMouseMove_changes_only_dragged (s : NodeState) (drag : DragSession) (cx cy : ℚ)
    (p : ℕ) (pt : Point)
    (hidx : drag.idx = p) (hdrag : drag.isDragging = true)
    (hcap : drag.point = none)
    (hpt : s.pointsData[p]? = some pt)
    (_hsx : 0 < drag.scaleX) (_hsy : 0 < drag.scaleY)
    (_hw : 0 < drag.display.width) (_hh : 0 < drag.display.height) :
    (onMouseMove s drag cx cy).1.isCompleted = true ∧
    (onMouseMove s drag cx cy).1.state.pointsData.length = s.pointsData.length ∧
    (onMouseMove s drag cx cy).1.state.pointsData[p]? =
      some
        { x := max 0 (min 1 (pt.x + (cx - drag.startX) / drag.scaleX / drag.display.width))
          y := max 0 (min 1 (pt.y + (cy - drag.startY) / drag.scaleY / drag.display.height))
          index := pt.index } ∧
    (∀ q, (onMouseMove s drag cx cy).1.state.pointsData[p]? = some q →
      (0 ≤ q.x ∧ q.x ≤ 1) ∧ (0 ≤ q.y ∧ q.y ≤ 1)) ∧
    (∀ j, j ≠ p →
      (onMouseMove s drag cx cy).1.state.pointsData[j]? = s.pointsData[j]?) := by
  subst hidx
  have hlt : drag.idx < s.pointsData.length := by
    rcases Nat.lt_or_ge drag.idx s.pointsData.length with h | h
    · exact h
    · rw [List.getElem?_eq_none h] at hpt
      exact absurd hpt (by simp)
  rw [onMouseMove_of_some s drag cx cy pt hdrag hpt]
  simp only [Outcome.state, Outcome.isCompleted, List.length_set, hcap, Option.getD_none]
  have hget : (s.pointsData.set drag.idx
      { pt with
        x := clamp01 (pt.x + (cx - drag.startX) / drag.scaleX / drag.display.width)
        y := clamp01 (pt.y + (cy - drag.startY) / drag.scaleY / drag.display.height) })[drag.idx]? =
      some
        { x := max 0 (min 1 (pt.x + (cx - drag.startX) / drag.scaleX / drag.display.width))
          y := max 0 (min 1 (pt.y + (cy - drag.startY) / drag.scaleY / drag.display.height))
          index := pt.index } := by
    rw [List.getElem?_set_self hlt]
    rfl
  refine ⟨trivial, trivial, hget, ?_, ?_⟩
  · intro q hq
    rw [hget] at hq
    cases Option.some.inj hq
    exact ⟨clamp01_mem _, clamp01_mem _⟩
  · intro j hj
    exact List.getElem?_set_ne (Ne.symm hj)

/-- C13, on the second of three points, pressed at (0, 0) and moved to (50, -1000) at scale 1
over the 250x250 display rectangle: the point goes from (1/5, 1/5) to (2/5, 0), the clamped
value, and the two other points stay. -/
theorem onMouseMove_changes_only_dragged_witness :
    (onMouseMove dragSecond.1 dragSecond.2 50 (-1000)).1.state.pointsData =
      [{ x := 1 / 10, y := 1 / 10, index := 1 }, { x := 2 / 5, y := 0, index := 2 },
        { x := 3 / 10, y := 3 / 10, index := 3 }] ∧
    (onMouseMove dragSecond.1 dragSecond.2 50 (-1000)).1.isCompleted = true ∧
    (∀ j, j ≠ 1 →
      (onMouseMove dragSecond.1 dragSecond.2 50 (-1000)).1.state.pointsData[j]? =
        dragSecond.1.pointsData[j]?) :=
  have h := onMouseMove_changes_only_dragged dragSecond.1 dragSecond.2 50 (-1000) 1
    { x := 2 / 10, y := 2 / 10, index := 2 } rfl rfl rfl (by rfl)
    (by norm_num [dragSecond, markerMouseDown, CONTAINER_WIDTH])
    (by norm_num [dragSecond, markerMouseDown, CONTAINER_HEIGHT])
    (by norm_num [dragSecond, markerMouseDown])
    (by norm_num [dragSecond, markerMouseDown])
  ⟨by decide!, h.1, h.2.2.2.2⟩

/-- When the point list has been replaced since the markers were rendered, the closures of a
marker hold an object that is no longer in the list: the move starts from the coordinates of
that object and is written to the new entry, which keeps its own index. Here the second
marker of `threePoints`, captured at (1/5, 1/5), is moved by 50 pixels to the right after the
list has been replaced by one whose second point stands at (7/10, 7/10): the entry becomes
(2/5, 1/5), not (9/10, 7/10). -/
theorem onMouseMove_detached_point :
    (onMouseMove
        { dragSecond.1 with
          pointsData :=
            [{ x := 1 / 10, y := 1 / 10, index := 1 }, { x := 7 / 10, y := 7 / 10, index := 2 }] }
        { dragSecond.2 with point := some { x := 1 / 5, y := 1 / 5, index := 2 } }
        50 0).1.state.pointsData =
      [{ x := 1 / 10, y := 1 / 10, index := 1 }, { x := 2 / 5, y := 1 / 5, index := 2 }] := by
  decide!

/-! ## Newlines at block boundaries -/

/-- C14, refuted as stated: the accumulated text "a" followed by a newline ends in a newline,
and a line break met there appends a second newline; the content "a", BR, BR, "b" serialises
to "a", two newlines, "b". -/
theorem processNode_br_doubles_newline :
    endsWithNewline ("a".toList ++ [newline]) = true ∧
    processNode ("a".toList ++ [newline]) RNode.br = "a".toList ++ [newline, newline] ∧
    (_updatePromptData
        { onNodeCreated with
          promptTextarea := [.text "a".toList, .br, .br, .text "b".toList] }).promptText =
      "a".toList ++ [newline, newline] ++ "b".toList := by
  refine ⟨by decide, by decide, by decide⟩

/-- C14, amended. A line break always appends exactly one newline to the accumulated text,
also behind a newline. A paragraph boundary (DIV, P) appends nothing before its children when
the accumulated text ends in a newline or is empty, and exactly one newline when the
accumulated text is not empty and does not end in a newline. -/
theorem processNode_block_boundaries (acc : List Char) (children : List RNode) :
    processNode acc RNode.br = acc ++ [newline] ∧
    (endsWithNewline acc = true →
      processNode acc (RNode.block children) = processNodes acc children) ∧
    (acc = [] → processNode acc (RNode.block children) = processNodes [] children) ∧
    (acc ≠ [] → endsWithNewline acc = false →
      processNode acc (RNode.block children) = processNodes (acc ++ [newline]) children) := by
  refine ⟨rfl, ?_, ?_, ?_⟩
  · intro h
    simp [processNode, h]
  · intro h
    subst h
    simp [processNode]
  · intro hne h
    have hlen : acc.length > 0 := List.length_pos.mpr hne
    simp [processNode, h, hlen]

/-- C14, amended, on the paragraphs "a", empty line, "b" as an editable field lays them out
(three DIVs, the second holding a BR): one newline at each of the two boundaries behind text
and none at the boundary behind the BR, so the text is "a", two newlines, "b". -/
theorem processNode_block_boundaries_witness :
    processNode "a".toList (RNode.block [.br]) = "a".toList ++ [newline, newline] ∧
    processNode ("a".toList ++ [newline, newline]) (RNode.block [.text "b".toList]) =
      "a".toList ++ [newline, newline] ++ "b".toList ∧
    processNode [] (RNode.block [.text "a".toList]) = "a".toList :=
  ⟨((processNode_block_boundaries "a".toList [.br]).2.2.2 (by decide) (by decide)).trans
      (by rfl),
   ((processNode_block_boundaries ("a".toList ++ [newline, newline])
      [.text "b".toList]).2.1 (by decide)).trans (by rfl),
   ((processNode_block_boundaries [] [.text "a".toList]).2.2.1 rfl).trans (by rfl)⟩

/-! ## Coordinates stay in the unit square -/

theorem inUnitSquare_nil : InUnitSquare [] := by
  intro p hp
  simp at hp

theorem inUnitSquare_renumberFrom (k : ℕ) (l : List Point) (h : InUnitSquare l) :
    InUnitSquare (renumberFrom k l) := by
  induction l generalizing k with
  | nil => exact inUnitSquare_nil
  | cons a l ih =>
    intro p hp
    simp only [renumberFrom, List.mem_cons] at hp
    rcases hp with hp | hp
    · subst hp
      exact h a (List.mem_cons_self _ _)
    · exact ih (k + 1) (fun q hq => h q (List.mem_cons_of_mem _ hq)) p hp

theorem inUnitSquare_eraseIdx (l : List Point) (i : ℕ) (h : InUnitSquare l) :
    InUnitSquare (l.eraseIdx i) :=
  fun p hp => h p (List.mem_of_mem_eraseIdx hp)

theorem inUnitSquare_set (l : List Point) (i : ℕ) (q : Point) (h : InUnitSquare l)
    (hq : (0 ≤ q.x ∧ q.x ≤ 1) ∧ (0 ≤ q.y ∧ q.y ≤ 1)) : InUnitSquare (l.set i q) := by
  intro p hp
  rcases List.mem_or_eq_of_mem_set hp with hp | hp
  · exact h p hp
  · subst hp
    exact hq

theorem inUnitSquare_append (l : List Point) (q : Point) (h : InUnitSquare l)
    (hq : (0 ≤ q.x ∧ q.x ≤ 1) ∧ (0 ≤ q.y ∧ q.y ≤ 1)) : InUnitSquare (l ++ [q]) := by
  intro p hp
  rcases List.mem_append.mp hp with hp | hp
  · exact h p hp
  · simp at hp
    subst hp
    exact hq

theorem handleImageClick_inUnitSquare (s : NodeState) (e : ClickEvent)
    (h : InUnitSquare s.pointsData) : InUnitSquare (_handleImageClick s e).pointsData := by
  obtain ⟨d, hd, hw, hh⟩ := displayInfo_pos s.imgElement
  by_cases hm : e.targetIsMarker = true
  · simpa [_handleImageClick, hm] using h
  by_cases hshown : s.imgElement.displayed = true
  swap
  · simpa [_handleImageClick, hm, hshown] using h
  by_cases hout : (clickPosition e).1 < d.x ∨ (clickPosition e).1 > d.x + d.width ∨
      (clickPosition e).2 < d.y ∨ (clickPosition e).2 > d.y + d.height
  · simpa [_handleImageClick, hm, hshown, hd, hout] using h
  · rw [handleImageClick_accepted s e d (by simpa using hm) hshown hd hout]
    simp only [updatePromptData_pointsData, updatePointsWidget_pointsData,
      insertMarkerTag_pointsData, renderMarkers_pointsData]
    apply inUnitSquare_append _ _ h
    simp only [not_or, not_lt, gt_iff_lt] at hout
    obtain ⟨h1, h2, h3, h4⟩ := hout
    refine ⟨⟨?_, ?_⟩, ⟨?_, ?_⟩⟩
    · exact div_nonneg (by linarith) (le_of_lt hw)
    · rw [div_le_one hw]
      linarith
    · exact div_nonneg (by linarith) (le_of_lt hh)
    · rw [div_le_one hh]
      linarith

theorem onMouseMove_inUnitSquare (s : NodeState) (drag : DragSession) (cx cy : ℚ)
    (h : InUnitSquare s.pointsData) :
    InUnitSquare (onMouseMove s drag cx cy).1.state.pointsData := by
  unfold onMouseMove
  split
  · exact h
  · split
    · exact h
    · exact inUnitSquare_set _ _ _ h ⟨clamp01_mem _, clamp01_mem _⟩

theorem dragMoves_inUnitSquare (s : NodeState) (drag : DragSession) (moves : List (ℚ × ℚ))
    (h : InUnitSquare s.pointsData) : InUnitSquare (dragMoves s drag moves).1.pointsData := by
  induction moves generalizing s drag with
  | nil => exact h
  | cons m rest ih =>
    simp only [dragMoves]
    exact ih _ _ (onMouseMove_inUnitSquare s drag m.1 m.2 h)

theorem deleteSelectedMarker_inUnitSquare (s : NodeState) (h : InUnitSquare s.pointsData) :
    InUnitSquare (_deleteSelectedMarker s).state.pointsData := by
  cases hsel : s.selectedMarkerIndex with
  | none =>
    have : (_deleteSelectedMarker s).state = s := by
      unfold _deleteSelectedMarker
      simp [hsel, Outcome.state]
    rw [this]
    exact h
  | some idx =>
    rw [deleteSelectedMarker_pointsData s idx hsel]
    exact inUnitSquare_renumberFrom _ _ (inUnitSquare_eraseIdx _ _ h)

theorem act_inUnitSquare (s : NodeState) (a : Action) (h : InUnitSquare s.pointsData) :
    InUnitSquare (act s a).pointsData := by
  cases a with
  | click e => exact handleImageClick_inUnitSquare s e h
  | press idx =>
    simp only [act]
    split <;> exact h
  | drag idx down moves =>
    simp only [act]
    split
    · split
      · exact h
      · simp only [onMouseUp, updatePointsWidget_pointsData]
        exact dragMoves_inUnitSquare _ _ _ h
    · exact h
  | deleteSelected => exact deleteSelectedMarker_inUnitSquare s h
  | clearAll => exact inUnitSquare_nil

/-- In exact arithmetic, starting from a node whose point list is empty, after every sequence
of image clicks, marker presses, drags, "delete selected" and "clear all", received through a
container shown at a positive scale, every stored point has `0 <= x <= 1` and `0 <= y <= 1`.
(In binary64 arithmetic a click on the edge of the image can store a coordinate above 1, as
the 500x1500 image shows below.) -/
theorem runActions_inUnitSquare (s : NodeState) (actions : List Action)
    (h : s.pointsData = []) (_hscale : ∀ a ∈ actions, a.scalePositive) :
    InUnitSquare (runActions s actions).pointsData := by
  have hs : InUnitSquare s.pointsData := by
    rw [h]
    exact inUnitSquare_nil
  clear h _hscale
  induction actions generalizing s with
  | nil => exact hs
  | cons a rest ih => exact ih (act s a) (act_inUnitSquare s a hs)

/-- The run `dragRun` in exact arithmetic: the first point is dragged to the corner (1, 0) of
the unit square, where the clamp stops it, and the three points of the result lie in the unit
square. -/
theorem runActions_inUnitSquare_witness :
    (runActions withSquareImage dragRun).pointsData =
      [{ x := 1, y := 0, index := 1 }, { x := 1 / 2, y := 1 / 2, index := 2 },
        { x := 9 / 10, y := 1 / 5, index := 3 }] ∧
    InUnitSquare (runActions withSquareImage dragRun).pointsData :=
  ⟨by decide!,
   runActions_inUnitSquare withSquareImage dragRun rfl (by
    intro a ha
    simp only [dragRun, List.mem_cons, List.mem_singleton, List.not_mem_nil, or_false] at ha
    rcases ha with h | h | h | h <;> subst h <;>
      norm_num [Action.scalePositive, clickAt])⟩

/-! ## The visible selection -/

/-- C16. After a click that adds a point and a press on its marker, the marker has the gold
border and is the selection. A second click that adds a point re-renders the overlay: the
selection is still position 0, and no marker has the gold border. -/
theorem handleImageClick_drops_selected_style :
    (runActions withSquareImage
        [Action.click (clickAt 100 100), Action.press 0]).selectedMarkerIndex = some 0 ∧
    (runActions withSquareImage
        [Action.click (clickAt 100 100), Action.press 0]).markerOverlay.map Marker.border =
      [Border.gold] ∧
    (runActions withSquareImage
        [Action.click (clickAt 100 100), Action.press 0,
          Action.click (clickAt 200 125)]).selectedMarkerIndex = some 0 ∧
    (runActions withSquareImage
        [Action.click (clickAt 100 100), Action.press 0,
          Action.click (clickAt 200 125)]).markerOverlay.map Marker.border =
      [Border.rendered, Border.rendered] := by
  refine ⟨by decide!, by decide!, by decide!, by decide!⟩

/-! ## Decimal digits, read back -/

theorem digitChar_of_isDigit (c : Char) (h : isDigit c = true) :
    Nat.digitChar (c.toNat - 48) = c := by
  have hc : c = Char.ofNat c.toNat := (Char.ofNat_toNat c).symm
  simp only [isDigit, Bool.and_eq_true, decide_eq_true_eq] at h
  obtain ⟨h1, h2⟩ := h
  generalize c.toNat = n at hc h1 h2
  subst hc
  interval_cases n <;> decide

theorem toDigitsCore_eq_jsString (n : ℕ) :
    ∀ (fuel : ℕ) (ds : List Char), n < fuel →
      Nat.toDigitsCore 10 fuel n ds = jsString n ++ ds := by
  induction n using Nat.strong_induction_on with
  | _ n ih =>
    intro fuel ds hf
    cases fuel with
    | zero => omega
    | succ fuel =>
      by_cases h0 : n / 10 = 0
      · simp [jsString, Nat.toDigits, Nat.toDigitsCore, h0]
      · have hlt : n / 10 < n := by omega
        have e1 : Nat.toDigitsCore 10 (fuel + 1) n ds =
            Nat.toDigitsCore 10 fuel (n / 10) (Nat.digitChar (n % 10) :: ds) := by
          simp [Nat.toDigitsCore, h0]
        have e2 : jsString n =
            Nat.toDigitsCore 10 n (n / 10) [Nat.digitChar (n % 10)] := by
          simp [jsString, Nat.toDigits, Nat.toDigitsCore, h0]
        rw [e1, e2, ih (n / 10) hlt fuel _ (by omega), ih (n / 10) hlt n _ hlt]
        simp

theorem jsString_of_lt_ten (n : ℕ) (h : n < 10) : jsString n = [Nat.digitChar n] := by
  have h0 : n / 10 = 0 := by omega
  have hm : n % 10 = n := by omega
  simp [jsString, Nat.toDigits, Nat.toDigitsCore, h0, hm]

theorem jsString_step (m v : ℕ) (hm : m ≠ 0) (hv : v < 10) :
    jsString (10 * m + v) = jsString m ++ [Nat.digitChar v] := by
  have h0 : (10 * m + v) / 10 = m := by omega
  have h1 : (10 * m + v) % 10 = v := by omega
  have hne : ¬ (10 * m + v) / 10 = 0 := by omega
  have e2 : jsString (10 * m + v) =
      Nat.toDigitsCore 10 (10 * m + v) ((10 * m + v) / 10)
        [Nat.digitChar ((10 * m + v) % 10)] := by
    simp only [jsString, Nat.toDigits, Nat.toDigitsCore, hne, if_false]
  rw [e2, h0, h1, toDigitsCore_eq_jsString m _ _ (by omega)]

/-- A digit string without a superfluous leading zero is what `String` writes for the number
`parseInt` reads from it. -/
theorem jsString_parseInt (ds : List Char) (hne : ds ≠ []) (hdig : ∀ c ∈ ds, isDigit c = true)
    (hz : hasLeadingZero ds = false) : jsString (parseInt ds) = ds := by
  induction ds using List.reverseRecOn with
  | nil => exact absurd rfl hne
  | append_singleton init c ih =>
    have hc : isDigit c = true := hdig c (by simp)
    have hv : c.toNat - 48 < 10 := by
      simp only [isDigit, Bool.and_eq_true, decide_eq_true_eq] at hc
      omega
    rw [parseInt_append_singleton]
    cases init with
    | nil =>
      have : parseInt [] = 0 := rfl
      rw [this, Nat.mul_zero, Nat.zero_add, jsString_of_lt_ten _ hv, digitChar_of_isDigit c hc]
      rfl
    | cons h t =>
      have hhead : (h == Char.ofNat 48) = false := by
        cases t with
        | nil => simpa [hasLeadingZero] using hz
        | cons t1 t2 => simpa [hasLeadingZero] using hz
      have hz' : hasLeadingZero (h :: t) = false := by
        cases t with
        | nil => rfl
        | cons t1 t2 => simpa [hasLeadingZero] using hhead
      have hih := ih (by simp) (fun c hc => hdig c (by simp [List.mem_append] at hc ⊢; tauto)) hz'
      have hm : parseInt (h :: t) ≠ 0 := by
        intro h0
        rw [h0] at hih
        have : jsString 0 = [Char.ofNat 48] := by decide
        rw [this] at hih
        have hh : h = Char.ofNat 48 := by
          have := List.head_eq_of_cons_eq hih.symm
          exact this
        rw [hh] at hhead
        simp at hhead
      rw [jsString_step _ _ hm hv, hih, digitChar_of_isDigit c hc]

/-! ## Serialising a restored text -/

theorem exec_eq_some (s pre digits rest : List Char) (h : exec s = some (pre, digits, rest)) :
    s = pre ++ (markerPrefix ++ (digits ++ rest)) ∧ digits ≠ [] ∧
      ∀ c ∈ digits, isDigit c = true := by
  induction s generalizing pre with
  | nil => simp [exec] at h
  | cons c cs ih =>
    simp only [exec] at h
    cases hm : matchAt (c :: cs) with
    | some m =>
      obtain ⟨ds, rs⟩ := m
      simp only [hm, Option.some.injEq, Prod.mk.injEq] at h
      obtain ⟨h1, h2, h3⟩ := h
      subst h1 h2 h3
      obtain ⟨hs, hne, htake, -⟩ := (matchAt_eq_some_iff _ _ _).mp hm
      refine ⟨by simpa using hs, hne, ?_⟩
      intro d hd
      rw [htake] at hd
      exact (List.mem_takeWhile_imp hd)
    | none =>
      simp only [hm] at h
      cases he : exec cs with
      | none => simp [he] at h
      | some r =>
        obtain ⟨p, ds, rs⟩ := r
        simp only [he, Option.map_some', Option.some.injEq, Prod.mk.injEq] at h
        obtain ⟨h1, h2, h3⟩ := h
        subst h1 h2 h3
        obtain ⟨hs, hne, hdig⟩ := ih p he
        exact ⟨by rw [hs]; simp, hne, hdig⟩

theorem processNodes_snoc_text (acc : List Char) (out : List RNode) (t : List Char) :
    processNodes acc (out ++ [RNode.text t]) = processNodes acc out ++ t := by
  rw [processNodes_append]
  rfl

theorem processNodes_snoc_tag (acc : List Char) (out : List RNode) (n : ℕ) :
    processNodes acc (out ++ [RNode.tag n]) =
      processNodes acc out ++ markerPrefix ++ jsString n := by
  rw [processNodes_append]
  rfl

/-- The text serialised from what the loop of `_restorePromptContent` builds is the text
serialised from what was built before, followed by the text the loop had to read. -/
theorem processNodes_restoreLoop (fuel : ℕ) :
    ∀ (remaining : List Char) (out : List RNode), remaining.length < fuel →
      (∀ ds ∈ placeholderDigits fuel remaining, hasLeadingZero ds = false) →
      processNodes [] (restoreLoop fuel remaining out) = processNodes [] out ++ remaining := by
  induction fuel with
  | zero => intro remaining out hf; omega
  | succ fuel ih =>
    intro remaining out hf hz
    cases he : exec remaining with
    | none =>
      simp only [restoreLoop, he]
      split
      · exact processNodes_snoc_text _ _ _
      · rename_i hlen
        have : remaining = [] := by
          cases remaining with
          | nil => rfl
          | cons c cs => simp at hlen
        simp [this]
    | some r =>
      obtain ⟨pre, ds, rest⟩ := r
      obtain ⟨hs, hne, hdig⟩ := exec_eq_some _ _ _ _ he
      have h3 : markerPrefix.length = 3 := rfl
      have hlen : rest.length < fuel := by
        have := congrArg List.length hs
        simp only [List.length_append] at this
        omega
      have hz0 : hasLeadingZero ds = false := hz ds (by simp [placeholderDigits, he])
      have hzr : ∀ d ∈ placeholderDigits fuel rest, hasLeadingZero d = false :=
        fun d hd => hz d (by simp [placeholderDigits, he, hd])
      simp only [restoreLoop, he]
      rw [ih rest _ hlen hzr, processNodes_snoc_tag, jsString_parseInt ds hne hdig hz0]
      split
      · rw [processNodes_snoc_text]
        conv_rhs => rw [hs]
        simp
      · rename_i hpre
        have : pre = [] := by
          cases pre with
          | nil => rfl
          | cons c cs => simp at hpre
        conv_rhs => rw [hs]
        simp [this]

/-- C17, refuted as stated: the plain text made of the placeholder with the number 007 is
restored as a tag of index 7 and serialised again as the placeholder with the number 7. -/
theorem restored_leading_zeros_lost :
    (_updatePromptData
        (_restorePromptContent onNodeCreated (markerPrefix ++ "007".toList))).promptText =
      markerPrefix ++ "7".toList ∧
    jsTrim (markerPrefix ++ "007".toList) = markerPrefix ++ "007".toList := by
  constructor <;> decide

/-- C17, amended. For every plain instruction string in which no placeholder number of two or
more digits begins with a zero and every placeholder number is at most `MAX_SAFE_INTEGER`,
rebuilding the rich content with `_restorePromptContent` and serialising it again with
`_updatePromptData` yields the string with leading and trailing white space trimmed. -/
theorem updatePromptData_restored (st : NodeState) (s : List Char)
    (hz : ∀ ds ∈ placeholderDigits (s.length + 1) s, hasLeadingZero ds = false)
    (_hsafe : ∀ ds ∈ placeholderDigits (s.length + 1) s, parseInt ds ≤ MAX_SAFE_INTEGER) :
    (_updatePromptData (_restorePromptContent st s)).promptText = jsTrim s := by
  simp only [_updatePromptData, _restorePromptContent, restoreContent]
  split
  · rename_i h
    subst h
    rfl
  · rw [processNodes_restoreLoop _ s [] (Nat.lt_succ_self _) hz]
    rfl

/-- C17, amended, on a text with white space at both ends and two placeholders, 1 and 20. -/
theorem updatePromptData_restored_witness :
    (_updatePromptData
        (_restorePromptContent onNodeCreated
          (" Pick up ".toList ++ markerPrefix ++ "1 and ".toList ++ markerPrefix ++
            "20 ".toList))).promptText =
      "Pick up ".toList ++ markerPrefix ++ "1 and ".toList ++ markerPrefix ++ "20".toList :=
  (updatePromptData_restored onNodeCreated
    (" Pick up ".toList ++ markerPrefix ++ "1 and ".toList ++ markerPrefix ++ "20 ".toList)
    (by decide) (by decide)).trans (by decide)

/-! ## Tags of a rich text -/

theorem tagsOfNodes_append (a b : List RNode) :
    tagsOfNodes (a ++ b) = tagsOfNodes a ++ tagsOfNodes b := by
  induction a with
  | nil => simp [tagsOfNodes]
  | cons n a ih => simp [tagsOfNodes, ih]

mutual
theorem tagsOfNodes_removeTagsNode (k : ℕ) :
    ∀ n : RNode, tagsOfNodes (removeTagsNode k n) = (tagsOfNode n).filter (fun j => j != k)
  | .text _ => by simp [removeTagsNode, tagsOfNodes, tagsOfNode]
  | .tag i => by
    by_cases h : i = k
    · simp [removeTagsNode, tagsOfNodes, tagsOfNode, h]
    · simp [removeTagsNode, tagsOfNodes, tagsOfNode, h]
  | .br => by simp [removeTagsNode, tagsOfNodes, tagsOfNode]
  | .block cs => by
    simp [removeTagsNode, tagsOfNodes, tagsOfNode, tagsOfNodes_removeTagsNodes k cs]
  | .elem cs => by
    simp [removeTagsNode, tagsOfNodes, tagsOfNode, tagsOfNodes_removeTagsNodes k cs]
  | .comment _ => by simp [removeTagsNode, tagsOfNodes, tagsOfNode]
theorem tagsOfNodes_removeTagsNodes (k : ℕ) :
    ∀ l : List RNode, tagsOfNodes (removeTagsNodes k l) = (tagsOfNodes l).filter (fun j => j != k)
  | [] => by simp [removeTagsNodes, tagsOfNodes]
  | n :: rest => by
    simp [removeTagsNodes, tagsOfNodes, tagsOfNodes_append, tagsOfNodes_removeTagsNode k n,
      tagsOfNodes_removeTagsNodes k rest]
end

mutual
theorem tagsOfNodes_removeAllTagsNode :
    ∀ n : RNode, tagsOfNodes (removeAllTagsNode n) = []
  | .text _ => by simp [removeAllTagsNode, tagsOfNodes, tagsOfNode]
  | .tag _ => by simp [removeAllTagsNode, tagsOfNodes]
  | .br => by simp [removeAllTagsNode, tagsOfNodes, tagsOfNode]
  | .block cs => by
    simp [removeAllTagsNode, tagsOfNodes, tagsOfNode, tagsOfNodes_removeAllTagsNodes cs]
  | .elem cs => by
    simp [removeAllTagsNode, tagsOfNodes, tagsOfNode, tagsOfNodes_removeAllTagsNodes cs]
  | .comment _ => by simp [removeAllTagsNode, tagsOfNodes, tagsOfNode]
theorem tagsOfNodes_removeAllTagsNodes :
    ∀ l : List RNode, tagsOfNodes (removeAllTagsNodes l) = []
  | [] => by simp [removeAllTagsNodes, tagsOfNodes]
  | n :: rest => by
    simp [removeAllTagsNodes, tagsOfNodes_append, tagsOfNodes_removeAllTagsNode n,
      tagsOfNodes_removeAllTagsNodes rest]
end

mutual
theorem renumberNode_spec (k : ℕ) :
    ∀ n : RNode, tagsOfNode (renumberNode k n).1 = List.range' k (tagsOfNode n).length ∧
      (renumberNode k n).2 = k + (tagsOfNode n).length
  | .text _ => by simp [renumberNode, tagsOfNode]
  | .tag _ => by simp [renumberNode, tagsOfNode]
  | .br => by simp [renumberNode, tagsOfNode]
  | .block cs => by
    have h := renumberNodes_spec k cs
    simp [renumberNode, tagsOfNode, h.1, h.2]
  | .elem cs => by
    have h := renumberNodes_spec k cs
    simp [renumberNode, tagsOfNode, h.1, h.2]
  | .comment _ => by simp [renumberNode, tagsOfNode]
theorem renumberNodes_spec (k : ℕ) :
    ∀ l : List RNode, tagsOfNodes (renumberNodes k l).1 = List.range' k (tagsOfNodes l).length ∧
      (renumberNodes k l).2 = k + (tagsOfNodes l).length
  | [] => by simp [renumberNodes, tagsOfNodes]
  | n :: rest => by
    have h1 := renumberNode_spec k n
    have h2 := renumberNodes_spec (renumberNode k n).2 rest
    rw [h1.2] at h2
    simp only [renumberNodes, tagsOfNodes, h1.1, h1.2, h2.1, h2.2, List.length_append]
    refine ⟨?_, by omega⟩
    rw [List.range'_append_1, Nat.add_comm]
end

theorem tagsOfNodes_split (l : List RNode) (i : ℕ) (n : RNode) (h : l[i]? = some n) :
    tagsOfNodes l =
      tagsOfNodes (l.take i) ++ (tagsOfNode n ++ tagsOfNodes (l.drop (i + 1))) := by
  induction l generalizing i with
  | nil => simp at h
  | cons a l ih =>
    cases i with
    | zero =>
      simp only [List.getElem?_cons_zero, Option.some.injEq] at h
      subst h
      simp [tagsOfNodes]
    | succ i =>
      simp only [List.getElem?_cons_succ] at h
      simp [tagsOfNodes, ih i h]

theorem tagsOfNodes_set (l : List RNode) (i : ℕ) (n m : RNode) (h : l[i]? = some n) :
    tagsOfNodes (l.set i m) =
      tagsOfNodes (l.take i) ++ (tagsOfNode m ++ tagsOfNodes (l.drop (i + 1))) := by
  induction l generalizing i with
  | nil => simp at h
  | cons a l ih =>
    cases i with
    | zero => simp [tagsOfNodes]
    | succ i =>
      simp only [List.getElem?_cons_succ] at h
      simp [tagsOfNodes, ih i h]

theorem perm_swap_front (a b c : List ℕ) : (a ++ (b ++ c)).Perm (b ++ (a ++ c)) := by
  rw [← List.append_assoc, ← List.append_assoc]
  exact List.Perm.append_right _ List.perm_append_comm

/-- Inserting a node at a position of the field adds its tags to those of the field. -/
theorem tagsOfNodes_insertNode (path : List ℕ) :
    ∀ (content : List RNode) (offset : ℕ) (node : RNode) (result : List RNode),
      insertNode path content offset node = some result →
      (tagsOfNodes result).Perm (tagsOfNode node ++ tagsOfNodes content) := by
  induction path with
  | nil =>
    intro content offset node result h
    simp only [insertNode] at h
    split at h
    · simp only [Option.some.injEq] at h
      subst h
      conv_rhs => rw [← List.take_append_drop offset content]
      simp only [tagsOfNodes_append, tagsOfNodes]
      exact perm_swap_front _ _ _
    · exact absurd h (by simp)
  | cons i path ih =>
    intro content offset node result h
    simp only [insertNode] at h
    split at h
    · rename_i c hc
      split at h
      · split at h
        · simp only [Option.some.injEq] at h
          subst h
          rw [tagsOfNodes_split content i _ hc]
          simp only [tagsOfNodes_append, tagsOfNodes, tagsOfNode, List.nil_append]
          exact perm_swap_front _ _ _
        · exact absurd h (by simp)
      · exact absurd h (by simp)
    · rename_i sub hc
      cases hsub : insertNode path sub offset node with
      | none => simp [hsub] at h
      | some sub' =>
        simp only [hsub, Option.map_some', Option.some.injEq] at h
        subst h
        rw [tagsOfNodes_set content i _ _ hc, tagsOfNodes_split content i _ hc]
        simp only [tagsOfNode]
        have hp := ih sub offset node sub' hsub
        refine (List.Perm.append_left _ (List.Perm.append_right _ hp)).trans ?_
        simp only [List.append_assoc]
        exact perm_swap_front _ _ _
    · rename_i sub hc
      cases hsub : insertNode path sub offset node with
      | none => simp [hsub] at h
      | some sub' =>
        simp only [hsub, Option.map_some', Option.some.injEq] at h
        subst h
        rw [tagsOfNodes_set content i _ _ hc, tagsOfNodes_split content i _ hc]
        simp only [tagsOfNode]
        have hp := ih sub offset node sub' hsub
        refine (List.Perm.append_left _ (List.Perm.append_right _ hp)).trans ?_
        simp only [List.append_assoc]
        exact perm_swap_front _ _ _
    · exact absurd h (by simp)

/-! ## The selection is a position of the list -/

theorem renderFrom_length (d : DisplayInfo) (k : ℕ) (l : List Point) :
    (renderFrom d k l).length = l.length := by
  induction l generalizing k with
  | nil => rfl
  | cons a l ih => simp [renderFrom, ih]

theorem renderMarkers_overlay_length (s : NodeState) :
    (_renderMarkers s).markerOverlay.length = s.pointsData.length := by
  obtain ⟨d, hd, -⟩ := displayInfo_pos s.imgElement
  simp [_renderMarkers, hd, renderFrom_length]

theorem restyleFrom_length (idx k : ℕ) (l : List Marker) :
    (restyleFrom idx k l).length = l.length := by
  induction l generalizing k with
  | nil => rfl
  | cons a l ih => simp [restyleFrom, ih]

theorem moveMarker_length (l : List Marker) (idx : ℕ) (x y : ℚ) :
    (moveMarker l idx x y).length = l.length := by
  unfold moveMarker
  split <;> simp

/-- A click leaves the node as it is or appends one point, renders, and inserts one tag. -/
theorem handleImageClick_eq_or (s : NodeState) (e : ClickEvent) :
    _handleImageClick s e = s ∨
    ∃ x y, _handleImageClick s e =
      _updatePromptData (_updatePointsWidget (_insertMarkerTag
        (_renderMarkers
          { s with
            pointsData := s.pointsData ++ [{ x := x, y := y, index := s.pointsData.length + 1 }] })
        (s.pointsData.length + 1) e.caret)) := by
  obtain ⟨d, hd, -⟩ := displayInfo_pos s.imgElement
  by_cases hm : e.targetIsMarker = true
  · left
    simp [_handleImageClick, hm]
  by_cases hshown : s.imgElement.displayed = true
  swap
  · left
    simp [_handleImageClick, hm, hshown]
  by_cases hout : (clickPosition e).1 < d.x ∨ (clickPosition e).1 > d.x + d.width ∨
      (clickPosition e).2 < d.y ∨ (clickPosition e).2 > d.y + d.height
  · left
    simp [_handleImageClick, hm, hshown, hd, hout]
  · right
    exact ⟨_, _, handleImageClick_accepted s e d (by simpa using hm) hshown hd hout⟩

@[simp] theorem insertMarkerTag_markerOverlay (s : NodeState) (index : ℕ)
    (caret : Option BoundaryPoint) :
    (_insertMarkerTag s index caret).markerOverlay = s.markerOverlay := rfl

theorem handleImageClick_selectionValid (s : NodeState) (e : ClickEvent)
    (h : SelectionValid s) : SelectionValid (_handleImageClick s e) := by
  rcases handleImageClick_eq_or s e with h1 | ⟨x, y, h1⟩
  · rw [h1]
    exact h
  · rw [h1]
    refine ⟨?_, ?_⟩
    · simp only [updatePromptData_markerOverlay, updatePointsWidget_markerOverlay,
        insertMarkerTag_markerOverlay, renderMarkers_overlay_length,
        updatePromptData_pointsData, updatePointsWidget_pointsData,
        insertMarkerTag_pointsData, renderMarkers_pointsData]
    · intro p hp
      simp only [updatePromptData_selected, updatePointsWidget_selected,
        insertMarkerTag_selected, renderMarkers_selected] at hp
      have := h.2 p hp
      simp only [updatePromptData_pointsData, updatePointsWidget_pointsData,
        insertMarkerTag_pointsData, renderMarkers_pointsData, List.length_append,
        List.length_singleton]
      omega

theorem selectMarker_selectionValid (s : NodeState) (idx : ℕ) (h : SelectionValid s)
    (hidx : idx < s.markerOverlay.length) : SelectionValid (_selectMarker s idx) := by
  refine ⟨?_, ?_⟩
  · simp only [_selectMarker, restyleFrom_length]
    exact h.1
  · intro p hp
    simp only [_selectMarker, Option.some.injEq] at hp
    subst hp
    simp only [_selectMarker]
    rw [← h.1]
    exact hidx

theorem onMouseMove_selectionValid (s : NodeState) (drag : DragSession) (cx cy : ℚ)
    (h : SelectionValid s) : SelectionValid (onMouseMove s drag cx cy).1.state := by
  unfold onMouseMove
  split
  · exact h
  · split
    · exact h
    · refine ⟨?_, ?_⟩
      · simp only [Outcome.state, List.length_set]
        split
        · rw [moveMarker_length]
          exact h.1
        · exact h.1
      · intro p hp
        simp only [Outcome.state, List.length_set] at hp ⊢
        exact h.2 p hp

theorem dragMoves_selectionValid (s : NodeState) (drag : DragSession) (moves : List (ℚ × ℚ))
    (h : SelectionValid s) : SelectionValid (dragMoves s drag moves).1 := by
  induction moves generalizing s drag with
  | nil => exact h
  | cons m rest ih =>
    simp only [dragMoves]
    exact ih _ _ (onMouseMove_selectionValid s drag m.1 m.2 h)

/-- With a valid selection `_deleteSelectedMarker` runs to its end. -/
theorem deleteSelectedMarker_completed (s : NodeState) (h : SelectionValid s) :
    (_deleteSelectedMarker s).isCompleted = true := by
  cases hsel : s.selectedMarkerIndex with
  | none =>
    unfold _deleteSelectedMarker
    simp [hsel, Outcome.isCompleted]
  | some p =>
    have hp := h.2 p hsel
    rw [deleteSelectedMarker_of_some s p _ hsel (List.getElem?_eq_getElem hp)]
    rfl

theorem deleteSelectedMarker_selectionValid (s : NodeState) (h : SelectionValid s) :
    SelectionValid (_deleteSelectedMarker s).state := by
  cases hsel : s.selectedMarkerIndex with
  | none =>
    have : (_deleteSelectedMarker s).state = s := by
      unfold _deleteSelectedMarker
      simp [hsel, Outcome.state]
    rw [this]
    exact h
  | some p =>
    have hp := h.2 p hsel
    rw [deleteSelectedMarker_of_some s p _ hsel (List.getElem?_eq_getElem hp)]
    refine ⟨?_, ?_⟩
    · simp only [Outcome.state, updatePromptData_markerOverlay,
        updatePointsWidget_markerOverlay, renderMarkers_overlay_length,
        updatePromptData_pointsData, updatePointsWidget_pointsData, renderMarkers_pointsData]
    · intro q hq
      simp [Outcome.state, _updateTagNumbers] at hq

theorem clearAllMarkers_selectionValid (s : NodeState) : SelectionValid (_clearAllMarkers s) :=
  ⟨rfl, fun p hp => by simp [_clearAllMarkers] at hp⟩

theorem act_selectionValid (s : NodeState) (a : Action) (h : SelectionValid s) :
    SelectionValid (act s a) := by
  cases a with
  | click e => exact handleImageClick_selectionValid s e h
  | press idx =>
    simp only [act]
    split
    · rename_i hidx
      exact selectMarker_selectionValid s idx h hidx
    · exact h
  | drag idx down moves =>
    simp only [act]
    split
    · rename_i hidx
      split
      · exact h
      · rename_i d _
        have h1 := selectMarker_selectionValid s idx h hidx
        exact dragMoves_selectionValid _ (markerMouseDown s d idx none down).2 moves h1
    · exact h
  | deleteSelected => exact deleteSelectedMarker_selectionValid s h
  | clearAll => exact clearAllMarkers_selectionValid s

theorem runActions_selectionValid (s : NodeState) (actions : List Action)
    (h : SelectionValid s) : SelectionValid (runActions s actions) := by
  induction actions generalizing s with
  | nil => exact h
  | cons a rest ih => exact ih (act s a) (act_selectionValid s a h)

/-- C19. Starting from a node as `onNodeCreated` leaves it (no point, no marker, nothing
selected), after every sequence of image clicks, presses on rendered markers, drags,
"delete selected" and "clear all", Selection State is empty or a position `p < count`, and
`_deleteSelectedMarker` runs to its end: it never reads `deletedPoint.index` on a missing
point. -/
theorem runActions_selection_in_range (s : NodeState) (actions : List Action)
    (hpoints : s.pointsData = []) (hoverlay : s.markerOverlay = [])
    (hsel : s.selectedMarkerIndex = none) :
    (∀ p, (runActions s actions).selectedMarkerIndex = some p →
      p < (runActions s actions).pointsData.length) ∧
    (_deleteSelectedMarker (runActions s actions)).isCompleted = true := by
  have h0 : SelectionValid s :=
    ⟨by rw [hpoints, hoverlay]; rfl, fun p hp => by rw [hsel] at hp; exact absurd hp (by simp)⟩
  have h := runActions_selectionValid s actions h0
  exact ⟨h.2, deleteSelectedMarker_completed _ h⟩

/-- C19, on `mixedRun`: three points are left, the first is selected, and a deletion would run
to its end. -/
theorem runActions_selection_in_range_witness :
    (runActions withSquareImage mixedRun).selectedMarkerIndex = some 0 ∧
    (runActions withSquareImage mixedRun).pointsData.length = 3 ∧
    (∀ p, (runActions withSquareImage mixedRun).selectedMarkerIndex = some p →
      p < (runActions withSquareImage mixedRun).pointsData.length) ∧
    (_deleteSelectedMarker (runActions withSquareImage mixedRun)).isCompleted = true :=
  ⟨by decide!, by decide!, runActions_selection_in_range withSquareImage mixedRun rfl rfl rfl⟩

/-! ## Tags and points stay in sync -/

theorem indicesDense_set (l : List Point) (i : ℕ) (pt q : Point) (h : IndicesDense l)
    (hpt : l[i]? = some pt) (hq : q.index = pt.index) : IndicesDense (l.set i q) := by
  intro j p hp
  by_cases hij : i = j
  · subst hij
    have hlt : i < l.length := by
      rcases Nat.lt_or_ge i l.length with h1 | h1
      · exact h1
      · rw [List.getElem?_eq_none h1] at hpt
        exact absurd hpt (by simp)
    rw [List.getElem?_set_self hlt] at hp
    cases Option.some.inj hp
    rw [hq]
    exact h i pt hpt
  · rw [List.getElem?_set_ne hij] at hp
    exact h j p hp

theorem onMouseMove_indicesDense (s : NodeState) (drag : DragSession) (cx cy : ℚ)
    (h : IndicesDense s.pointsData) :
    IndicesDense (onMouseMove s drag cx cy).1.state.pointsData := by
  unfold onMouseMove
  split
  · exact h
  · split
    · exact h
    · rename_i pt hpt
      exact indicesDense_set _ _ pt _ h hpt rfl

theorem onMouseMove_promptTextarea (s : NodeState) (drag : DragSession) (cx cy : ℚ) :
    (onMouseMove s drag cx cy).1.state.promptTextarea = s.promptTextarea := by
  unfold onMouseMove
  split
  · rfl
  · split <;> rfl

theorem onMouseMove_length (s : NodeState) (drag : DragSession) (cx cy : ℚ) :
    (onMouseMove s drag cx cy).1.state.pointsData.length = s.pointsData.length := by
  unfold onMouseMove
  split
  · rfl
  · split
    · rfl
    · simp [Outcome.state]

theorem dragMoves_indicesDense (s : NodeState) (drag : DragSession) (moves : List (ℚ × ℚ))
    (h : IndicesDense s.pointsData) : IndicesDense (dragMoves s drag moves).1.pointsData := by
  induction moves generalizing s drag with
  | nil => exact h
  | cons m rest ih =>
    simp only [dragMoves]
    exact ih _ _ (onMouseMove_indicesDense s drag m.1 m.2 h)

theorem dragMoves_tags (s : NodeState) (drag : DragSession) (moves : List (ℚ × ℚ)) :
    (dragMoves s drag moves).1.promptTextarea = s.promptTextarea ∧
      (dragMoves s drag moves).1.pointsData.length = s.pointsData.length := by
  induction moves generalizing s drag with
  | nil => exact ⟨rfl, rfl⟩
  | cons m rest ih =>
    simp only [dragMoves]
    obtain ⟨h1, h2⟩ := ih (onMouseMove s drag m.1 m.2).1.state (onMouseMove s drag m.1 m.2).2
    exact ⟨h1.trans (onMouseMove_promptTextarea s drag m.1 m.2),
      h2.trans (onMouseMove_length s drag m.1 m.2)⟩

theorem act_indicesDense (s : NodeState) (a : Action) (h : IndicesDense s.pointsData) :
    IndicesDense (act s a).pointsData := by
  cases a with
  | click e =>
    rcases handleImageClick_pointsData s e with h1 | ⟨x, y, h1⟩
    · simpa [act, h1] using h
    · simp only [act, h1]
      exact indicesDense_append _ x y h
  | press idx =>
    simp only [act]
    split <;> exact h
  | drag idx down moves =>
    simp only [act]
    split
    · split
      · exact h
      · simp only [onMouseUp, updatePointsWidget_pointsData]
        exact dragMoves_indicesDense _ _ _ h
    · exact h
  | deleteSelected =>
    simp only [act]
    cases hsel : s.selectedMarkerIndex with
    | none =>
      have : (_deleteSelectedMarker s).state = s := by
        unfold _deleteSelectedMarker
        simp [hsel, Outcome.state]
      rw [this]
      exact h
    | some idx =>
      rw [deleteSelectedMarker_pointsData s idx hsel]
      exact indicesDense_renumberFrom _
  | clearAll =>
    intro i p hp
    simp [act, _clearAllMarkers] at hp

theorem insertNode_isSome (path : List ℕ) :
    ∀ (content : List RNode) (offset : ℕ) (n m : RNode),
      (insertNode path content offset n).isSome = true →
      (insertNode path content offset m).isSome = true := by
  induction path with
  | nil =>
    intro content offset n m h
    simp only [insertNode] at h ⊢
    split at h
    · rename_i hle
      simp [hle]
    · simp at h
  | cons i path ih =>
    intro content offset n m h
    cases hc : content[i]? with
    | none => simp [insertNode, hc] at h
    | some node =>
      cases node with
      | text c =>
        cases path with
        | nil =>
          simp only [insertNode, hc] at h ⊢
          split at h
          · rename_i hle
            simp [hle]
          · simp at h
        | cons j path => simp [insertNode, hc] at h
      | tag k => simp [insertNode, hc] at h
      | br => simp [insertNode, hc] at h
      | block sub =>
        simp only [insertNode, hc, Option.isSome_map'] at h ⊢
        exact ih sub offset n m h
      | elem sub =>
        simp only [insertNode, hc, Option.isSome_map'] at h ⊢
        exact ih sub offset n m h
      | comment d => simp [insertNode, hc] at h

/-- The tags of the field after `_insertMarkerTag`, for a caret that denotes a position. -/
theorem insertMarkerTag_tags (s : NodeState) (index : ℕ) (caret : Option BoundaryPoint)
    (hc : caretInField s.promptTextarea caret = true) :
    (tagsOfNodes (_insertMarkerTag s index caret).promptTextarea).Perm
      (index :: tagsOfNodes s.promptTextarea) := by
  cases caret with
  | none =>
    show (tagsOfNodes (s.promptTextarea ++ [RNode.tag index])).Perm _
    rw [tagsOfNodes_append]
    simp only [tagsOfNodes, tagsOfNode, List.append_nil]
    exact List.perm_append_singleton _ _
  | some bp =>
    simp only [caretInField] at hc
    have hsome := insertNode_isSome bp.path s.promptTextarea bp.offset _ (RNode.tag index) hc
    cases hr : insertNode bp.path s.promptTextarea bp.offset (RNode.tag index) with
    | none => simp [hr] at hsome
    | some r =>
      show (tagsOfNodes ((insertNode bp.path s.promptTextarea bp.offset
        (RNode.tag index)).getD s.promptTextarea)).Perm _
      rw [hr]
      exact tagsOfNodes_insertNode bp.path _ _ _ r hr

theorem filter_ne_length (l : List ℕ) (n k : ℕ) (h : l.Perm (List.range' 1 n))
    (hk : 1 ≤ k ∧ k ≤ n) : (l.filter (fun j => j != k)).length = n - 1 := by
  have h1 := (h.filter (fun j => j != k)).length_eq
  rw [h1, ← List.Nodup.erase_eq_filter (List.nodup_range' 1 n) k,
    List.length_erase_of_mem (by simp; omega)]
  simp

theorem handleImageClick_tagsInSync (s : NodeState) (e : ClickEvent) (ht : TagsInSync s)
    (hc : caretInField s.promptTextarea e.caret = true) :
    TagsInSync (_handleImageClick s e) := by
  rcases handleImageClick_eq_or s e with h1 | ⟨x, y, h1⟩
  · rw [h1]
    exact ht
  · rw [h1]
    unfold TagsInSync
    simp only [updatePromptData_promptTextarea, updatePointsWidget_promptTextarea,
      updatePromptData_pointsData, updatePointsWidget_pointsData, insertMarkerTag_pointsData,
      renderMarkers_pointsData, List.length_append, List.length_singleton]
    have hc' : caretInField
        (_renderMarkers
          { s with
            pointsData := s.pointsData ++
              [{ x := x, y := y, index := s.pointsData.length + 1 }] }).promptTextarea
        e.caret = true := by
      rw [renderMarkers_promptTextarea]
      exact hc
    refine (insertMarkerTag_tags _ (s.pointsData.length + 1) e.caret hc').trans ?_
    rw [renderMarkers_promptTextarea, List.range'_1_concat, Nat.add_comm 1]
    exact (List.Perm.cons _ ht).trans (List.perm_append_singleton _ _).symm

theorem deleteSelectedMarker_tagsInSync (s : NodeState) (hv : SelectionValid s)
    (hd : IndicesDense s.pointsData) (ht : TagsInSync s) :
    TagsInSync (_deleteSelectedMarker s).state := by
  cases hsel : s.selectedMarkerIndex with
  | none =>
    have : (_deleteSelectedMarker s).state = s := by
      unfold _deleteSelectedMarker
      simp [hsel, Outcome.state]
    rw [this]
    exact ht
  | some p =>
    have hp := hv.2 p hsel
    have hpt : s.pointsData[p]? = some s.pointsData[p] := List.getElem?_eq_getElem hp
    have hidx : s.pointsData[p].index = p + 1 := hd p _ hpt
    rw [deleteSelectedMarker_of_some s p _ hsel hpt]
    unfold TagsInSync
    simp only [Outcome.state, updatePromptData_promptTextarea,
      updatePointsWidget_promptTextarea, renderMarkers_promptTextarea,
      updatePromptData_pointsData, updatePointsWidget_pointsData, renderMarkers_pointsData,
      _updateTagNumbers, renumberFrom_length, List.length_eraseIdx, if_pos hp]
    rw [(renumberNodes_spec 1 _).1, tagsOfNodes_removeTagsNodes, hidx,
      filter_ne_length _ s.pointsData.length (p + 1) ht ⟨by omega, by omega⟩]

theorem act_tagsInSync (s : NodeState) (a : Action) (hv : SelectionValid s)
    (hd : IndicesDense s.pointsData) (ht : TagsInSync s)
    (hc : ∀ e, a = Action.click e → caretInField s.promptTextarea e.caret = true) :
    TagsInSync (act s a) := by
  cases a with
  | click e => exact handleImageClick_tagsInSync s e ht (hc e rfl)
  | press idx =>
    simp only [act]
    split
    · exact ht
    · exact ht
  | drag idx down moves =>
    simp only [act]
    split
    · split
      · exact ht
      · rename_i d _
        obtain ⟨h1, h2⟩ := dragMoves_tags (markerMouseDown s d idx none down).1
          (markerMouseDown s d idx none down).2 moves
        unfold TagsInSync
        simp only [onMouseUp, updatePointsWidget_promptTextarea, updatePointsWidget_pointsData,
          h1, h2]
        exact ht
    · exact ht
  | deleteSelected => exact deleteSelectedMarker_tagsInSync s hv hd ht
  | clearAll =>
    unfold TagsInSync
    simp only [act, _clearAllMarkers, updatePromptData_promptTextarea,
      updatePointsWidget_promptTextarea, updatePromptData_pointsData,
      updatePointsWidget_pointsData, tagsOfNodes_removeAllTagsNodes]
    simp

theorem runActions_tagsInSync (s : NodeState) (actions : List Action) (hv : SelectionValid s)
    (hd : IndicesDense s.pointsData) (ht : TagsInSync s)
    (hc : caretsInField s actions = true) : TagsInSync (runActions s actions) := by
  induction actions generalizing s with
  | nil => exact ht
  | cons a rest ih =>
    have hrest : caretsInField (act s a) rest = true := by
      cases a <;> simp only [caretsInField, Bool.and_eq_true] at hc
      · exact hc.2
      all_goals exact hc
    have hhead : ∀ e, a = Action.click e → caretInField s.promptTextarea e.caret = true := by
      intro e he
      subst he
      simp only [caretsInField, Bool.and_eq_true] at hc
      exact hc.1
    exact ih (act s a) (act_selectionValid s a hv) (act_indicesDense s a hd)
      (act_tagsInSync s a hv hd ht hhead) hrest

/-- C18. Starting from a node without points, markers, selection and tags, after every
sequence of image clicks (the new tag inserted at a caret that denotes a position of the prompt
field, or appended), marker presses, drags, "delete selected" and "clear all", the prompt field
holds as many marker tags as there are points, and the tag indices are exactly `1..count`, each
once. -/
theorem runActions_tags_match_points (s : NodeState) (actions : List Action)
    (hpoints : s.pointsData = []) (hoverlay : s.markerOverlay = [])
    (hsel : s.selectedMarkerIndex = none) (htags : tagsOfNodes s.promptTextarea = [])
    (hcaret : caretsInField s actions = true) :
    (tagsOfNodes (runActions s actions).promptTextarea).length =
      (runActions s actions).pointsData.length ∧
    (tagsOfNodes (runActions s actions).promptTextarea).Perm
      (List.range' 1 (runActions s actions).pointsData.length) := by
  have hv : SelectionValid s :=
    ⟨by rw [hpoints, hoverlay]; rfl, fun p hp => by rw [hsel] at hp; exact absurd hp (by simp)⟩
  have hd : IndicesDense s.pointsData := by
    intro i p hp
    simp [hpoints] at hp
  have ht : TagsInSync s := by
    unfold TagsInSync
    rw [htags, hpoints]
    exact List.Perm.refl _
  have h := runActions_tagsInSync s actions hv hd ht hcaret
  refine ⟨?_, h⟩
  have := h.length_eq
  simpa using this

/-- C18, on `mixedRun`: the field reads tag 1, tag 2, tag 3 and there are three points. -/
theorem runActions_tags_match_points_witness :
    tagsOfNodes (runActions withSquareImage mixedRun).promptTextarea = [1, 2, 3] ∧
    (runActions withSquareImage mixedRun).pointsData.map Point.index = [1, 2, 3] ∧
    (tagsOfNodes (runActions withSquareImage mixedRun).promptTextarea).length =
      (runActions withSquareImage mixedRun).pointsData.length ∧
    (tagsOfNodes (runActions withSquareImage mixedRun).promptTextarea).Perm
      (List.range' 1 (runActions withSquareImage mixedRun).pointsData.length) :=
  ⟨by decide!, by decide!,
   runActions_tags_match_points withSquareImage mixedRun rfl rfl rfl rfl (by decide!)⟩

/-! ## Binary64 rounding -/

theorem log2Fuel_eq (fuel n : ℕ) (h : n ≤ fuel) : log2Fuel fuel n = Nat.log 2 n := by
  induction fuel generalizing n with
  | zero =>
    have : n = 0 := Nat.le_zero.mp h
    subst this
    simp [log2Fuel]
  | succ fuel ih =>
    unfold log2Fuel
    split
    · rename_i hlt
      rw [Nat.log_of_lt hlt]
    · rename_i hge
      have h2 : 2 ≤ n := Nat.le_of_not_lt hge
      rw [Nat.log_of_one_lt_of_le (by norm_num) h2]
      congr 1
      apply ih
      omega

theorem log2Fuel_bounds (n : ℕ) (hn : 0 < n) :
    ((2 : ℚ) ^ (log2Fuel n n : ℤ) ≤ n) ∧ ((n : ℚ) < (2 : ℚ) ^ ((log2Fuel n n : ℤ) + 1)) := by
  rw [log2Fuel_eq n n (le_refl _)]
  constructor
  · rw [zpow_natCast]
    exact_mod_cast Nat.pow_log_le_self 2 (Nat.pos_iff_ne_zero.mp hn)
  · have : ((Nat.log 2 n : ℤ) + 1) = ((Nat.log 2 n + 1 : ℕ) : ℤ) := by push_cast; ring
    rw [this, zpow_natCast]
    exact_mod_cast Nat.lt_pow_succ_log_self (by norm_num) n

theorem floorLog2_spec (a : ℚ) (ha : 0 < a) :
    (2 : ℚ) ^ (floorLog2 a) ≤ a ∧ a < (2 : ℚ) ^ (floorLog2 a + 1) := by
  have hnum : 0 < a.num := Rat.num_pos.mpr ha
  have hn : 0 < a.num.natAbs := Int.natAbs_pos.mpr (ne_of_gt hnum)
  have hd : 0 < a.den := a.den_pos
  have hcast : ((a.num.natAbs : ℕ) : ℚ) = (a.num : ℚ) := by
    have : ((a.num.natAbs : ℕ) : ℤ) = a.num := Int.natAbs_of_nonneg (le_of_lt hnum)
    rw [← Int.cast_natCast, this]
  have haeq : a = (a.num.natAbs : ℚ) / (a.den : ℚ) := by
    rw [hcast]; exact (Rat.num_div_den a).symm
  obtain ⟨hn1, hn2⟩ := log2Fuel_bounds a.num.natAbs hn
  obtain ⟨hd1, hd2⟩ := log2Fuel_bounds a.den hd
  have hdq : (0 : ℚ) < (a.den : ℚ) := by exact_mod_cast hd
  have hnq : (0 : ℚ) < (a.num.natAbs : ℚ) := by exact_mod_cast hn
  have h2 : (2 : ℚ) ≠ 0 := by norm_num
  unfold floorLog2
  simp only []
  generalize hN : a.num.natAbs = n at *
  generalize hD : a.den = d at *
  generalize hln : (log2Fuel n n : ℤ) = ln at *
  generalize hld : (log2Fuel d d : ℤ) = ld at *
  -- strict bounds around the difference of the two logarithms
  have hlow : (2 : ℚ) ^ (ln - ld - 1) < a := by
    have e : (2 : ℚ) ^ (ln - ld - 1) = (2 : ℚ) ^ ln / (2 : ℚ) ^ (ld + 1) := by
      rw [← zpow_sub₀ h2]; congr 1; ring
    rw [e, haeq, div_lt_div_iff₀ (by positivity) hdq]
    calc (2 : ℚ) ^ ln * d < (2 : ℚ) ^ ln * (2 : ℚ) ^ (ld + 1) := by
          apply mul_lt_mul_of_pos_left hd2 (by positivity)
      _ ≤ n * (2 : ℚ) ^ (ld + 1) := by
          apply mul_le_mul_of_nonneg_right hn1 (by positivity)
  have hhigh : a < (2 : ℚ) ^ (ln - ld + 1) := by
    have e : (2 : ℚ) ^ (ln - ld + 1) = (2 : ℚ) ^ (ln + 1) / (2 : ℚ) ^ ld := by
      rw [← zpow_sub₀ h2]; congr 1; ring
    rw [e, haeq, div_lt_div_iff₀ hdq (by positivity)]
    calc (n : ℚ) * (2 : ℚ) ^ ld < (2 : ℚ) ^ (ln + 1) * (2 : ℚ) ^ ld := by
          apply mul_lt_mul_of_pos_right hn2 (by positivity)
      _ ≤ (2 : ℚ) ^ (ln + 1) * d := by
          apply mul_le_mul_of_nonneg_left hd1 (by positivity)
  have hcond : (if 0 ≤ ln - ld then 2 ^ (ln - ld).toNat * d ≤ n
      else d ≤ 2 ^ (-(ln - ld)).toNat * n) ↔ (2 : ℚ) ^ (ln - ld) ≤ a := by
    split
    · rename_i hk
      have e : (2 : ℚ) ^ (ln - ld) = ((2 ^ (ln - ld).toNat : ℕ) : ℚ) := by
        conv_lhs => rw [← Int.toNat_of_nonneg hk]
        rw [zpow_natCast]; push_cast; rfl
      rw [e, haeq, le_div_iff₀ hdq]
      exact_mod_cast Iff.rfl
    · rename_i hk
      have hk' : 0 ≤ -(ln - ld) := by omega
      have e : (2 : ℚ) ^ (ln - ld) = 1 / ((2 ^ (-(ln - ld)).toNat : ℕ) : ℚ) := by
        have : ln - ld = -((-(ln - ld)).toNat : ℤ) := by
          rw [Int.toNat_of_nonneg hk']; ring
        conv_lhs => rw [this]
        rw [zpow_neg, zpow_natCast]; push_cast; rw [one_div]
      rw [e, haeq, div_le_div_iff₀ (by positivity) hdq]
      rw [one_mul, mul_comm]
      exact_mod_cast Iff.rfl
  by_cases hc : (2 : ℚ) ^ (ln - ld) ≤ a
  · rw [if_pos (hcond.mpr hc)]
    exact ⟨hc, hhigh⟩
  · rw [if_neg (fun h => hc (hcond.mp h))]
    refine ⟨le_of_lt hlow, ?_⟩
    have : ln - ld - 1 + 1 = ln - ld := by ring
    rw [this]
    exact lt_of_not_le hc

theorem floorLog2_unique (a : ℚ) (e : ℤ) (h1 : (2 : ℚ) ^ e ≤ a) (h2 : a < (2 : ℚ) ^ (e + 1)) :
    floorLog2 a = e := by
  have ha : 0 < a := lt_of_lt_of_le (by positivity) h1
  obtain ⟨s1, s2⟩ := floorLog2_spec a ha
  have a1 : floorLog2 a < e + 1 := (zpow_lt_zpow_iff_right₀ (by norm_num : (1 : ℚ) < 2)).mp (lt_of_le_of_lt s1 h2)
  have a2 : e < floorLog2 a + 1 := (zpow_lt_zpow_iff_right₀ (by norm_num : (1 : ℚ) < 2)).mp (lt_of_le_of_lt h1 s2)
  omega

theorem floorLog2_mono (a b : ℚ) (ha : 0 < a) (hab : a ≤ b) : floorLog2 a ≤ floorLog2 b := by
  obtain ⟨s1, _⟩ := floorLog2_spec a ha
  obtain ⟨_, t2⟩ := floorLog2_spec b (lt_of_lt_of_le ha hab)
  have : floorLog2 a < floorLog2 b + 1 :=
    (zpow_lt_zpow_iff_right₀ (by norm_num : (1 : ℚ) < 2)).mp (lt_of_le_of_lt (le_trans s1 hab) t2)
  omega

theorem roundHalfEven_floor (m : ℚ) : ⌊m⌋ ≤ roundHalfEven m ∧ roundHalfEven m ≤ ⌊m⌋ + 1 := by
  unfold roundHalfEven
  simp only []
  split_ifs <;> constructor <;> omega

theorem roundHalfEven_bounds (m : ℚ) :
    m - 1 / 2 ≤ (roundHalfEven m : ℚ) ∧ (roundHalfEven m : ℚ) ≤ m + 1 / 2 := by
  have h1 : (⌊m⌋ : ℚ) ≤ m := Int.floor_le m
  have h2 : m < (⌊m⌋ : ℚ) + 1 := Int.lt_floor_add_one m
  unfold roundHalfEven
  simp only []
  split_ifs with c1 c2 c3 <;> push_cast <;> constructor <;> linarith

theorem roundHalfEven_mono (m1 m2 : ℚ) (h : m1 ≤ m2) : roundHalfEven m1 ≤ roundHalfEven m2 := by
  have hf : ⌊m1⌋ ≤ ⌊m2⌋ := Int.floor_mono h
  rcases lt_or_eq_of_le hf with hlt | heq
  · have a := (roundHalfEven_floor m1).2
    have b := (roundHalfEven_floor m2).1
    omega
  · unfold roundHalfEven
    simp only []
    rw [heq]
    split_ifs <;> first | omega | (exfalso; linarith)

theorem roundHalfEven_intCast (z : ℤ) : roundHalfEven (z : ℚ) = z := by
  unfold roundHalfEven
  simp

theorem roundDouble_of_pos (q : ℚ) (hq : 0 < q) :
    roundDouble q =
      (roundHalfEven (q / (2 : ℚ) ^ (doubleExponent q - 52)) : ℚ) *
        (2 : ℚ) ^ (doubleExponent q - 52) := by
  unfold roundDouble
  simp only [ne_of_gt hq, if_false, abs_of_pos hq, not_lt.mpr (le_of_lt hq), one_mul]

theorem roundDouble_zero : roundDouble 0 = 0 := by
  simp [roundDouble]

theorem roundDouble_nonneg (q : ℚ) (hq : 0 ≤ q) : 0 ≤ roundDouble q := by
  rcases eq_or_lt_of_le hq with h | h
  · rw [← h, roundDouble_zero]
  · rw [roundDouble_of_pos q h]
    apply mul_nonneg _ (by positivity)
    have : roundHalfEven 0 ≤ roundHalfEven (q / (2 : ℚ) ^ (doubleExponent q - 52)) :=
      roundHalfEven_mono _ _ (by positivity)
    have h0 : roundHalfEven (0 : ℚ) = 0 := by
      have := roundHalfEven_intCast 0
      simpa using this
    rw [h0] at this
    exact_mod_cast this

/-- The distance to the rounded value is at most half the spacing. -/
theorem roundDouble_error (q : ℚ) (hq : 0 < q) :
    |roundDouble q - q| ≤ (2 : ℚ) ^ (doubleExponent q - 52) / 2 := by
  rw [roundDouble_of_pos q hq]
  have hu : (0 : ℚ) < (2 : ℚ) ^ (doubleExponent q - 52) := by positivity
  generalize (2 : ℚ) ^ (doubleExponent q - 52) = u at hu ⊢
  obtain ⟨b1, b2⟩ := roundHalfEven_bounds (q / u)
  have e : q = q / u * u := by field_simp
  rw [abs_le]
  constructor
  · have := mul_le_mul_of_nonneg_right b1 (le_of_lt hu)
    nlinarith
  · have := mul_le_mul_of_nonneg_right b2 (le_of_lt hu)
    nlinarith

theorem doubleExponent_of_ge (b : ℚ) (hb : (2 : ℚ) ^ (-1022 : ℤ) ≤ b) :
    doubleExponent b = floorLog2 b := by
  have hpos : 0 < b := lt_of_lt_of_le (by positivity) hb
  obtain ⟨_, s2⟩ := floorLog2_spec b hpos
  have : (-1022 : ℤ) < floorLog2 b + 1 :=
    (zpow_lt_zpow_iff_right₀ (by norm_num : (1 : ℚ) < 2)).mp (lt_of_le_of_lt hb s2)
  unfold doubleExponent
  exact max_eq_left (by omega)

theorem roundDouble_le_pow (a : ℚ) (ha : 0 < a) :
    roundDouble a ≤ (2 : ℚ) ^ (doubleExponent a + 1) := by
  rw [roundDouble_of_pos a ha]
  obtain ⟨_, s2⟩ := floorLog2_spec a ha
  have hE : floorLog2 a ≤ doubleExponent a := le_max_left _ _
  have hlt : a < (2 : ℚ) ^ (doubleExponent a + 1) :=
    lt_of_lt_of_le s2 (zpow_le_zpow_right₀ (by norm_num) (by omega))
  have hu : (0 : ℚ) < (2 : ℚ) ^ (doubleExponent a - 52) := by positivity
  have e : (2 : ℚ) ^ (doubleExponent a + 1) =
      ((2 ^ 53 : ℤ) : ℚ) * (2 : ℚ) ^ (doubleExponent a - 52) := by
    have : doubleExponent a + 1 = 53 + (doubleExponent a - 52) := by ring
    rw [this, zpow_add₀ (by norm_num)]
    norm_num
  rw [e]
  apply mul_le_mul_of_nonneg_right _ (le_of_lt hu)
  have hm : a / (2 : ℚ) ^ (doubleExponent a - 52) ≤ ((2 ^ 53 : ℤ) : ℚ) := by
    rw [div_le_iff₀ hu, ← e]
    exact le_of_lt hlt
  have := roundHalfEven_mono _ _ hm
  rw [roundHalfEven_intCast] at this
  exact_mod_cast this

theorem roundDouble_ge_pow (b : ℚ) (hb : (2 : ℚ) ^ (-1022 : ℤ) ≤ b) :
    (2 : ℚ) ^ (floorLog2 b) ≤ roundDouble b := by
  have hpos : 0 < b := lt_of_lt_of_le (by positivity) hb
  rw [roundDouble_of_pos b hpos, doubleExponent_of_ge b hb]
  obtain ⟨s1, _⟩ := floorLog2_spec b hpos
  have hu : (0 : ℚ) < (2 : ℚ) ^ (floorLog2 b - 52) := by positivity
  have e : (2 : ℚ) ^ (floorLog2 b) = ((2 ^ 52 : ℤ) : ℚ) * (2 : ℚ) ^ (floorLog2 b - 52) := by
    have : floorLog2 b = 52 + (floorLog2 b - 52) := by ring
    conv_lhs => rw [this, zpow_add₀ (by norm_num : (2 : ℚ) ≠ 0)]
    norm_num
  rw [e]
  apply mul_le_mul_of_nonneg_right _ (le_of_lt hu)
  have hm : ((2 ^ 52 : ℤ) : ℚ) ≤ b / (2 : ℚ) ^ (floorLog2 b - 52) := by
    rw [le_div_iff₀ hu, ← e]
    exact s1
  have := roundHalfEven_mono _ _ hm
  rw [roundHalfEven_intCast] at this
  exact_mod_cast this

/-- Rounding is monotone on the non-negative rationals. -/
theorem roundDouble_mono (a b : ℚ) (ha : 0 ≤ a) (hab : a ≤ b) :
    roundDouble a ≤ roundDouble b := by
  rcases eq_or_lt_of_le ha with h0 | hpos
  · rw [← h0, roundDouble_zero]
    exact roundDouble_nonneg b (le_trans ha hab)
  · have hbpos : 0 < b := lt_of_lt_of_le hpos hab
    have hE : doubleExponent a ≤ doubleExponent b :=
      max_le_max (floorLog2_mono a b hpos hab) (le_refl _)
    rcases eq_or_lt_of_le hE with heq | hlt
    · rw [roundDouble_of_pos a hpos, roundDouble_of_pos b hbpos, heq]
      have hu : (0 : ℚ) < (2 : ℚ) ^ (doubleExponent b - 52) := by positivity
      apply mul_le_mul_of_nonneg_right _ (le_of_lt hu)
      have := roundHalfEven_mono _ _ (div_le_div_of_nonneg_right hab (le_of_lt hu))
      exact_mod_cast this
    · have hlow : (-1022 : ℤ) ≤ doubleExponent a := le_max_right _ _
      have hbE : doubleExponent b = floorLog2 b := by
        unfold doubleExponent at hlt hlow ⊢
        rcases le_total (floorLog2 b) (-1022) with h | h
        · rw [max_eq_right h] at hlt
          omega
        · exact max_eq_left h
      have hb2 : (2 : ℚ) ^ (-1022 : ℤ) ≤ b := by
        obtain ⟨s1, _⟩ := floorLog2_spec b hbpos
        refine le_trans (zpow_le_zpow_right₀ (by norm_num) ?_) s1
        omega
      calc roundDouble a ≤ (2 : ℚ) ^ (doubleExponent a + 1) := roundDouble_le_pow a hpos
        _ ≤ (2 : ℚ) ^ (floorLog2 b) := zpow_le_zpow_right₀ (by norm_num) (by omega)
        _ ≤ roundDouble b := roundDouble_ge_pow b hb2

/-- In the normal range the relative error of rounding is at most `2 ^ (-53)`. -/
theorem roundDouble_relative (b : ℚ) (hb : (2 : ℚ) ^ (-1022 : ℤ) ≤ b) :
    |roundDouble b - b| ≤ b / 2 ^ 53 := by
  have hpos : 0 < b := lt_of_lt_of_le (by positivity) hb
  refine le_trans (roundDouble_error b hpos) ?_
  rw [doubleExponent_of_ge b hb]
  obtain ⟨s1, _⟩ := floorLog2_spec b hpos
  have e : (2 : ℚ) ^ (floorLog2 b - 52) = (2 : ℚ) ^ (floorLog2 b) / 2 ^ 52 := by
    rw [zpow_sub₀ (by norm_num : (2 : ℚ) ≠ 0)]
    norm_num
  rw [e, div_div, div_le_div_iff₀ (by positivity) (by positivity)]
  have : (2 : ℚ) ^ 52 * 2 = 2 ^ 53 := by norm_num
  rw [this]
  exact mul_le_mul_of_nonneg_right s1 (by positivity)

/-! ## The display rectangle in binary64 arithmetic -/

/-- The constants of the coordinate code and a few powers of two are doubles. -/
theorem roundDouble_consts :
    roundDouble (400 / 250) = 3602879701896397 / 2251799813685248 ∧
    roundDouble 250 = 250 ∧ roundDouble 400 = 400 ∧ roundDouble 128 = 128 ∧
    roundDouble 256 = 256 ∧
    roundDouble (250 * (3602879701896397 / 2251799813685248)) = 400 ∧
    roundDouble (1 / 2 ^ 32) = 1 / 2 ^ 32 ∧ roundDouble (2 ^ 32) = 2 ^ 32 ∧
    roundDouble (1 / 2 ^ 24) = 1 / 2 ^ 24 ∧ roundDouble (1 / 2 ^ 25) = 1 / 2 ^ 25 := by
  refine ⟨by decide!, by decide!, by decide!, by decide!, by decide!, by decide!, by decide!,
    by decide!, by decide!, by decide!⟩

/-- A rounded value below a double `K * 2 ^ (e - 52)` of the same binade is at least one
spacing below it. -/
theorem roundDouble_gap (x c : ℚ) (e K : ℤ) (he : -1022 ≤ e)
    (hx1 : (2 : ℚ) ^ e ≤ x) (hx2 : x < (2 : ℚ) ^ (e + 1))
    (hc : c = (K : ℚ) * (2 : ℚ) ^ (e - 52)) (hlt : roundDouble x < c) :
    roundDouble x ≤ c - (2 : ℚ) ^ (e - 52) := by
  have hpos : 0 < x := lt_of_lt_of_le (by positivity) hx1
  have hf : floorLog2 x = e := floorLog2_unique x e hx1 hx2
  have hE : doubleExponent x = e := by
    unfold doubleExponent
    rw [hf]
    exact max_eq_left he
  rw [roundDouble_of_pos x hpos, hE] at hlt ⊢
  have hu : (0 : ℚ) < (2 : ℚ) ^ (e - 52) := by positivity
  rw [hc] at hlt ⊢
  have h1 : ((roundHalfEven (x / (2 : ℚ) ^ (e - 52)) : ℤ) : ℚ) < (K : ℚ) :=
    lt_of_mul_lt_mul_right hlt (le_of_lt hu)
  have h2 : roundHalfEven (x / (2 : ℚ) ^ (e - 52)) ≤ K - 1 := by
    have : roundHalfEven (x / (2 : ℚ) ^ (e - 52)) < K := by exact_mod_cast h1
    omega
  have h3 : ((roundHalfEven (x / (2 : ℚ) ^ (e - 52)) : ℤ) : ℚ) ≤ (K : ℚ) - 1 := by
    exact_mod_cast h2
  have := mul_le_mul_of_nonneg_right h3 (le_of_lt hu)
  linarith

/-- The offset `(u / 2)` as the code computes it from the free length `u`: it is not
negative, at most `u`, and within `u / 2 ^ 52` of the half. -/
theorem roundDouble_half (u : ℚ) (h0 : u = 0 ∨ 1 / 2 ^ 45 ≤ u) :
    0 ≤ roundDouble (roundDouble u / 2) ∧ roundDouble (roundDouble u / 2) ≤ u ∧
      |roundDouble (roundDouble u / 2) - u / 2| ≤ u / 2 ^ 52 := by
  rcases h0 with h | h
  · subst h
    simp [roundDouble_zero]
  · have hu : 0 < u := lt_of_lt_of_le (by positivity) h
    have hn1 : (2 : ℚ) ^ (-1022 : ℤ) ≤ u := by
      refine le_trans ?_ h
      rw [one_div, ← zpow_natCast, ← zpow_neg]
      exact zpow_le_zpow_right₀ (by norm_num) (by norm_num)
    have r1 := roundDouble_relative u hn1
    rw [abs_le] at r1
    have ht : u / 2 ≤ roundDouble u := by
      have : u / 2 ^ 53 ≤ u / 2 := by
        apply div_le_div_of_nonneg_left (le_of_lt hu) (by norm_num) (by norm_num)
      linarith [r1.1]
    have hn2 : (2 : ℚ) ^ (-1022 : ℤ) ≤ roundDouble u / 2 := by
      have : (2 : ℚ) ^ (-1022 : ℤ) ≤ u / 4 := by
        have : (2 : ℚ) ^ (-1022 : ℤ) ≤ 1 / 2 ^ 47 := by
          rw [one_div, ← zpow_natCast, ← zpow_neg]
          exact zpow_le_zpow_right₀ (by norm_num) (by norm_num)
        have h47 : (1 : ℚ) / 2 ^ 47 = 1 / 2 ^ 45 / 4 := by norm_num
        linarith
      linarith
    have r2 := roundDouble_relative (roundDouble u / 2) hn2
    rw [abs_le] at r2
    have e53 : (0 : ℚ) < 2 ^ 53 := by positivity
    generalize roundDouble (roundDouble u / 2) = y at r2 ⊢
    generalize roundDouble u = t at r1 r2 ht hn2
    have ht0 : 0 ≤ t := by linarith
    have k1 : t / 2 / 2 ^ 53 = t / 2 ^ 54 := by rw [div_div]; norm_num
    have k2 : t ≤ u + u / 2 ^ 53 := by linarith [r1.2]
    have k3 : u - u / 2 ^ 53 ≤ t := by linarith [r1.1]
    rw [k1] at r2
    have q1 : u / 2 ^ 53 = u * (1 / 2 ^ 53) := by ring
    have q2 : t / 2 ^ 54 = t * (1 / 2 ^ 54) := by ring
    have q3 : u / 2 ^ 52 = u * (1 / 2 ^ 52) := by ring
    rw [q2] at r2
    rw [q1] at k2 k3
    rw [q3, abs_le]
    norm_num at r2 k2 k3 ⊢
    refine ⟨by linarith, by linarith, by linarith, by linarith⟩

/-- A bound `1 / 2 ^ k` with `k <= 1022` lies in the normal range. -/
theorem pow_neg1022_le (b : ℚ) (k : ℕ) (hk : k ≤ 1022) (hb : 1 / 2 ^ k ≤ b) :
    (2 : ℚ) ^ (-1022 : ℤ) ≤ b := by
  refine le_trans ?_ hb
  rw [one_div, ← zpow_natCast, ← zpow_neg]
  exact zpow_le_zpow_right₀ (by norm_num) (by omega)

/-- The natural size the code works with, for a dimension below `2 ^ 32`. -/
theorem substituted_bounds (n : ℕ) (h : n < 2 ^ 32) :
    (1 : ℚ) ≤ (if n = 0 then (1 : ℚ) else (n : ℚ)) ∧
      (if n = 0 then (1 : ℚ) else (n : ℚ)) ≤ 2 ^ 32 := by
  split
  · norm_num
  · rename_i hn
    constructor
    · exact_mod_cast Nat.one_le_iff_ne_zero.mpr hn
    · exact_mod_cast le_of_lt h

/-- The rounded aspect ratio of an image whose dimensions are between 1 and `2 ^ 32`. -/
theorem aspect_bounds (W H : ℚ) (hW1 : 1 ≤ W) (hW2 : W ≤ 2 ^ 32) (hH1 : 1 ≤ H)
    (hH2 : H ≤ 2 ^ 32) :
    1 / 2 ^ 32 ≤ roundDouble (W / H) ∧ roundDouble (W / H) ≤ 2 ^ 32 ∧
      W - W / 2 ^ 53 ≤ roundDouble (W / H) * H ∧ roundDouble (W / H) * H ≤ W + W / 2 ^ 53 := by
  have hH : 0 < H := by linarith
  have hW : 0 < W := by linarith
  have l1 : 1 / 2 ^ 32 ≤ W / H := by
    rw [div_le_div_iff₀ (by positivity) hH]
    nlinarith
  have l2 : W / H ≤ 2 ^ 32 := by
    rw [div_le_iff₀ hH]
    nlinarith
  have m1 := roundDouble_mono _ _ (by positivity) l1
  have m2 := roundDouble_mono _ _ (by positivity) l2
  rw [roundDouble_consts.2.2.2.2.2.2.1] at m1
  rw [roundDouble_consts.2.2.2.2.2.2.2.1] at m2
  have r := roundDouble_relative (W / H) (pow_neg1022_le _ 32 (by norm_num) l1)
  rw [abs_le] at r
  refine ⟨m1, m2, ?_, ?_⟩
  · have := mul_le_mul_of_nonneg_right r.1 (le_of_lt hH)
    have e1 : W / H * H = W := by field_simp
    have e2 : W / H / 2 ^ 53 * H = W / 2 ^ 53 := by field_simp; ring
    nlinarith
  · have := mul_le_mul_of_nonneg_right r.2 (le_of_lt hH)
    have e1 : W / H * H = W := by field_simp
    have e2 : W / H / 2 ^ 53 * H = W / 2 ^ 53 := by field_simp; ring
    nlinarith

/-- The aspect ratio of a rectangle as wide as the container, for a rounded quotient `a` of
`W / H` and a rounded quotient `h` of `400 / a`. -/
theorem aspect_wide_bound (h a W H : ℚ) (hpos : 0 < h) (hH : 0 < H)
    (hA1 : W - W / 2 ^ 53 ≤ a * H) (hA2 : a * H ≤ W + W / 2 ^ 53)
    (rA1 : 400 - 400 / 2 ^ 53 ≤ h * a) (rA2 : h * a ≤ 400 + 400 / 2 ^ 53) :
    |400 * H - h * W| ≤ 400 * H / 2 ^ 51 := by
  have p1 : h * W - h * W / 2 ^ 53 ≤ h * a * H := by
    have := mul_le_mul_of_nonneg_left hA1 (le_of_lt hpos)
    linarith
  have p2 : h * a * H ≤ h * W + h * W / 2 ^ 53 := by
    have := mul_le_mul_of_nonneg_left hA2 (le_of_lt hpos)
    linarith
  have p3 : 400 * H - 400 * H / 2 ^ 53 ≤ h * a * H := by
    have := mul_le_mul_of_nonneg_right rA1 (le_of_lt hH)
    linarith
  have p4 : h * a * H ≤ 400 * H + 400 * H / 2 ^ 53 := by
    have := mul_le_mul_of_nonneg_right rA2 (le_of_lt hH)
    linarith
  generalize h * a * H = Y at p1 p2 p3 p4
  generalize h * W = X at p1 p2 ⊢
  rw [abs_le]
  constructor <;> linarith

/-- The aspect ratio of a rectangle as high as the container, for a rounded quotient `a` of
`W / H` and a rounded product `w` of `250 * a`. -/
theorem aspect_tall_bound (w a W H : ℚ) (hpos : 0 < w) (hH : 0 < H)
    (hA1 : W - W / 2 ^ 53 ≤ a * H) (hA2 : a * H ≤ W + W / 2 ^ 53)
    (r1 : 250 * a - 250 * a / 2 ^ 53 ≤ w) (r2 : w ≤ 250 * a + 250 * a / 2 ^ 53) :
    |w * H - 250 * W| ≤ w * H / 2 ^ 51 := by
  have p1 : 250 * (a * H) - 250 * (a * H) / 2 ^ 53 ≤ w * H := by
    have := mul_le_mul_of_nonneg_right r1 (le_of_lt hH)
    linarith
  have p2 : w * H ≤ 250 * (a * H) + 250 * (a * H) / 2 ^ 53 := by
    have := mul_le_mul_of_nonneg_right r2 (le_of_lt hH)
    linarith
  have hwH : 0 < w * H := mul_pos hpos hH
  generalize a * H = Y at hA1 hA2 p1 p2
  generalize w * H = X at p1 p2 hwH ⊢
  rw [abs_le]
  constructor <;> linarith

/-- The rectangle of an image wider than the container: its height `h` and its vertical
offset `y`, as computed from the rounded aspect ratio `a`. -/
theorem displayInfo_wide (a : ℚ) (ha2 : a ≤ 2 ^ 32)
    (hc : a > 3602879701896397 / 2251799813685248) :
    1 / 2 ^ 24 ≤ roundDouble (400 / a) ∧
      0 ≤ roundDouble (roundDouble (250 - roundDouble (400 / a)) / 2) ∧
      roundDouble (roundDouble (250 - roundDouble (400 / a)) / 2) + roundDouble (400 / a) ≤ 250 ∧
      |roundDouble (roundDouble (250 - roundDouble (400 / a)) / 2) -
          (250 - roundDouble (400 / a)) / 2| ≤ 1 / 2 ^ 43 ∧
      400 - 400 / 2 ^ 53 ≤ roundDouble (400 / a) * a ∧
      roundDouble (400 / a) * a ≤ 400 + 400 / 2 ^ 53 := by
  obtain ⟨_, c250, _, c128, _, _, _, _, c24, _⟩ := roundDouble_consts
  have ha : 0 < a := lt_trans (by norm_num) hc
  have hx1 : 400 / a < 250 := by
    rw [div_lt_iff₀ ha]
    linarith
  have hx2 : 1 / 2 ^ 24 ≤ 400 / a := by
    rw [div_le_div_iff₀ (by positivity) ha]
    linarith
  have hh1 : 1 / 2 ^ 24 ≤ roundDouble (400 / a) := by
    have := roundDouble_mono _ _ (by positivity) hx2
    rwa [c24] at this
  have hh2 : roundDouble (400 / a) ≤ 250 := by
    have := roundDouble_mono _ _ (by positivity) (le_of_lt hx1)
    rwa [c250] at this
  have hu : 250 - roundDouble (400 / a) = 0 ∨ 1 / 2 ^ 45 ≤ 250 - roundDouble (400 / a) := by
    rcases eq_or_lt_of_le hh2 with he | hlt
    · left; linarith
    · right
      by_cases hs : 400 / a < 128
      · have := roundDouble_mono _ _ (by positivity) (le_of_lt hs)
        rw [c128] at this
        have : (1 : ℚ) / 2 ^ 45 ≤ 1 := by norm_num
        linarith
      · have g := roundDouble_gap (400 / a) 250 7 8796093022208000 (by norm_num)
          (by norm_num; linarith [not_lt.mp hs]) (by norm_num; linarith) (by norm_num) hlt
        have : (2 : ℚ) ^ ((7 : ℤ) - 52) = 1 / 2 ^ 45 := by norm_num
        rw [this] at g
        linarith
  have r := roundDouble_relative (400 / a) (pow_neg1022_le _ 24 (by norm_num) hx2)
  rw [abs_le] at r
  have e1 : 400 / a * a = 400 := by field_simp
  have e2 : 400 / a / 2 ^ 53 * a = 400 / 2 ^ 53 := by field_simp; ring
  have rA1 : 400 - 400 / 2 ^ 53 ≤ roundDouble (400 / a) * a := by
    have := mul_le_mul_of_nonneg_right r.1 (le_of_lt ha)
    linarith
  have rA2 : roundDouble (400 / a) * a ≤ 400 + 400 / 2 ^ 53 := by
    have := mul_le_mul_of_nonneg_right r.2 (le_of_lt ha)
    linarith
  obtain ⟨y0, y1, y2⟩ := roundDouble_half _ hu
  refine ⟨hh1, y0, by linarith, ?_, rA1, rA2⟩
  refine le_trans y2 ?_
  rw [div_le_div_iff₀ (by positivity) (by positivity)]
  have hh0 : 0 ≤ roundDouble (400 / a) := le_trans (by positivity) hh1
  generalize roundDouble (400 / a) = h at hh0
  norm_num
  linarith

/-- The rectangle of an image not wider than the container: its width `w` and its horizontal
offset `x`, as computed from the rounded aspect ratio `a`. -/
theorem displayInfo_tall (a : ℚ) (ha1 : 1 / 2 ^ 32 ≤ a)
    (hc : a ≤ 3602879701896397 / 2251799813685248) :
    1 / 2 ^ 25 ≤ roundDouble (250 * a) ∧
      0 ≤ roundDouble (roundDouble (400 - roundDouble (250 * a)) / 2) ∧
      roundDouble (roundDouble (400 - roundDouble (250 * a)) / 2) + roundDouble (250 * a) ≤ 400 ∧
      |roundDouble (roundDouble (400 - roundDouble (250 * a)) / 2) -
          (400 - roundDouble (250 * a)) / 2| ≤ 1 / 2 ^ 43 ∧
      250 * a - 250 * a / 2 ^ 53 ≤ roundDouble (250 * a) ∧
      roundDouble (250 * a) ≤ 250 * a + 250 * a / 2 ^ 53 := by
  obtain ⟨_, _, _, _, c256, c250c, _, _, _, c25⟩ := roundDouble_consts
  have ha : 0 < a := lt_of_lt_of_le (by positivity) ha1
  have hx1 : 250 * a ≤ 250 * (3602879701896397 / 2251799813685248) := by linarith
  have hx2 : 1 / 2 ^ 25 ≤ 250 * a := by
    have : (1 : ℚ) / 2 ^ 25 ≤ 250 * (1 / 2 ^ 32) := by norm_num
    linarith
  have hw1 : 1 / 2 ^ 25 ≤ roundDouble (250 * a) := by
    have := roundDouble_mono _ _ (by positivity) hx2
    rwa [c25] at this
  have hw2 : roundDouble (250 * a) ≤ 400 := by
    have := roundDouble_mono _ _ (by positivity) hx1
    rwa [c250c] at this
  have hu : 400 - roundDouble (250 * a) = 0 ∨ 1 / 2 ^ 45 ≤ 400 - roundDouble (250 * a) := by
    rcases eq_or_lt_of_le hw2 with he | hlt
    · left; linarith
    · right
      by_cases hs : 250 * a < 256
      · have := roundDouble_mono _ _ (by positivity) (le_of_lt hs)
        rw [c256] at this
        have : (1 : ℚ) / 2 ^ 45 ≤ 1 := by norm_num
        linarith
      · have g := roundDouble_gap (250 * a) 400 8 7036874417766400 (by norm_num)
          (by norm_num; linarith [not_lt.mp hs]) (by norm_num; linarith) (by norm_num) hlt
        have : (2 : ℚ) ^ ((8 : ℤ) - 52) = 1 / 2 ^ 44 := by norm_num
        rw [this] at g
        have : (1 : ℚ) / 2 ^ 45 ≤ 1 / 2 ^ 44 := by norm_num
        linarith
  have r := roundDouble_relative (250 * a) (pow_neg1022_le _ 25 (by norm_num) hx2)
  rw [abs_le] at r
  obtain ⟨y0, y1, y2⟩ := roundDouble_half _ hu
  refine ⟨hw1, y0, by linarith, ?_, by linarith [r.1], by linarith [r.2]⟩
  refine le_trans y2 ?_
  rw [div_le_div_iff₀ (by positivity) (by positivity)]
  have hw0 : 0 ≤ roundDouble (250 * a) := le_trans (by positivity) hw1
  generalize roundDouble (250 * a) = w at hw0
  norm_num
  linarith

/-- C20, amended. For all natural dimensions of the image below `2 ^ 32`, a zero dimension
being replaced by 1, the rectangle that `_getImageDisplayInfo` computes in binary64 arithmetic
has positive width and height, lies inside the 400x250 container, and touches the container
in width or in height. Its offsets are the code's `(400 - width) / 2` and `(250 - height) / 2`
with the difference and the half rounded, which is within `2 ^ (-43)` of the exact centre, and
its aspect ratio is the one of the substituted dimensions up to a relative error of
`2 ^ (-51)`. -/
theorem getImageDisplayInfoWith_roundDouble_wellFormed (img : ImgElement)
    (hw : img.naturalWidth < 2 ^ 32) (hh : img.naturalHeight < 2 ^ 32) :
    ∃ d, getImageDisplayInfoWith roundDouble (some img) = some d ∧
      0 < d.width ∧ 0 < d.height ∧ 0 ≤ d.x ∧ 0 ≤ d.y ∧
      d.x + d.width ≤ 400 ∧ d.y + d.height ≤ 250 ∧
      d.x = roundDouble (roundDouble (400 - d.width) / 2) ∧
      d.y = roundDouble (roundDouble (250 - d.height) / 2) ∧
      |d.x - (400 - d.width) / 2| ≤ 1 / 2 ^ 43 ∧ |d.y - (250 - d.height) / 2| ≤ 1 / 2 ^ 43 ∧
      |d.width * (if img.naturalHeight = 0 then (1 : ℚ) else (img.naturalHeight : ℚ)) -
          d.height * (if img.naturalWidth = 0 then (1 : ℚ) else (img.naturalWidth : ℚ))| ≤
        d.width * (if img.naturalHeight = 0 then (1 : ℚ) else (img.naturalHeight : ℚ)) / 2 ^ 51 ∧
      (d.width = 400 ∨ d.height = 250) := by
  obtain ⟨hW1, hW2⟩ := substituted_bounds img.naturalWidth hw
  obtain ⟨hH1, hH2⟩ := substituted_bounds img.naturalHeight hh
  have c0 := roundDouble_consts.1
  simp only [getImageDisplayInfoWith, CONTAINER_WIDTH, CONTAINER_HEIGHT, c0]
  generalize (if img.naturalWidth = 0 then (1 : ℚ) else (img.naturalWidth : ℚ)) = W at hW1 hW2 ⊢
  generalize (if img.naturalHeight = 0 then (1 : ℚ) else (img.naturalHeight : ℚ)) = H
    at hH1 hH2 ⊢
  obtain ⟨ha1, ha2, hA1, hA2⟩ := aspect_bounds W H hW1 hW2 hH1 hH2
  generalize roundDouble (W / H) = a at ha1 ha2 hA1 hA2 ⊢
  have hH : 0 < H := by linarith
  have z0 : roundDouble (roundDouble (400 - 400) / 2) = 0 := by
    simp [roundDouble_zero]
  have z1 : roundDouble (roundDouble (250 - 250) / 2) = 0 := by
    simp [roundDouble_zero]
  by_cases hc : a > 3602879701896397 / 2251799813685248
  · rw [if_pos hc]
    obtain ⟨h1, y0, y1, y2, rA1, rA2⟩ := displayInfo_wide a ha2 hc
    have hpos : 0 < roundDouble (400 / a) := lt_of_lt_of_le (by positivity) h1
    exact ⟨_, rfl, by norm_num, hpos, le_refl (0 : ℚ), y0, by norm_num, y1, z0.symm, rfl,
      by norm_num, y2, aspect_wide_bound _ a W H hpos hH hA1 hA2 rA1 rA2, Or.inl rfl⟩
  · rw [if_neg hc]
    obtain ⟨h1, y0, y1, y2, r1, r2⟩ := displayInfo_tall a ha1 (not_lt.mp hc)
    have hpos : 0 < roundDouble (250 * a) := lt_of_lt_of_le (by positivity) h1
    exact ⟨_, rfl, hpos, by norm_num, y0, le_refl (0 : ℚ), y1, by norm_num, rfl, z1.symm,
      y2, by norm_num, aspect_tall_bound _ a W H hpos hH hA1 hA2 r1 r2, Or.inr rfl⟩

/-- C20, amended, at the 1536x640 image: the rectangle is 400 wide and about 166.67 high, inside
the container, with the aspect ratio kept up to `2 ^ (-51)`. -/
theorem getImageDisplayInfoWith_roundDouble_wellFormed_witness :
    ∃ d, getImageDisplayInfoWith roundDouble
        (some { naturalWidth := 1536, naturalHeight := 640, displayed := true }) = some d ∧
      0 < d.width ∧ 0 < d.height ∧ 0 ≤ d.x ∧ 0 ≤ d.y ∧
      d.x + d.width ≤ 400 ∧ d.y + d.height ≤ 250 ∧
      d.x = roundDouble (roundDouble (400 - d.width) / 2) ∧
      d.y = roundDouble (roundDouble (250 - d.height) / 2) ∧
      |d.x - (400 - d.width) / 2| ≤ 1 / 2 ^ 43 ∧ |d.y - (250 - d.height) / 2| ≤ 1 / 2 ^ 43 ∧
      |d.width * (if 640 = 0 then (1 : ℚ) else ((640 : ℕ) : ℚ)) -
          d.height * (if 1536 = 0 then (1 : ℚ) else ((1536 : ℕ) : ℚ))| ≤
        d.width * (if 640 = 0 then (1 : ℚ) else ((640 : ℕ) : ℚ)) / 2 ^ 51 ∧
      (d.width = 400 ∨ d.height = 250) :=
  getImageDisplayInfoWith_roundDouble_wellFormed
    { naturalWidth := 1536, naturalHeight := 640, displayed := true } (by decide) (by decide)

/-- C20, refuted as stated: in binary64 arithmetic the rectangle of the 1536x640 image is 400
wide and 2932031007402667 / 2 ^ 44 high, so that `width * 640` and `height * 1536` differ, and
the rectangle of the 500x1500 image stands `2 ^ (-47)` right of the centre. -/
theorem getImageDisplayInfoWith_roundDouble_aspect_inexact :
    (∃ d, getImageDisplayInfoWith roundDouble
        (some { naturalWidth := 1536, naturalHeight := 640, displayed := true }) = some d ∧
      d.width = 400 ∧ d.height = 2932031007402667 / 17592186044416 ∧
      d.width * 640 ≠ d.height * 1536) ∧
    (∃ d, getImageDisplayInfoWith roundDouble
        (some { naturalWidth := 500, naturalHeight := 1500, displayed := true }) = some d ∧
      d.x - (400 - d.width) / 2 = 1 / 2 ^ 47) :=
  ⟨⟨{ x := 0, y := 1466015503701333 / 35184372088832, width := 400,
      height := 2932031007402667 / 17592186044416 }, by decide!, rfl, rfl, by norm_num⟩,
    ⟨{ x := 5570858914065067 / 35184372088832, y := 0,
       width := 5864062014805333 / 70368744177664, height := 250 }, by decide!, by norm_num⟩⟩

/-! ## The rounded coordinate code -/

theorem renderFromWith_id (d : DisplayInfo) (idx : ℕ) (points : List Point) :
    renderFromWith id d idx points = renderFrom d idx points := by
  induction points generalizing idx with
  | nil => rfl
  | cons p rest ih =>
    simp only [renderFromWith, renderFrom, ih, id]

/-- With the identity for rounding, the rounded functions are the exact ones. -/
theorem getImageDisplayInfoWith_id (imgElement : Option ImgElement) :
    getImageDisplayInfoWith id imgElement = _getImageDisplayInfo imgElement := rfl

theorem clickPositionWith_id (e : ClickEvent) : clickPositionWith id e = clickPosition e := rfl

theorem renderMarkersWith_id (s : NodeState) : renderMarkersWith id s = _renderMarkers s := by
  unfold renderMarkersWith _renderMarkers
  rw [getImageDisplayInfoWith_id]
  split <;> simp only [renderFromWith_id]

theorem handleImageClickWith_id (s : NodeState) (e : ClickEvent) :
    handleImageClickWith id s e = _handleImageClick s e := by
  unfold handleImageClickWith _handleImageClick
  simp only [getImageDisplayInfoWith_id, clickPositionWith_id, renderMarkersWith_id, id]

theorem renderMarkersWith_pointsData (fl : ℚ → ℚ) (s : NodeState) :
    (renderMarkersWith fl s).pointsData = s.pointsData := by
  unfold renderMarkersWith; split <;> rfl

/-- C2, amended. A background click on a displayed image whose position `(px, py)`, as the
code computes it with the rounding `fl` after every operation, passes the range test of the
code against the display rectangle `d` appends exactly one point, of coordinates
`fl (fl (px - d.x) / d.width)` and `fl (fl (py - d.y) / d.height)` and of index `count + 1`,
and keeps the earlier points: so it is in binary64 arithmetic (`fl = roundDouble`) and in exact
arithmetic (`fl = id`). In exact arithmetic a click received through a container shown at
scale `(sx, sy) > 0` with its corner at `(left, top)` whose scale-corrected position
`(px, py)` lies inside the rectangle passes the test, and the appended point
`((px - d.x) / d.width, (py - d.y) / d.height)` mentions neither the scale nor the corner. -/
theorem handleImageClickWith_appends_point :
    (∀ (fl : ℚ → ℚ) (s : NodeState) (e : ClickEvent) (d : DisplayInfo),
      e.targetIsMarker = false → s.imgElement.displayed = true →
      0 < fl (e.containerRect.width / CONTAINER_WIDTH) →
      0 < fl (e.containerRect.height / CONTAINER_HEIGHT) →
      getImageDisplayInfoWith fl (some s.imgElement) = some d →
      0 < d.width → 0 < d.height →
      (d.x ≤ (clickPositionWith fl e).1 ∧ (clickPositionWith fl e).1 ≤ fl (d.x + d.width)) →
      (d.y ≤ (clickPositionWith fl e).2 ∧ (clickPositionWith fl e).2 ≤ fl (d.y + d.height)) →
      (handleImageClickWith fl s e).pointsData =
        s.pointsData ++
          [{ x := fl (fl ((clickPositionWith fl e).1 - d.x) / d.width),
             y := fl (fl ((clickPositionWith fl e).2 - d.y) / d.height),
             index := s.pointsData.length + 1 }]) ∧
    (∀ (s : NodeState) (d : DisplayInfo) (sx sy left top px py : ℚ)
      (caret : Option BoundaryPoint),
      s.imgElement.displayed = true → 0 < sx → 0 < sy →
      getImageDisplayInfoWith id (some s.imgElement) = some d →
      (d.x ≤ px ∧ px ≤ d.x + d.width) → (d.y ≤ py ∧ py ≤ d.y + d.height) →
      (handleImageClickWith id s
          { targetIsMarker := false, clientX := left + sx * px, clientY := top + sy * py,
            containerRect :=
              { left := left, top := top, width := sx * CONTAINER_WIDTH,
                height := sy * CONTAINER_HEIGHT },
            caret := caret }).pointsData =
        s.pointsData ++
          [{ x := (px - d.x) / d.width, y := (py - d.y) / d.height,
             index := s.pointsData.length + 1 }]) := by
  constructor
  · intro fl s e d hm hshown _ _ hd _ _ hx hy
    have hin : ¬ ((clickPositionWith fl e).1 < d.x ∨
        (clickPositionWith fl e).1 > fl (d.x + d.width) ∨
        (clickPositionWith fl e).2 < d.y ∨
        (clickPositionWith fl e).2 > fl (d.y + d.height)) := by
      rintro (h | h | h | h)
      · exact absurd hx.1 (not_le.mpr h)
      · exact absurd hx.2 (not_le.mpr h)
      · exact absurd hy.1 (not_le.mpr h)
      · exact absurd hy.2 (not_le.mpr h)
    unfold handleImageClickWith
    simp only [hm, hshown, hd, hin, Bool.false_eq_true, if_false, Bool.not_true,
      updatePromptData_pointsData, updatePointsWidget_pointsData, insertMarkerTag_pointsData,
      renderMarkersWith_pointsData]
  · intro s d sx sy left top px py caret hshown hsx hsy hd hx hy
    rw [handleImageClickWith_id]
    rw [getImageDisplayInfoWith_id] at hd
    have hpos := clickPosition_scaled sx sy left top px py caret false hsx hsy
    have hin : ¬ (px < d.x ∨ px > d.x + d.width ∨ py < d.y ∨ py > d.y + d.height) := by
      rintro (h | h | h | h)
      · exact absurd hx.1 (not_le.mpr h)
      · exact absurd hx.2 (not_le.mpr h)
      · exact absurd hy.1 (not_le.mpr h)
      · exact absurd hy.2 (not_le.mpr h)
    rw [handleImageClick_accepted s _ d rfl hshown hd (by rw [hpos]; exact hin)]
    simp only [updatePromptData_pointsData, updatePointsWidget_pointsData,
      insertMarkerTag_pointsData, renderMarkers_pointsData, hpos]

/-- C2, amended, at the 800x800 image of the specification shown at scale 1: in binary64
arithmetic a click at container pixel (200, 125) appends the point (0.5, 0.5) with index 1 to
the empty list, and so it does in exact arithmetic at scale 2 from the corner (10, 20). -/
theorem handleImageClickWith_appends_point_witness :
    (handleImageClickWith roundDouble withSquareImage (clickAt 200 125)).pointsData =
      [{ x := 1 / 2, y := 1 / 2, index := 1 }] ∧
    (handleImageClickWith id withSquareImage
        { targetIsMarker := false, clientX := 10 + 2 * 200, clientY := 20 + 2 * 125,
          containerRect :=
            { left := 10, top := 20, width := 2 * CONTAINER_WIDTH,
              height := 2 * CONTAINER_HEIGHT },
          caret := none }).pointsData =
      [{ x := 1 / 2, y := 1 / 2, index := 1 }] :=
  ⟨(handleImageClickWith_appends_point.1 roundDouble withSquareImage (clickAt 200 125)
      { x := 75, y := 0, width := 250, height := 250 } rfl rfl (by decide!) (by decide!)
      (by decide!) (by norm_num) (by norm_num) (by decide!) (by decide!)).trans (by decide!),
    (handleImageClickWith_appends_point.2 withSquareImage
      { x := 75, y := 0, width := 250, height := 250 } 2 2 10 20 200 125 none rfl
      (by norm_num) (by norm_num) (by decide!) (by norm_num) (by norm_num)).trans
      (by norm_num [withSquareImage, onNodeCreated])⟩

/-- C2, refuted as stated: the 1600x500 image is displayed in the rectangle of corner
(0, 62.5), width 400 and height 125. A click at client position (230, 215.625) on the
container shown 460 wide and 287.5 high (scale 1.15) has the scale-corrected position
(200, 187.5), on the lower edge of the rectangle, and in exact arithmetic it appends the point
(1/2, 1). In binary64 arithmetic the code computes `clickY = 187.50000000000003`, beyond the
edge, and appends nothing, while the click at the same position through the container shown
at scale 1 appends (1/2, 1): the outcome depends on the scale. -/
theorem handleImageClickWith_roundDouble_edge_rejected :
    _getImageDisplayInfo (some (withImage 1600 500).imgElement) =
      some { x := 0, y := 125 / 2, width := 400, height := 125 } ∧
    clickPosition (clickOn 460 (575 / 2) 230 (1725 / 8)) = (200, 375 / 2) ∧
    (_handleImageClick (withImage 1600 500) (clickOn 460 (575 / 2) 230 (1725 / 8))).pointsData =
      [{ x := 1 / 2, y := 1, index := 1 }] ∧
    getImageDisplayInfoWith roundDouble (some (withImage 1600 500).imgElement) =
      some { x := 0, y := 125 / 2, width := 400, height := 125 } ∧
    clickPositionWith roundDouble (clickOn 460 (575 / 2) 230 (1725 / 8)) =
      (7036874417766401 / 35184372088832, 6597069766656001 / 35184372088832) ∧
    (handleImageClickWith roundDouble (withImage 1600 500)
      (clickOn 460 (575 / 2) 230 (1725 / 8))).pointsData = [] ∧
    (handleImageClickWith roundDouble (withImage 1600 500)
      (clickOn 400 250 200 (375 / 2))).pointsData = [{ x := 1 / 2, y := 1, index := 1 }] := by
  refine ⟨by decide!, by decide!, by decide!, by decide!, by decide!, by decide!, by decide!⟩

/-- C15: in binary64 arithmetic a click on the right edge of the 500x1500 image, at client
position (203, 84) on the container shown 336 wide and 210 high (scale 0.84), passes the range
test of `_handleImageClick`, and the point stored for it has `x = 1 + 2 ^ (-52)`, above 1. -/
theorem handleImageClickWith_roundDouble_above_one :
    (handleImageClickWith roundDouble (withImage 500 1500) (clickOn 336 210 203 84)).pointsData =
      [{ x := 4503599627370497 / 4503599627370496, y := 3602879701896397 / 9007199254740992,
         index := 1 }] ∧
    (1 : ℚ) < 4503599627370497 / 4503599627370496 ∧
    ¬ InUnitSquare
      (handleImageClickWith roundDouble (withImage 500 1500) (clickOn 336 210 203 84)).pointsData := by
  have h : (handleImageClickWith roundDouble (withImage 500 1500)
      (clickOn 336 210 203 84)).pointsData =
      [{ x := 4503599627370497 / 4503599627370496, y := 3602879701896397 / 9007199254740992,
         index := 1 }] := by decide!
  refine ⟨h, by norm_num, ?_⟩
  rw [h]
  intro hu
  have := (hu _ (List.mem_singleton.mpr rfl)).1.2
  norm_num at this

/-! ## Tags at any depth of the prompt field -/

theorem placeholdersWith_append (l1 l2 : List (ℕ × List Char)) :
    placeholdersWith (l1 ++ l2) = placeholdersWith l1 ++ placeholdersWith l2 := by
  induction l1 with
  | nil => rfl
  | cons p rest ih =>
    obtain ⟨n, sep⟩ := p
    show placeholdersWith ((n, sep) :: (rest ++ l2)) = _
    simp only [placeholdersWith, ih, List.append_assoc]

/-- Two texts of placeholders, each with a text in front, joined into one. -/
theorem placeholdersWith_join (f1 f2 : List Char) (l1 l2 : List (ℕ × List Char)) :
    ∃ first l, l.map Prod.fst = l1.map Prod.fst ++ l2.map Prod.fst ∧
      f1 ++ placeholdersWith l1 ++ (f2 ++ placeholdersWith l2) = first ++ placeholdersWith l := by
  rcases List.eq_nil_or_concat l1 with h | ⟨init, last, h⟩
  · subst h
    exact ⟨f1 ++ f2, l2, by simp, by simp [placeholdersWith]⟩
  · subst h
    obtain ⟨n, sep⟩ := last
    refine ⟨f1, init ++ [(n, sep ++ f2)] ++ l2, by simp, ?_⟩
    simp only [List.concat_eq_append, placeholdersWith_append, placeholdersWith,
      List.append_assoc, List.append_nil, List.nil_append]
    rfl

mutual
/-- The text that `processNode` adds for one node: the placeholders of the tags below the node,
in document order, with text in front of the first, between them and behind the last. -/
theorem processNode_placeholders : (node : RNode) → (acc : List Char) →
    ∃ first l, l.map Prod.fst = tagsOfNode node ∧
      processNode acc node = acc ++ (first ++ placeholdersWith l)
  | .text content, acc => ⟨content, [], rfl, by simp [processNode, placeholdersWith]⟩
  | .tag n, acc => ⟨[], [(n, [])], rfl, by simp [processNode, placeholdersWith]⟩
  | .br, acc => ⟨[newline], [], rfl, by simp [processNode, placeholdersWith]⟩
  | .block children, acc => by
    simp only [processNode, tagsOfNode]
    split
    · obtain ⟨first, l, h1, h2⟩ := processNodes_placeholders children (acc ++ [newline])
      exact ⟨[newline] ++ first, l, h1, by rw [h2]; simp⟩
    · exact processNodes_placeholders children acc
  | .elem children, acc => by
    simp only [processNode, tagsOfNode]
    exact processNodes_placeholders children acc
  | .comment data, acc => ⟨data, [], rfl, by simp [processNode, placeholdersWith]⟩
/-- The text that the loop over sibling nodes adds. -/
theorem processNodes_placeholders : (nodes : List RNode) → (acc : List Char) →
    ∃ first l, l.map Prod.fst = tagsOfNodes nodes ∧
      processNodes acc nodes = acc ++ (first ++ placeholdersWith l)
  | [], acc => ⟨[], [], rfl, by simp [processNodes, placeholdersWith]⟩
  | node :: rest, acc => by
    obtain ⟨f1, l1, h1, e1⟩ := processNode_placeholders node acc
    obtain ⟨f2, l2, h2, e2⟩ := processNodes_placeholders rest (processNode acc node)
    obtain ⟨first, l, h3, e3⟩ := placeholdersWith_join f1 f2 l1 l2
    refine ⟨first, l, ?_, ?_⟩
    · rw [h3, h1, h2]
      rfl
    · simp only [processNodes]
      rw [e2, e1, ← e3]
      simp only [List.append_assoc]
end

theorem isDigit_not_whiteSpace (c : Char) (h : isDigit c = true) :
    isJSWhiteSpace c = false := by
  simp only [isDigit, Bool.and_eq_true, decide_eq_true_eq] at h
  simp only [isJSWhiteSpace, Bool.or_eq_false_iff, beq_eq_false_iff_ne, ne_eq,
    Bool.and_eq_false_iff, decide_eq_false_iff_not, not_le]
  omega

theorem dropWhile_append_cons (p : Char → Bool) (a t : List Char) (c : Char)
    (hc : p c = false) : (a ++ c :: t).dropWhile p = a.dropWhile p ++ c :: t := by
  induction a with
  | nil => simp [List.dropWhile, hc]
  | cons x a ih =>
    by_cases hx : p x = true
    · simp [List.dropWhile, hx, ih]
    · simp [List.dropWhile, hx]

/-- Trimming a text whose core begins and ends with a character that is no white space. -/
theorem jsTrim_core (a b mid : List Char) (c0 c1 : Char)
    (h0 : isJSWhiteSpace c0 = false) (h1 : isJSWhiteSpace c1 = false) :
    jsTrim (a ++ (c0 :: mid ++ [c1]) ++ b) =
      a.dropWhile isJSWhiteSpace ++ (c0 :: mid ++ [c1]) ++
        (b.reverse.dropWhile isJSWhiteSpace).reverse := by
  unfold jsTrim
  have e1 : a ++ (c0 :: mid ++ [c1]) ++ b = a ++ c0 :: (mid ++ [c1] ++ b) := by simp
  rw [e1, dropWhile_append_cons _ _ _ _ h0]
  have e2 : (a.dropWhile isJSWhiteSpace ++ c0 :: (mid ++ [c1] ++ b)).reverse =
      b.reverse ++ c1 :: (mid.reverse ++ c0 :: (a.dropWhile isJSWhiteSpace).reverse) := by simp
  rw [e2, dropWhile_append_cons _ _ _ _ h1]
  simp

/-- A non-empty text of placeholders begins with the first character of the prefix and ends,
before its last text, with a digit. -/
theorem placeholdersWith_core (l : List (ℕ × List Char)) (n : ℕ) (sep : List Char) :
    ∃ mid c1, isJSWhiteSpace c1 = false ∧
      placeholdersWith (l ++ [(n, sep)]) = (Char.ofNat 0x6807 :: mid ++ [c1]) ++ sep := by
  obtain ⟨hne, hdig, _⟩ := jsString_spec n
  obtain ⟨ds, c1, hds⟩ : ∃ ds c1, jsString n = ds ++ [c1] := by
    rcases List.eq_nil_or_concat (jsString n) with h | ⟨ds, c1, h⟩
    · exact absurd h hne
    · exact ⟨ds, c1, by rw [h, List.concat_eq_append]⟩
  have hc1 : isJSWhiteSpace c1 = false := by
    apply isDigit_not_whiteSpace
    apply hdig
    rw [hds]
    simp
  cases l with
  | nil =>
    refine ⟨[Char.ofNat 0x8BB0, Char.ofNat 0x70B9] ++ ds, c1, hc1, ?_⟩
    simp [placeholdersWith, markerPrefix, hds]
  | cons p rest =>
    obtain ⟨m, s⟩ := p
    refine ⟨[Char.ofNat 0x8BB0, Char.ofNat 0x70B9] ++ jsString m ++ s ++ placeholdersWith rest ++
      markerPrefix ++ ds, c1, hc1, ?_⟩
    show placeholdersWith ((m, s) :: (rest ++ [(n, sep)])) = _
    simp [placeholdersWith, placeholdersWith_append, markerPrefix, hds]

/-- Trimming keeps the placeholders: only the text in front of the first and the text behind
the last are shortened. -/
theorem jsTrim_placeholders (first : List Char) (l : List (ℕ × List Char)) :
    ∃ first' l', l'.map Prod.fst = l.map Prod.fst ∧
      jsTrim (first ++ placeholdersWith l) = first' ++ placeholdersWith l' := by
  rcases List.eq_nil_or_concat l with h | ⟨init, last, h⟩
  · subst h
    exact ⟨jsTrim first, [], rfl, by simp [placeholdersWith]⟩
  · subst h
    obtain ⟨n, sep⟩ := last
    rw [List.concat_eq_append]
    obtain ⟨mid, c1, hc1, hcore⟩ := placeholdersWith_core init n sep
    obtain ⟨mid', c1', _, hcore'⟩ := placeholdersWith_core init n
      (sep.reverse.dropWhile isJSWhiteSpace).reverse
    have hsame : Char.ofNat 0x6807 :: mid' ++ [c1'] = Char.ofNat 0x6807 :: mid ++ [c1] := by
      have a1 : placeholdersWith (init ++ [(n, sep)]) =
          placeholdersWith (init ++ [(n, [])]) ++ sep := by
        simp [placeholdersWith_append, placeholdersWith]
      have a2 : placeholdersWith
          (init ++ [(n, (sep.reverse.dropWhile isJSWhiteSpace).reverse)]) =
          placeholdersWith (init ++ [(n, [])]) ++
            (sep.reverse.dropWhile isJSWhiteSpace).reverse := by
        simp [placeholdersWith_append, placeholdersWith]
      rw [a1] at hcore
      rw [a2] at hcore'
      exact (List.append_cancel_right hcore').symm.trans (List.append_cancel_right hcore)
    refine ⟨first.dropWhile isJSWhiteSpace,
      init ++ [(n, (sep.reverse.dropWhile isJSWhiteSpace).reverse)], by simp, ?_⟩
    rw [hcore, hcore', hsame]
    have h := jsTrim_core first sep mid (Char.ofNat 0x6807) c1 (by decide) hc1
    simp only [List.append_assoc, List.cons_append] at h ⊢
    exact h

/-- C5, amended. When every tag index of the prompt field is at most `MAX_SAFE_INTEGER`, the
plain text computed by `_updatePromptData` is made of the placeholders of all marker tags of
the field, at any depth, in document order, with text in front of the first, between them
and behind the last; the placeholder of a tag of index `N` is the three characters U+6807
U+8BB0 U+70B9 followed by the decimal digits of `N`, not the word "Marker". -/
theorem updatePromptData_tag_contribution (s : NodeState)
    (_hsafe : ∀ N ∈ tagsOfNodes s.promptTextarea, N ≤ MAX_SAFE_INTEGER) :
    (∃ first l, l.map Prod.fst = tagsOfNodes s.promptTextarea ∧
      (_updatePromptData s).promptText = first ++ placeholdersWith l) ∧
    (∀ (N : ℕ) (sep : List Char) (rest : List (ℕ × List Char)),
      placeholdersWith ((N, sep) :: rest) =
        [Char.ofNat 0x6807, Char.ofNat 0x8BB0, Char.ofNat 0x70B9] ++ Nat.toDigits 10 N ++ sep ++
          placeholdersWith rest) := by
  refine ⟨?_, fun _ _ _ => rfl⟩
  obtain ⟨first, l, h1, h2⟩ := processNodes_placeholders s.promptTextarea []
  obtain ⟨first', l', h3, h4⟩ := jsTrim_placeholders first l
  refine ⟨first', l', h3.trans h1, ?_⟩
  simp only [_updatePromptData, h2, List.nil_append, h4]

/-- C5, amended, on the example of the specification with its two sentences in two `DIV` blocks
and the second tag inside a `SPAN`: the two tags, of indices 1 and 2, contribute their
placeholders in this order. -/
theorem updatePromptData_tag_contribution_witness :
    (∃ first l, l.map Prod.fst = [1, 2] ∧
      (_updatePromptData { onNodeCreated with promptTextarea := pickUpNested }).promptText =
        first ++ placeholdersWith l) ∧
    (_updatePromptData { onNodeCreated with promptTextarea := pickUpNested }).promptText =
      "Pick up 标记点1".toList ++ [newline] ++ "and move to 标记点2".toList :=
  ⟨(updatePromptData_tag_contribution { onNodeCreated with promptTextarea := pickUpNested }
    (by decide)).1, by decide⟩

end PointAndPrompt
